import Mathlib

/-!
AggregateVector: a structure-of-arrays container (`aggregate_vector.hpp`).

Shallow embedding of `av::vector<T>` and of its layout computation.

Modelling conventions
* An `int` is an integer in the range of 32 bits: a result that is stored in an `int` is
  converted by `to_int` (modulo `2^32`; signed overflow, undefined behaviour in C++, is
  taken to wrap like the conversion does).  A `size_t` has 64 bits (`to_size_t`).  The
  bitwise operators `&` and `~` are the two's-complement operations `Int.land` and
  `Int.not`; on a `size_t` operand `x` the value of `x & ~align` is
  `Int.land x (Int.not align)`.  Addresses and pointer differences are not truncated.
* The aggregate `T` is given by the list of its members (`Component`): `sizeof`,
  `alignof`, the value produced by value-initialisation `type()`, the value of `type(a)`
  for an argument `a`, and the state a move construction leaves its source in.
* A move construction writes the new object and leaves the source object in its
  moved-from state (`Mem.move_from`); a copy construction leaves the source as it is.
* A span object is addressed by the container it is a subobject of and its position
  there; it finds the size of its container at the address `this - Pos`
  (`vector_span.size_at`).  The member functions of a span that take the owning container
  as an argument stand for the calls in which this lookup has found it.
* Memory is byte addressed.  A byte of a block either is uninitialised or belongs to
  an object, recorded as the start offset of that object together with its value.  An
  object of `sz` bytes is read back only when all of its `sz` bytes still belong to it,
  so a write that overlaps an object destroys it.
* A pointer is a block number and a byte offset; block `0` is the null pointer.
* The allocator hands out fresh block numbers and records every call in a trace.
* Constructors of elements do not throw, except in the functions named `..._throwing`:
  there a predicate tells which construction throws, and the exception ends the call,
  since the header has no handler.
-/

namespace av

/-- Values stored in the members of an aggregate. -/
abbrev Val := Int

/-- Conversion of an integer to `int`: the value modulo `2^32` in the range
`-2^31 .. 2^31 - 1`. -/
def to_int (x : Int) : Int := (x + 2147483648) % 4294967296 - 2147483648

/-- Conversion of an integer to `size_t`: the value modulo `2^64`. -/
def to_size_t (x : Int) : Int := x % 18446744073709551616

/-- One member type of the aggregate: `sizeof(type)`, `alignof(type)`, the value of
`type()`, the value `convert a` of `type(a)` for an argument `a`, and the value `moved x`
that a move construction `type(std::move(obj))` leaves in `obj` when `obj` held `x`; the
new object holds `x`.  Both `sizeof` and `alignof` are positive for every C++ object
type. -/
structure Component where
  size : Nat
  align : Nat
  dflt : Val
  convert : Val → Val
  moved : Val → Val
  size_pos : 0 < size
  align_pos : 0 < align

/-- A pointer: allocation block (`0` for `nullptr`) and byte offset inside the block. -/
structure Ptr where
  block : Nat
  off : Int
deriving DecidableEq

/-- The null pointer. -/
def Ptr.null : Ptr := ⟨0, 0⟩

/-- Pointer arithmetic `p + k` on a pointer to objects of `sz` bytes. -/
def Ptr.add (p : Ptr) (k : Int) (sz : Nat) : Ptr := ⟨p.block, p.off + k * (sz : Int)⟩

/-- Pointer arithmetic `ptr + n` on a `std::byte*`. -/
def Ptr.add_bytes (p : Ptr) (n : Int) : Ptr := ⟨p.block, p.off + n⟩

/-- Byte-addressed memory: block, byte offset ↦ (start offset of the object owning the
byte, value of that object), or `none` for an uninitialised byte. -/
structure Mem where
  cell : Nat → Int → Option (Int × Val)

/-- Placement new `new (p) type(v)` of an object of `sz` bytes. -/
def Mem.store (m : Mem) (p : Ptr) (sz : Nat) (v : Val) : Mem :=
  ⟨fun b o =>
    if b = p.block ∧ p.off ≤ o ∧ o < p.off + (sz : Int) then some (p.off, v) else m.cell b o⟩

/-- Read `*p` for an object of `sz` bytes: defined when all `sz` bytes belong to one
object that starts at `p`. -/
def Mem.load (m : Mem) (p : Ptr) (sz : Nat) : Option Val :=
  match m.cell p.block p.off with
  | some (a, v) =>
    if a = p.off ∧ ∀ k < sz, m.cell p.block (p.off + (k : Int)) = some (p.off, v) then some v
    else none
  | none => none

/-- Placement new from another object, `new (dst) type(*src)`.  Reading an unconstructed
source is undefined behaviour and is modelled as leaving the memory untouched. -/
def Mem.construct_from (m : Mem) (dst src : Ptr) (sz : Nat) : Mem :=
  match m.load src sz with
  | some v => m.store dst sz v
  | none => m

/-- Placement new from an rvalue, `new (dst) type(std::move(*src))`: the new object
holds the value of the source, the source is left in its moved-from state.  Reading an
unconstructed source is undefined behaviour and is modelled as leaving the memory
untouched. -/
def Mem.move_from (m : Mem) (dst src : Ptr) (sz : Nat) (moved : Val → Val) : Mem :=
  match m.load src sz with
  | some v => (m.store dst sz v).store src sz (moved v)
  | none => m

/-- One call of the byte allocator. -/
inductive AllocEvent where
  | allocate (block : Nat) (nb_bytes : Int)
  | deallocate (block : Nat) (nb_bytes : Int)
deriving DecidableEq

/-- The memory together with the state of the allocator. -/
structure Heap where
  mem : Mem
  next : Nat
  trace : List AllocEvent

/-- The heap before any allocation; block `0` is reserved for the null pointer. -/
def Heap.empty : Heap := ⟨⟨fun _ _ => none⟩, 1, []⟩

/-- Allocator call `allocator_traits::allocate(allocator_, n)`: a fresh block. -/
def Heap.allocate (h : Heap) (n : Int) : Heap × Ptr :=
  ({ h with next := h.next + 1, trace := h.trace ++ [AllocEvent.allocate h.next n] }, ⟨h.next, 0⟩)

/-- The class `vector_span`: its only data member is `ptr_`. -/
structure vector_span where
  ptr_ : Ptr
deriving DecidableEq

/-- The class `vector`: the spans of `members<T>` in declaration order, `size_` of
`members_with_size`, `capacity_` and `nb_bytes_`. -/
structure vector where
  members : List vector_span
  size_ : Int
  capacity_ : Int
  nb_bytes_ : Int

/-- Accessor `vector::size`. -/
def vector.size (v : vector) : Int := v.size_

/-- Accessor `vector::capacity`. -/
def vector.capacity (v : vector) : Int := v.capacity_

/-- Default constructor `vector(Allocator)`: value-initialised base (null spans, size 0),
capacity 0 and 0 bytes. -/
def vector.init (T : List Component) : vector :=
  ⟨List.replicate T.length ⟨Ptr.null⟩, 0, 0, 0⟩

/-- Template function `update_shift<I>(tuple, nb, shift)`: `prev` is member `I - 1`, the
list holds the members `I, I + 1, ...`; the result lists the entries `I, I + 1, ...` that
the call writes into the tuple. -/
def update_shift (nb : Int) (shift : Int) (prev : Component) : List Component → List Int
  | [] => [to_int (to_size_t (shift + to_size_t (nb * (prev.size : Int))))]
  | type :: rest =>
    let align : Int := (type.align : Int) - 1
    let shift1 := to_int (to_size_t (shift +
      Int.land (to_size_t (to_size_t (nb * (prev.size : Int)) + align)) (Int.not align)))
    shift1 :: update_shift nb shift1 type rest

/-- The tuple `shift` of `allocate` after `update_shift<1>(shift, nb, 0)`: `arity + 1`
entries, entry `0` keeps its initial value `0`. -/
def shifts (T : List Component) (nb : Int) : List Int :=
  match T with
  | [] => [0]
  | c :: cs => 0 :: update_shift nb 0 c cs

/-- The byte offsets of the members: entries `0 .. arity - 1` of the tuple. -/
def offsets (T : List Component) (nb : Int) : List Int := (shifts T nb).take T.length

/-- The size of the buffer, `std::get<arity>(shift)`. -/
def total_bytes (T : List Component) (nb : Int) : Int := (shifts T nb).getD T.length 0

/-- Static function `create_members(ptr, shift, seq)`: span `I` points to
`ptr + std::get<I>(shift)`. -/
def create_members (ptr : Ptr) (shift : List Int) (arity : Nat) : List vector_span :=
  (shift.take arity).map fun s => ⟨ptr.add_bytes s⟩

/-- The struct `alloc_result`. -/
structure alloc_result where
  new_members : List vector_span
  nb_bytes : Int

/-- Member function `allocate(nb)`. -/
def vector.allocate (T : List Component) (h : Heap) (nb : Int) : Heap × alloc_result :=
  let shift := shifts T nb
  let nb_bytes := shift.getD T.length 0
  let a := h.allocate nb_bytes
  (a.1, ⟨create_members a.2 shift T.length, nb_bytes⟩)

/-- The loop `for (; it_src < end; ++it_src, ++it_dst) new (it_dst) type(std::move(*it_src))`
with `n` iterations left. -/
def move_loop (sz : Nat) (moved : Val → Val) : Nat → Ptr → Ptr → Mem → Mem
  | 0, _, _, m => m
  | n + 1, it_src, it_dst, m =>
    move_loop sz moved n (it_src.add 1 sz) (it_dst.add 1 sz) (m.move_from it_dst it_src sz moved)

/-- Static function `move_array(src, dst, nb)`.  The loop of each member runs from
`span_src.begin()` to `span_src.end()`, that is over `size` elements where `size` is the
size of the vector owning `src`; the parameter `nb` is not used by the source. -/
def move_array (size : Int) : List Component → List vector_span → List vector_span → Mem → Mem
  | type :: T, span_src :: src, span_dst :: dst, m =>
    move_array size T src dst
      (move_loop type.size type.moved size.toNat span_src.ptr_ span_dst.ptr_ m)
  | _, _, _, m => m

/-- Member function `reserve(capacity)`. -/
def vector.reserve (T : List Component) (h : Heap) (v : vector) (capacity : Int) : Heap × vector :=
  if capacity ≤ v.capacity then (h, v)
  else
    let a := vector.allocate T h capacity
    let m := move_array v.size T v.members a.2.new_members a.1.mem
    ({ a.1 with mem := m },
     { v with members := a.2.new_members, nb_bytes_ := a.2.nb_bytes, capacity_ := capacity })

/-- The loop `for (; it < end; ++it) new (it) type(val)` with `n` iterations left. -/
def construct_loop (sz : Nat) (val : Val) : Nat → Ptr → Mem → Mem
  | 0, _, m => m
  | n + 1, it, m => construct_loop sz val n (it.add 1 sz) (m.store it sz val)

/-- The `for_each` of `resize(size)`: every span default-constructs the elements from
`span.begin() + this->size()` to `span.begin() + size`. -/
def resize_each (size_ size : Int) : List Component → List vector_span → Mem → Mem
  | type :: T, span :: spans, m =>
    resize_each size_ size T spans
      (construct_loop type.size type.dflt (size - size_).toNat (span.ptr_.add size_ type.size) m)
  | _, _, m => m

/-- The `for_each` of `resize(size, value)`: every span copy-constructs the elements from
`span.begin() + this->size()` to `span.begin() + size` from the matching member of `value`. -/
def resize_each_value (size_ size : Int) :
    List Component → List vector_span → List Val → Mem → Mem
  | type :: T, span :: spans, val :: vals, m =>
    resize_each_value size_ size T spans vals
      (construct_loop type.size val (size - size_).toNat (span.ptr_.add size_ type.size) m)
  | _, _, _, m => m

/-- Member function `resize(size)`. -/
def vector.resize (T : List Component) (h : Heap) (v : vector) (size : Int) : Heap × vector :=
  if size ≤ v.size then (h, v)
  else
    let r := vector.reserve T h v size
    ({ r.1 with mem := resize_each r.2.size size T r.2.members r.1.mem },
     { r.2 with size_ := size })

/-- Member function `resize(size, value)`; `value` is the record given by its members. -/
def vector.resize_value (T : List Component) (h : Heap) (v : vector) (size : Int)
    (value : List Val) : Heap × vector :=
  if size ≤ v.size then (h, v)
  else
    let r := vector.reserve T h v size
    ({ r.1 with mem := resize_each_value r.2.size size T r.2.members value r.1.mem },
     { r.2 with size_ := size })

/-- Template function `emplace_back_impl<I>(tuple, components...)`: the overload with a
first argument constructs member `I` from it, `type(component)`, the overload without
arguments value-initialises it; both stop when `I` reaches the number of members. -/
def emplace_back_impl (size_ : Int) : List Component → List vector_span → List Val → Mem → Mem
  | type :: T, span :: spans, component :: nexts, m =>
    emplace_back_impl size_ T spans nexts
      (m.store (span.ptr_.add size_ type.size) type.size (type.convert component))
  | type :: T, span :: spans, [], m =>
    emplace_back_impl size_ T spans []
      (m.store (span.ptr_.add size_ type.size) type.size type.dflt)
  | _, _, _, m => m

/-- The constant `new_capacity` of `emplace_back`: `size() == 0 ? 1 : capacity() * 2`,
an `int`. -/
def vector.new_capacity (v : vector) : Int :=
  if v.size = 0 then 1 else to_int (v.capacity * 2)

/-- Member function `emplace_back(components...)`. -/
def vector.emplace_back (T : List Component) (h : Heap) (v : vector) (components : List Val) :
    Heap × vector :=
  let r :=
    if v.size = v.capacity then vector.reserve T h v v.new_capacity
    else (h, v)
  ({ r.1 with mem := emplace_back_impl r.2.size T r.2.members components r.1.mem },
   { r.2 with size_ := to_int (r.2.size_ + 1) })

/-- Member function `push_back(value)`: the record is decomposed into its members, which
are forwarded to `emplace_back`. -/
def vector.push_back (T : List Component) (h : Heap) (v : vector) (value : List Val) :
    Heap × vector :=
  vector.emplace_back T h v value

/-- Read `get_component<i>()[j]`. -/
def vector.get (T : List Component) (h : Heap) (v : vector) (i : Nat) (j : Int) : Option Val :=
  match T[i]?, v.members[i]? with
  | some c, some span => h.mem.load (span.ptr_.add j c.size) c.size
  | _, _ => none

/-- Round `x` up to the next multiple of `a`. -/
def round_up (x : Int) (a : Nat) : Int := (x + ((a : Int) - 1)) / (a : Int) * (a : Int)

/-- The layout calculation in the words of the specification, from a given cursor: the
offset of a field is the cursor; the cursor advances by `capacity * size`; it is then
rounded up to the alignment of the next field; nothing is rounded after the last field.
The result is the list of offsets and the final cursor. -/
def compute_layout_from (capacity : Int) (cursor : Int) : List Component → List Int × Int
  | [] => ([], cursor)
  | [c] => ([cursor], cursor + capacity * (c.size : Int))
  | c :: c1 :: rest =>
    let r := compute_layout_from capacity
      (round_up (cursor + capacity * (c.size : Int)) c1.align) (c1 :: rest)
    (cursor :: r.1, r.2)

/-- The specified `compute_layout(field_descriptors, capacity)`: the cursor starts at 0. -/
def compute_layout (T : List Component) (capacity : Int) : List Int × Int :=
  compute_layout_from capacity 0 T

/-- Every segment start `base + offset` is a multiple of the alignment of its member. -/
def segments_aligned (T : List Component) (base : Int) (offs : List Int) : Prop :=
  List.Forall₂ (fun c o => (c.align : Int) ∣ base + o) T offs

/-- The type `bool`: one byte, `bool(a)` is `true` (1) for every `a` other than 0; a move
of a scalar leaves its source as it is. -/
def type_bool : Component := ⟨1, 1, 0, fun a => if a = 0 then 0 else 1, id, by decide, by decide⟩

/-- The type `char`, for arguments that are values of the type. -/
def type_char : Component := ⟨1, 1, 0, id, id, by decide, by decide⟩

/-- The type `short`, for arguments that are values of the type. -/
def type_short : Component := ⟨2, 2, 0, id, id, by decide, by decide⟩

/-- The type `int`, for arguments that are values of the type. -/
def type_int : Component := ⟨4, 4, 0, id, id, by decide, by decide⟩

/-- The type `float`, for arguments that are values of the type. -/
def type_float : Component := ⟨4, 4, 0, id, id, by decide, by decide⟩

/-- The type `double`, for arguments that are values of the type. -/
def type_double : Component := ⟨8, 8, 0, id, id, by decide, by decide⟩

/-- The aggregate `user::physics_t` of `tests.cpp`: `bool`, `double`, `float`, `int`. -/
def physics_t : List Component := [type_bool, type_double, type_float, type_int]

/-- An aggregate `{ char a; short b; int c; }`. -/
def char_short_int : List Component := [type_char, type_short, type_int]

/-- The spans of a buffer with room for `nb` elements lie in block `blk`, in declaration
order, and the segment of each member ends before the segments of the later members
start. -/
def Separated (nb : Int) (blk : Nat) : List Component → List vector_span → Prop
  | [], [] => True
  | c :: cs, p :: ps =>
    p.ptr_.block = blk ∧ (∀ q ∈ ps, p.ptr_.off + nb * (c.size : Int) ≤ q.ptr_.off) ∧
      Separated nb blk cs ps
  | _, _ => False

/-- An upper bound of the entries that `update_shift` computes from the member `prev`
on, when its `shift` argument is 0: every segment of `nb` elements, and before each
member the largest padding its alignment can ask for. -/
def layout_bound_from (nb : Int) (prev : Component) : List Component → Int
  | [] => nb * (prev.size : Int)
  | type :: rest => nb * (prev.size : Int) + ((type.align : Int) - 1) +
      layout_bound_from nb type rest

/-- An upper bound of the byte size of a buffer for `nb` elements.  When it is below
`2^31`, no conversion to `int` in `allocate(nb)` changes a value. -/
def layout_bound (T : List Component) (nb : Int) : Int :=
  match T with
  | [] => nb
  | c :: cs => layout_bound_from nb c cs

/-- The growth step of `emplace_back` is not needed or goes well: for a full container,
`new_capacity` is larger than the capacity (doubling did not overflow) and the layout for
it is computed without truncation. -/
def vector.growth_fits (T : List Component) (v : vector) : Prop :=
  v.size = v.capacity →
    v.capacity < v.new_capacity ∧ layout_bound T v.new_capacity < 2147483648

/-- Representation invariant of a container: `0 ≤ size ≤ capacity`, and a container with
a positive capacity has a layout that is computed without truncation and owns a block
handed out by the allocator, its spans being the ones `allocate(capacity)` creates in
that block. -/
def vector.WF (T : List Component) (h : Heap) (v : vector) : Prop :=
  0 ≤ v.size_ ∧ v.size_ ≤ v.capacity_ ∧
    (0 < v.capacity_ → layout_bound T v.capacity_ < 2147483648 ∧ ∃ blk, blk < h.next ∧
      v.members = create_members ⟨blk, 0⟩ (shifts T v.capacity_) T.length)

/-- The states reached by consecutive `emplace_back` calls, one per argument list. -/
def emplace_back_states (T : List Component) : Heap × vector → List (List Val) →
    List (Heap × vector)
  | _, [] => []
  | s, a :: calls =>
    (vector.emplace_back T s.1 s.2 a) ::
      emplace_back_states T (vector.emplace_back T s.1 s.2 a) calls

/-- The capacities taken along a run: starting from capacity `c`, the new capacity of
every step that changed it. -/
def capacity_changes : Int → List Int → List Int
  | _, [] => []
  | c, c1 :: cs =>
    if c1 = c then capacity_changes c1 cs else c1 :: capacity_changes c1 cs

/-- Number of capacity changes made by the first `k` calls of `emplace_back` on a
default-constructed container: none for `k = 0`, else `⌈log₂ k⌉ + 1`. -/
def growth_count (k : Nat) : Nat := if k = 0 then 0 else Nat.clog 2 k + 1

/-- Capacity after the first `k` calls of `emplace_back` on a default-constructed
container: 0 for `k = 0`, else the least power of two that is at least `k`. -/
def growth_capacity (k : Nat) : Int := if k = 0 then 0 else 2 ^ Nat.clog 2 k

/-- The container of `test_vector` in `tests.cpp` after `reserve(4)`. -/
def test_reserve : Heap × vector :=
  vector.reserve physics_t Heap.empty (vector.init physics_t) 4

/-- The container of `test_vector` after `reserve(4)` and `resize(1)`. -/
def test_resize : Heap × vector :=
  vector.resize physics_t test_reserve.1 test_reserve.2 1

/-- The container of `test_vector` after `reserve(4)`, `resize(1)` and
`push_back({ true, 2.0, 3.f, 42 })`. -/
def test_push_back : Heap × vector :=
  vector.push_back physics_t test_resize.1 test_resize.2 [1, 2, 3, 42]

/-- The container of `test_vector` after `reserve(4)`, refilled by
`resize(4, { true, 2.0, 3.f, 42 })`: its size equals its capacity. -/
def test_resize_value : Heap × vector :=
  vector.resize_value physics_t test_reserve.1 test_reserve.2 4 [1, 2, 3, 42]

/-- Exceptions thrown by the container: `std::logic_error` and `std::out_of_range`. -/
inductive Exception where
  | logic_error
  | out_of_range
deriving DecidableEq

/-- Destructor call `p->~type()` on an object of `sz` bytes: its bytes become
uninitialised. -/
def Mem.destroy_at (m : Mem) (p : Ptr) (sz : Nat) : Mem :=
  ⟨fun b o => if b = p.block ∧ p.off ≤ o ∧ o < p.off + (sz : Int) then none else m.cell b o⟩

/-- The memory after a block is given back to the allocator: nothing of the block can be
read any more. -/
def Mem.free (m : Mem) (block : Nat) : Mem :=
  ⟨fun b o => if b = block then none else m.cell b o⟩

/-- Allocator call `allocator_traits::deallocate(allocator_, p, n)`. -/
def Heap.deallocate (h : Heap) (p : Ptr) (n : Int) : Heap :=
  { mem := h.mem.free p.block, next := h.next,
    trace := h.trace ++ [AllocEvent.deallocate p.block n] }

/-- Function `detail::for_each(tuple, f)` on one tuple: `f` is applied to every span, with
the type of its elements, in declaration order. -/
def for_each (f : Component → vector_span → Mem → Mem) :
    List Component → List vector_span → Mem → Mem
  | type :: T, span :: spans, m => for_each f T spans (f type span m)
  | _, _, m => m

/-- The loop `for (auto& val : span) val.~type()` with `n` iterations left. -/
def destroy_loop (sz : Nat) : Nat → Ptr → Mem → Mem
  | 0, _, m => m
  | n + 1, it, m => destroy_loop sz n (it.add 1 sz) (m.destroy_at it sz)

/-- Member function `destroy()`: every span destroys the elements from `begin()` to
`end()`, that is `size()` elements. -/
def vector.destroy (T : List Component) (h : Heap) (v : vector) : Heap :=
  let m :=
    for_each (fun type span m => destroy_loop type.size v.size.toNat span.ptr_ m)
      T v.members h.mem
  { h with mem := m }

/-- Member function `deallocate()`: nothing for capacity 0, else the buffer, found through
the pointer of the first span, goes back to the allocator. -/
def vector.deallocate (h : Heap) (v : vector) : Heap :=
  if v.capacity = 0 then h
  else h.deallocate (v.members.headD ⟨Ptr.null⟩).ptr_ v.nb_bytes_

/-- Member function `to_zero()`: value-initialised base (null spans, size 0), capacity 0
and 0 bytes. -/
def vector.to_zero (v : vector) : vector :=
  ⟨v.members.map fun _ => ⟨Ptr.null⟩, 0, 0, 0⟩

/-- Accessor `vector::empty`. -/
def vector.empty (v : vector) : Bool := decide (v.size = 0)

/-- Member function `clear()`. -/
def vector.clear (T : List Component) (h : Heap) (v : vector) : Heap × vector :=
  (vector.destroy T h v, { v with size_ := 0 })

/-- Member function `pop_back()`: the state after the call, and the exception thrown if
any.  The exception is thrown before anything is changed. -/
def vector.pop_back (T : List Component) (h : Heap) (v : vector) :
    (Heap × vector) × Option Exception :=
  if v.empty then ((h, v), some Exception.logic_error)
  else
    let v1 : vector := { v with size_ := to_int (v.size_ - 1) }
    let m :=
      for_each (fun type span m => m.destroy_at (span.ptr_.add v1.size type.size) type.size)
        T v1.members h.mem
    (({ h with mem := m }, v1), none)

/-- Move constructor `vector(vector&& rhs)`: the constructed container and `rhs` after the
call. -/
def vector.move_ctor (rhs : vector) : vector × vector :=
  (⟨rhs.members, rhs.size_, rhs.capacity, rhs.nb_bytes_⟩, rhs.to_zero)

/-- The loop `for (; it_src < end; ++it_src, ++it_dst) new (it_dst) type(*it_src)` with `n`
iterations left. -/
def copy_loop (sz : Nat) : Nat → Ptr → Ptr → Mem → Mem
  | 0, _, _, m => m
  | n + 1, it_src, it_dst, m =>
    copy_loop sz n (it_src.add 1 sz) (it_dst.add 1 sz) (m.construct_from it_dst it_src sz)

/-- Static function `copy_array(src, dst, nb)`.  As in `move_array`, the loop of each
member runs over `size` elements, the size of the vector owning `src`, and `nb` is not
used. -/
def copy_array (size : Int) : List Component → List vector_span → List vector_span → Mem → Mem
  | type :: T, span_src :: src, span_dst :: dst, m =>
    copy_array size T src dst (copy_loop type.size size.toNat span_src.ptr_ span_dst.ptr_ m)
  | _, _, _, m => m

/-- Copy constructor `vector(vector const& rhs)`: the base (spans and size) and the byte
count are copied from `rhs`, the capacity is `rhs.size()`; for an empty `rhs` that is all,
otherwise a buffer for `size()` elements is allocated and filled by `copy_array`. -/
def vector.copy_ctor (T : List Component) (h : Heap) (rhs : vector) : Heap × vector :=
  let this : vector := ⟨rhs.members, rhs.size_, rhs.size, rhs.nb_bytes_⟩
  if rhs.empty then (h, this)
  else
    let a := vector.allocate T h this.size
    let m := copy_array rhs.size T rhs.members a.2.new_members a.1.mem
    ({ a.1 with mem := m }, { this with members := a.2.new_members, nb_bytes_ := a.2.nb_bytes })

/-- Move assignment `operator=(vector&& rhs)`: the heap, the assigned container and `rhs`
after the call. -/
def vector.move_assign (T : List Component) (h : Heap) (this rhs : vector) :
    Heap × vector × vector :=
  let h1 := vector.destroy T h this
  let h2 := vector.deallocate h1 this
  (h2, ⟨rhs.members, rhs.size_, rhs.capacity, rhs.nb_bytes_⟩, rhs.to_zero)

/-- Copy assignment `operator=(vector const& rhs)`. -/
def vector.copy_assign (T : List Component) (h : Heap) (this rhs : vector) : Heap × vector :=
  let size := rhs.size
  let r : Heap × vector :=
    if this.capacity < size then
      let h1 := vector.destroy T h this
      let h2 := vector.deallocate h1 this
      let a := vector.allocate T h2 size
      let this1 : vector :=
        { this with members := a.2.new_members, nb_bytes_ := a.2.nb_bytes, capacity_ := size }
      (a.1, this1)
    else (vector.destroy T h this, this)
  ({ r.1 with mem := copy_array rhs.size T rhs.members r.2.members r.1.mem },
   { r.2 with size_ := size })

/-- Write `get_component<i>()[j] = val`. -/
def vector.set (T : List Component) (h : Heap) (v : vector) (i : Nat) (j : Int) (val : Val) :
    Heap :=
  match T[i]?, v.members[i]? with
  | some c, some span => { h with mem := h.mem.store (span.ptr_.add j c.size) c.size val }
  | _, _ => h

/-- Member function `vector_span::data`. -/
def vector_span.data (s : vector_span) : Ptr := s.ptr_

/-- Macro `AV_PP_MAP(AV_PP_MEMBER, type, members...)` of `AV_DEFINE_TYPE`: one span
`vector_span<n, type, ...>` per listed member, `n` counting from the start value (0 in
`AV_PP_MAP`, `n+1` at each step).  The result lists the template argument `Pos` of the
generated spans. -/
def av_pp_map_pos : Nat → List Component → List Nat
  | _, [] => []
  | n, _ :: rest => n :: av_pp_map_pos (n + 1) rest

/-- The address of a span object: the container object it is a subobject of (its position
in the list of the containers of a program) and its position, in spans, from the start of
that object.  A `members<T>` object, hence a `members_with_size<T>` and a container, starts
at position 0. -/
structure span_addr where
  obj : Nat
  pos : Int
deriving DecidableEq

/-- Pointer arithmetic `this - Pos` on the address of a span. -/
def span_addr.sub (this : span_addr) (Pos : Nat) : span_addr := ⟨this.obj, this.pos - (Pos : Int)⟩

/-- Member function `vector_span<Pos, ...>::size` of the span at address `this`:
`mem_ptr = this - Pos` is cast to `members_with_size` and its `size_` is read.  The read
gives the `size_` of a container when a container object starts at `mem_ptr`, and is not
the read of an object otherwise. -/
def vector_span.size_at (objs : List vector) (Pos : Nat) (this : span_addr) : Option Int :=
  let mem_ptr := this.sub Pos
  if mem_ptr.pos = 0 then (objs[mem_ptr.obj]?).map vector.size_ else none

/-- The span object at an address. -/
def span_addr.deref (objs : List vector) (this : span_addr) : Option vector_span :=
  match objs[this.obj]? with
  | some v => if 0 ≤ this.pos then v.members[this.pos.toNat]? else none
  | none => none

/-- Member function `vector_span<Pos, ...>::end` of the span at address `this`:
`ptr_ + size()`, with `size()` as in `vector_span.size_at`. -/
def vector_span.end_at (objs : List vector) (Pos : Nat) (this : span_addr) (sz : Nat) :
    Option Ptr :=
  match this.deref objs, vector_span.size_at objs Pos this with
  | some s, some n => some (s.ptr_.add n sz)
  | _, _ => none

/-- Member function `vector_span::size` once the owner is found: the `size_` of the
container `owner` that `this - Pos` designates (see `vector_span.size_at`). -/
def vector_span.size (_s : vector_span) (owner : vector) : Int := owner.size_

/-- Member function `vector_span::operator[]`: a reference to `ptr_[i]`, given as the
address of the element. -/
def vector_span.subscript (s : vector_span) (sz : Nat) (i : Int) : Ptr := s.ptr_.add i sz

/-- Member function `vector_span::at_check`: the exception thrown, if any. -/
def vector_span.at_check (s : vector_span) (owner : vector) (i : Int) : Option Exception :=
  if i ≥ s.size owner then some Exception.out_of_range else none

/-- Member function `vector_span::at`: `at_check(i)`, then a reference to `ptr_[i]`. -/
def vector_span.at_ (s : vector_span) (owner : vector) (sz : Nat) (i : Int) :
    Except Exception Ptr :=
  match s.at_check owner i with
  | some e => Except.error e
  | none => Except.ok (s.ptr_.add i sz)

/-- Member function `vector_span::begin`. -/
def vector_span.begin (s : vector_span) : Ptr := s.ptr_

/-- Member function `vector_span::end`: `ptr_ + size()`. -/
def vector_span.end_ (s : vector_span) (owner : vector) (sz : Nat) : Ptr :=
  s.ptr_.add (s.size owner) sz

/-- Pointer difference `p - q` of two pointers to objects of `sz` bytes. -/
def Ptr.diff (p q : Ptr) (sz : Nat) : Int := (p.off - q.off) / (sz : Int)

/-- The public mutating operations of a container. -/
inductive Mutation where
  | reserve (capacity : Int)
  | resize (size : Int)
  | resize_value (size : Int) (value : List Val)
  | emplace_back (components : List Val)
  | push_back (value : List Val)
  | pop_back
  | clear
  | write (i : Nat) (j : Int) (val : Val)

/-- The heap and the container after a mutating operation. -/
def Mutation.apply (T : List Component) (h : Heap) (v : vector) : Mutation → Heap × vector
  | Mutation.reserve capacity => vector.reserve T h v capacity
  | Mutation.resize size => vector.resize T h v size
  | Mutation.resize_value size value => vector.resize_value T h v size value
  | Mutation.emplace_back components => vector.emplace_back T h v components
  | Mutation.push_back value => vector.push_back T h v value
  | Mutation.pop_back => (vector.pop_back T h v).1
  | Mutation.clear => vector.clear T h v
  | Mutation.write i j val => (vector.set T h v i j val, v)

/-- Block `b` is not the buffer of the container. -/
def vector.foreign (v : vector) (b : Nat) : Prop :=
  0 < v.capacity_ → ∀ p ∈ v.members, p.ptr_.block ≠ b

/-- Two containers in one heap, each satisfying the representation invariant, that own
different buffers. -/
def Independent (T : List Component) (h : Heap) (a b : vector) : Prop :=
  a.WF T h ∧ b.WF T h ∧
    (0 < a.capacity_ → 0 < b.capacity_ →
      ∀ p ∈ a.members, ∀ q ∈ b.members, p.ptr_.block ≠ q.ptr_.block)

/-- The copy of the container of `test_vector` taken after `reserve(4)`, when it is still
empty. -/
def test_copy_empty : Heap × vector :=
  vector.copy_ctor physics_t test_reserve.1 test_reserve.2

/-- The copy `j` of the container of `test_vector`, taken after `push_back`. -/
def test_copy : Heap × vector :=
  vector.copy_ctor physics_t test_push_back.1 test_push_back.2

/-- How a call ended: it returned, or an exception thrown by the constructor of an element
propagated out of it. -/
inductive Outcome where
  | returned
  | threw
deriving DecidableEq

/-- Member function `shrink_to_fit()`.  It calls `reallocate(size())`; the header neither
declares nor defines a function `reallocate`, which is a parameter here. -/
def vector.shrink_to_fit (reallocate : Heap → vector → Int → Heap × vector) (h : Heap)
    (v : vector) : Heap × vector :=
  if v.size = v.capacity then (h, v) else reallocate h v v.size

/-- The blocks that are live after the allocator calls of a trace, in the order of the
calls. -/
def live_after (trace : List AllocEvent) : List Nat :=
  trace.foldl (fun live e =>
    match e with
    | AllocEvent.allocate b _ => live ++ [b]
    | AllocEvent.deallocate b _ => live.erase b) []

/-- The loop of `move_array` when move constructors may throw: `throws it_src` tells
whether moving the element at `it_src` throws; the loop ends there and the exception
propagates.  A move constructor that throws constructs nothing and is taken to leave its
source as it was. -/
def move_loop_throwing (throws : Ptr → Bool) (sz : Nat) (moved : Val → Val) :
    Nat → Ptr → Ptr → Mem → Mem × Outcome
  | 0, _, _, m => (m, Outcome.returned)
  | n + 1, it_src, it_dst, m =>
    if throws it_src then (m, Outcome.threw)
    else
      move_loop_throwing throws sz moved n (it_src.add 1 sz) (it_dst.add 1 sz)
        (m.move_from it_dst it_src sz moved)

/-- Static function `move_array(src, dst, nb)` when move constructors may throw: nothing
catches the exception, so the members after the throwing one are not visited. -/
def move_array_throwing (throws : Ptr → Bool) (size : Int) :
    List Component → List vector_span → List vector_span → Mem → Mem × Outcome
  | type :: T, span_src :: src, span_dst :: dst, m =>
    let r :=
      move_loop_throwing throws type.size type.moved size.toNat span_src.ptr_ span_dst.ptr_ m
    match r.2 with
    | Outcome.threw => r
    | Outcome.returned => move_array_throwing throws size T src dst r.1
  | _, _, _, m => (m, Outcome.returned)

/-- Member function `reserve(capacity)` when move constructors may throw: the statements
after `move_array` are not reached when it throws. -/
def vector.reserve_throwing (throws : Ptr → Bool) (T : List Component) (h : Heap) (v : vector)
    (capacity : Int) : (Heap × vector) × Outcome :=
  if capacity ≤ v.capacity then ((h, v), Outcome.returned)
  else
    let a := vector.allocate T h capacity
    let r := move_array_throwing throws v.size T v.members a.2.new_members a.1.mem
    let h1 : Heap := { a.1 with mem := r.1 }
    let v1 : vector :=
      { v with members := a.2.new_members, nb_bytes_ := a.2.nb_bytes, capacity_ := capacity }
    match r.2 with
    | Outcome.threw => ((h1, v), Outcome.threw)
    | Outcome.returned => ((h1, v1), Outcome.returned)

/-- Template function `emplace_back_impl<I>` when the constructors of the new element may
throw: `throws I` tells whether the construction of member `I` throws; the members after
it are not constructed. -/
def emplace_back_impl_throwing (throws : Nat → Bool) (size_ : Int) :
    Nat → List Component → List vector_span → List Val → Mem → Mem × Outcome
  | I, type :: T, span :: spans, component :: nexts, m =>
    if throws I then (m, Outcome.threw)
    else
      emplace_back_impl_throwing throws size_ (I + 1) T spans nexts
        (m.store (span.ptr_.add size_ type.size) type.size (type.convert component))
  | I, type :: T, span :: spans, [], m =>
    if throws I then (m, Outcome.threw)
    else
      emplace_back_impl_throwing throws size_ (I + 1) T spans []
        (m.store (span.ptr_.add size_ type.size) type.size type.dflt)
  | _, _, _, _, m => (m, Outcome.returned)

/-- Member function `emplace_back(components...)` when the constructors of the new element
may throw (`throws I` for member `I`); the growth step is the one of `emplace_back`.
Nothing catches an exception, so the statements after the throwing call are not reached;
`++this->size_` is the last one. -/
def vector.emplace_back_throwing (throws : Nat → Bool) (T : List Component) (h : Heap)
    (v : vector) (components : List Val) : (Heap × vector) × Outcome :=
  let r := if v.size = v.capacity then vector.reserve T h v v.new_capacity else (h, v)
  let e := emplace_back_impl_throwing throws r.2.size 0 T r.2.members components r.1.mem
  let h1 : Heap := { r.1 with mem := e.1 }
  match e.2 with
  | Outcome.threw => ((h1, r.2), Outcome.threw)
  | Outcome.returned => ((h1, { r.2 with size_ := to_int (r.2.size_ + 1) }), Outcome.returned)

/-- The constant `detail::max_arity`. -/
def max_arity : Nat := 10

/-- Static function `check_members()`: its two `static_assert`s demand that `members<T>`
is not empty and has at most `max_arity` spans. -/
def check_members (T : List Component) : Bool :=
  !T.isEmpty && decide (T.length ≤ max_arity)

/-- An aggregate with one member of an over-aligned type, `struct alignas(32) { float x[8]; }`. -/
def over_aligned_t : List Component := [⟨32, 32, 0, id, id, by decide, by decide⟩]

/-- An aggregate `{ char a; }`. -/
def char_t : List Component := [type_char]

/-- A member type that owns a resource, as a string does: its objects take 8 bytes here,
its arguments are values of the type, a move leaves its source empty (0), and its move
constructor may throw. -/
def type_owner : Component := ⟨8, 8, 0, id, fun _ => 0, by decide, by decide⟩

/-- An aggregate `{ owner a; }`. -/
def owner_t : List Component := [type_owner]

/-- A container of `owner_t` after `reserve(2)` and `emplace_back(5)`. -/
def test_owner : Heap × vector :=
  vector.emplace_back owner_t (vector.reserve owner_t Heap.empty (vector.init owner_t) 2).1
    (vector.reserve owner_t Heap.empty (vector.init owner_t) 2).2 [5]

/-- A container of `owner_t` after `reserve(2)`, `emplace_back(5)` and `emplace_back(6)`:
its size equals its capacity. -/
def test_owners : Heap × vector :=
  vector.emplace_back owner_t test_owner.1 test_owner.2 [6]

/-- A step of a program that uses containers of one aggregate; a container is named by
its position in the list of the containers constructed so far. -/
inductive Step where
  | construct
  | copy_construct (k : Nat)
  | move_construct (k : Nat)
  | copy_assign (i k : Nat)
  | move_assign (i k : Nat)
  | mutate (i : Nat) (mu : Mutation)

/-- The heap and the containers after a step; a step naming a container that does not
exist does nothing. -/
def Step.apply (T : List Component) (s : Heap × List vector) : Step → Heap × List vector
  | Step.construct => (s.1, s.2 ++ [vector.init T])
  | Step.copy_construct k =>
    match s.2[k]? with
    | some rhs => ((vector.copy_ctor T s.1 rhs).1, s.2 ++ [(vector.copy_ctor T s.1 rhs).2])
    | none => s
  | Step.move_construct k =>
    match s.2[k]? with
    | some rhs => (s.1, s.2.set k (vector.move_ctor rhs).2 ++ [(vector.move_ctor rhs).1])
    | none => s
  | Step.copy_assign i k =>
    match s.2[i]?, s.2[k]? with
    | some this, some rhs =>
      ((vector.copy_assign T s.1 this rhs).1, s.2.set i (vector.copy_assign T s.1 this rhs).2)
    | _, _ => s
  | Step.move_assign i k =>
    match s.2[i]?, s.2[k]? with
    | some this, some rhs =>
      ((vector.move_assign T s.1 this rhs).1,
        (s.2.set i (vector.move_assign T s.1 this rhs).2.1).set k
          (vector.move_assign T s.1 this rhs).2.2)
    | _, _ => s
  | Step.mutate i mu =>
    match s.2[i]? with
    | some v => ((mu.apply T s.1 v).1, s.2.set i (mu.apply T s.1 v).2)
    | none => s

/-- The heap and the containers after a program, a list of steps run from the empty heap
with no container. -/
def run (T : List Component) (steps : List Step) : Heap × List vector :=
  steps.foldl (fun s st => st.apply T s) (Heap.empty, [])

/-- The start of `test_vector` in `tests.cpp` as a program: the container is constructed,
then `reserve(4)`, `resize(1)`, `push_back({ true, 2.0, 3.f, 42 })` and the copy `j`. -/
def test_steps : List Step :=
  [Step.construct, Step.mutate 0 (Mutation.reserve 4), Step.mutate 0 (Mutation.resize 1),
   Step.mutate 0 (Mutation.push_back [1, 2, 3, 42]), Step.copy_construct 0]

/-- Precondition on the arguments of a mutating operation for the `int` arithmetic on
`size_` and `capacity_` to stay in range: a requested capacity or size is an `int`, and
`emplace_back` / `push_back` on a full container doubles a capacity below `2^30`. -/
def Mutation.in_range (v : vector) : Mutation → Prop
  | Mutation.reserve capacity => capacity < 2147483648
  | Mutation.resize size => size < 2147483648
  | Mutation.resize_value size _ => size < 2147483648
  | Mutation.emplace_back _ => v.size_ = v.capacity_ → v.capacity_ < 1073741824
  | Mutation.push_back _ => v.size_ = v.capacity_ → v.capacity_ < 1073741824
  | _ => True

/-- The precondition `Mutation.in_range` for a step of a program, in the state the step
runs in. -/
def Step.in_range (s : Heap × List vector) : Step → Prop
  | Step.mutate i mu =>
    match s.2[i]? with
    | some v => mu.in_range v
    | none => True
  | _ => True

/-- Every step of a program run from state `s` satisfies `Step.in_range` in the state it
runs in. -/
def steps_in_range (T : List Component) : Heap × List vector → List Step → Prop
  | _, [] => True
  | s, st :: rest => st.in_range s ∧ steps_in_range T (st.apply T s) rest

/-- An aggregate `{ double d; char c; char e; }`. -/
def double_char_char : List Component := [type_double, type_char, type_char]

/-- A default-constructed container of `double_char_char` after `reserve(1 << 29)`. -/
def test_wrapped : Heap × vector :=
  vector.reserve double_char_char Heap.empty (vector.init double_char_char) 536870912

/-- The container of `test_wrapped` after `resize(8)`. -/
def test_wrapped_8 : Heap × vector :=
  vector.resize double_char_char test_wrapped.1 test_wrapped.2 8

/-- A default-constructed container of `double_char_char` after `emplace_back(1.0, 'x', 'y')`. -/
def test_dcc : Heap × vector :=
  vector.emplace_back double_char_char Heap.empty (vector.init double_char_char) [1, 120, 121]

/-- A default-constructed container of `char_t` after `resize(1 << 30)`: its size and its
capacity are `2^30`. -/
def test_full : Heap × vector :=
  vector.resize char_t Heap.empty (vector.init char_t) 1073741824

/-- A program on a container of `char_t`: construction, `reserve(1 << 30)`,
`resize(1 << 30)` and `emplace_back()`. -/
def test_full_steps : List Step :=
  [Step.construct, Step.mutate 0 (Mutation.reserve 1073741824),
   Step.mutate 0 (Mutation.resize 1073741824), Step.mutate 0 (Mutation.emplace_back [])]

/-! ## Bitwise padding -/

theorem ldiff_add_land (x m : Nat) : Nat.ldiff x m + (x &&& m) = x := by
  induction x using Nat.binaryRec generalizing m with
  | z => simp [Nat.ldiff]
  | f a x ih =>
    cases m using Nat.binaryRec with
    | z => simp [Nat.ldiff]
    | f b m _ =>
      rw [Nat.ldiff_bit, Nat.land_bit]
      have := ih m
      cases a <;> cases b <;> simp [Nat.bit] <;> omega

theorem land_not_eq (x m : Int) (hx : 0 ≤ x) (hm : 0 ≤ m) :
    Int.land x (Int.not m) = x - Int.land x m := by
  obtain ⟨x, rfl⟩ := Int.eq_ofNat_of_zero_le hx
  obtain ⟨m, rfl⟩ := Int.eq_ofNat_of_zero_le hm
  show ((Nat.ldiff x m : Nat) : Int) = (x : Int) - ((x &&& m : Nat) : Int)
  have := ldiff_add_land x m
  omega

theorem land_bounds (x m : Int) (hx : 0 ≤ x) (hm : 0 ≤ m) :
    0 ≤ Int.land x m ∧ Int.land x m ≤ m := by
  obtain ⟨x, rfl⟩ := Int.eq_ofNat_of_zero_le hx
  obtain ⟨m, rfl⟩ := Int.eq_ofNat_of_zero_le hm
  show (0 : Int) ≤ ((x &&& m : Nat) : Int) ∧ ((x &&& m : Nat) : Int) ≤ (m : Int)
  have := @Nat.and_le_right x m
  omega

/-- The padded increment `(x + align) & ~align` is never smaller than `x`. -/
theorem le_pad (x m : Int) (hx : 0 ≤ x) (hm : 0 ≤ m) :
    x ≤ Int.land (x + m) (Int.not m) := by
  rw [land_not_eq _ _ (by omega) hm]
  have := land_bounds (x + m) m (by omega) hm
  omega

theorem le_pad_component (nb : Int) (hnb : 0 ≤ nb) (prev type : Component) :
    nb * (prev.size : Int) ≤
      Int.land (nb * (prev.size : Int) + ((type.align : Int) - 1))
        (Int.not ((type.align : Int) - 1)) := by
  have h1 : 0 ≤ nb * (prev.size : Int) := by positivity
  have h2 : (0 : Int) ≤ (type.align : Int) - 1 := by
    have := type.align_pos
    omega
  exact le_pad _ _ h1 h2

/-! ## The layout computation -/

theorem update_shift_length (nb shift : Int) (prev : Component) (rest : List Component) :
    (update_shift nb shift prev rest).length = rest.length + 1 := by
  induction rest generalizing shift prev with
  | nil => rfl
  | cons type rest ih => simp [update_shift, ih]

theorem shifts_length (T : List Component) (nb : Int) : (shifts T nb).length = T.length + 1 := by
  cases T with
  | nil => rfl
  | cons c cs => simp [shifts, update_shift_length]

theorem offsets_length (T : List Component) (nb : Int) : (offsets T nb).length = T.length := by
  simp [offsets, shifts_length]

theorem to_int_of_range (x : Int) (h0 : -2147483648 ≤ x) (h1 : x < 2147483648) :
    to_int x = x := by
  unfold to_int
  omega

theorem to_size_t_of_range (x : Int) (h0 : 0 ≤ x) (h1 : x < 18446744073709551616) :
    to_size_t x = x := by
  unfold to_size_t
  omega

theorem layout_bound_from_nonneg (nb : Int) (hnb : 0 ≤ nb) (prev : Component)
    (rest : List Component) : nb * (prev.size : Int) ≤ layout_bound_from nb prev rest := by
  induction rest generalizing prev with
  | nil => exact le_refl _
  | cons type rest ih =>
    simp only [layout_bound_from]
    have h1 := ih type
    have h2 : 0 ≤ nb * (type.size : Int) := by positivity
    have h3 := type.align_pos
    omega

/-- The last entry of the tuple, when nothing is truncated. -/
theorem update_shift_nil (nb : Int) (hnb : 0 ≤ nb) (shift : Int) (hs : 0 ≤ shift)
    (prev : Component) (hb : shift + nb * (prev.size : Int) < 2147483648) :
    update_shift nb shift prev [] = [shift + nb * (prev.size : Int)] := by
  have h1 : 0 ≤ nb * (prev.size : Int) := by positivity
  simp only [update_shift]
  rw [to_size_t_of_range _ h1 (by omega), to_size_t_of_range _ (by omega) (by omega),
    to_int_of_range _ (by omega) hb]

/-- One step of `update_shift`, when nothing is truncated. -/
theorem update_shift_cons (nb : Int) (hnb : 0 ≤ nb) (shift : Int) (hs : 0 ≤ shift)
    (prev type : Component) (rest : List Component)
    (hb : shift + nb * (prev.size : Int) + ((type.align : Int) - 1) < 2147483648) :
    update_shift nb shift prev (type :: rest) =
      (shift + Int.land (nb * (prev.size : Int) + ((type.align : Int) - 1))
          (Int.not ((type.align : Int) - 1))) ::
        update_shift nb
          (shift + Int.land (nb * (prev.size : Int) + ((type.align : Int) - 1))
            (Int.not ((type.align : Int) - 1))) type rest := by
  have h1 : 0 ≤ nb * (prev.size : Int) := by positivity
  have h2 : (0 : Int) ≤ (type.align : Int) - 1 := by
    have := type.align_pos
    omega
  have h3 := land_bounds (nb * (prev.size : Int) + ((type.align : Int) - 1))
    ((type.align : Int) - 1) (by omega) h2
  have h4 := land_not_eq (nb * (prev.size : Int) + ((type.align : Int) - 1))
    ((type.align : Int) - 1) (by omega) h2
  simp only [update_shift]
  rw [to_size_t_of_range (nb * (prev.size : Int)) h1 (by omega),
    to_size_t_of_range (nb * (prev.size : Int) + ((type.align : Int) - 1)) (by omega)
      (by omega),
    to_size_t_of_range _ (by omega) (by omega), to_int_of_range _ (by omega) (by omega)]

/-- The padded segment length lies between the segment length and the segment length plus
the largest padding. -/
theorem pad_bounds (nb : Int) (hnb : 0 ≤ nb) (prev type : Component) :
    nb * (prev.size : Int) ≤
        Int.land (nb * (prev.size : Int) + ((type.align : Int) - 1))
          (Int.not ((type.align : Int) - 1)) ∧
      Int.land (nb * (prev.size : Int) + ((type.align : Int) - 1))
          (Int.not ((type.align : Int) - 1)) ≤
        nb * (prev.size : Int) + ((type.align : Int) - 1) := by
  have h1 : 0 ≤ nb * (prev.size : Int) := by positivity
  have h2 : (0 : Int) ≤ (type.align : Int) - 1 := by
    have := type.align_pos
    omega
  have h3 := land_bounds (nb * (prev.size : Int) + ((type.align : Int) - 1))
    ((type.align : Int) - 1) (by omega) h2
  rw [land_not_eq _ _ (by omega) h2]
  omega

/-- Every entry written by `update_shift` lies at or after the end of the segment of the
previous member, and below the bound. -/
theorem update_shift_ge (nb : Int) (hnb : 0 ≤ nb) (shift : Int) (hs : 0 ≤ shift)
    (prev : Component) (rest : List Component)
    (hb : shift + layout_bound_from nb prev rest < 2147483648) :
    ∀ x ∈ update_shift nb shift prev rest,
      shift + nb * (prev.size : Int) ≤ x ∧ x ≤ shift + layout_bound_from nb prev rest := by
  induction rest generalizing shift prev with
  | nil =>
    intro x hx
    simp only [layout_bound_from] at hb ⊢
    rw [update_shift_nil nb hnb shift hs prev hb] at hx
    simp at hx
    omega
  | cons type rest ih =>
    intro x hx
    simp only [layout_bound_from] at hb ⊢
    have hpad := pad_bounds nb hnb prev type
    have h1 : 0 ≤ nb * (prev.size : Int) := by positivity
    have h2 := layout_bound_from_nonneg nb hnb type rest
    have h3 : 0 ≤ nb * (type.size : Int) := by positivity
    rw [update_shift_cons nb hnb shift hs prev type rest (by omega)] at hx
    simp only [List.mem_cons] at hx
    rcases hx with rfl | hx
    · omega
    · have := ih _ (by omega) type (by omega) x hx
      omega

/-- Consecutive entries of the tuple: the next one is at or after the end of the segment,
and the last one is exactly the end of the last segment. -/
theorem update_shift_chain (nb : Int) (hnb : 0 ≤ nb) (shift : Int) (hs : 0 ≤ shift)
    (prev : Component) (rest : List Component)
    (hb : shift + layout_bound_from nb prev rest < 2147483648)
    (i : Nat) (a : Component) (o o1 : Int)
    (ha : (prev :: rest)[i]? = some a)
    (ho : (shift :: update_shift nb shift prev rest)[i]? = some o)
    (ho1 : (shift :: update_shift nb shift prev rest)[i + 1]? = some o1) :
    o + nb * (a.size : Int) ≤ o1 ∧ (i = rest.length → o1 = o + nb * (a.size : Int)) := by
  induction rest generalizing shift prev i with
  | nil =>
    simp only [layout_bound_from] at hb
    rw [update_shift_nil nb hnb shift hs prev hb] at ho ho1
    cases i with
    | zero =>
      simp at ha ho ho1
      subst ha ho ho1
      simp
    | succ i => simp at ha
  | cons type rest ih =>
    simp only [layout_bound_from] at hb
    have hpad := pad_bounds nb hnb prev type
    have h1 : 0 ≤ nb * (prev.size : Int) := by positivity
    have h2 := layout_bound_from_nonneg nb hnb type rest
    have h3 : 0 ≤ nb * (type.size : Int) := by positivity
    rw [update_shift_cons nb hnb shift hs prev type rest (by omega)] at ho ho1
    cases i with
    | zero =>
      simp at ha ho ho1
      subst ha ho ho1
      constructor
      · omega
      · intro h; simp at h
    | succ i =>
      rw [List.getElem?_cons_succ] at ha ho ho1
      have := ih _ (by omega) type (by omega) i ha ho ho1
      refine ⟨this.1, fun h => this.2 ?_⟩
      simpa using h

/-- The spans and the byte count returned by `allocate(nb)` are the offsets and the total
of the layout, in the fresh block. -/
theorem allocate_layout (T : List Component) (h : Heap) (nb : Int) :
    (vector.allocate T h nb).2.new_members =
        (offsets T nb).map (fun s => (⟨⟨h.next, s⟩⟩ : vector_span)) ∧
      (vector.allocate T h nb).2.nb_bytes = total_bytes T nb := by
  refine ⟨?_, rfl⟩
  simp [vector.allocate, Heap.allocate, create_members, offsets, Ptr.add_bytes]

theorem offsets_cons (c : Component) (cs : List Component) (nb : Int) :
    offsets (c :: cs) nb = 0 :: (update_shift nb 0 c cs).take cs.length := by
  simp [offsets, shifts]

theorem offsets_getElem? (c : Component) (cs : List Component) (nb : Int) (i : Nat) (o : Int)
    (h : (offsets (c :: cs) nb)[i]? = some o) :
    (0 :: update_shift nb 0 c cs)[i]? = some o := by
  simp only [offsets, shifts, List.getElem?_take] at h
  split at h
  · exact h
  · simp at h

theorem physics_t_shifts :
    shifts physics_t 0 = [0, 0, 0, 0, 0] ∧ shifts physics_t 1 = [0, 8, 16, 20, 24] ∧
      shifts physics_t 4 = [0, 8, 40, 56, 72] ∧ shifts physics_t 17 = [0, 24, 160, 228, 296] := by
  simp [shifts, physics_t, type_bool, type_double, type_float, type_int, update_shift,
    land_not_eq, to_int, to_size_t]
  decide

theorem char_short_int_shifts : shifts char_short_int 1 = [0, 2, 6, 10] := by
  simp [shifts, char_short_int, type_char, type_short, type_int, update_shift, land_not_eq,
    to_int, to_size_t]
  decide

/-! ## Size and capacity -/

theorem reserve_capacity_eq (T : List Component) (h : Heap) (v : vector) (c : Int) :
    (vector.reserve T h v c).2.capacity_ = max v.capacity_ c := by
  unfold vector.reserve vector.capacity
  split
  · rename_i hc; simp [max_eq_left hc]
  · rename_i hc; simp [max_eq_right (le_of_lt (not_le.mp hc))]

theorem reserve_size_eq (T : List Component) (h : Heap) (v : vector) (c : Int) :
    (vector.reserve T h v c).2.size_ = v.size_ := by
  unfold vector.reserve
  split <;> rfl

theorem emplace_back_size_eq (T : List Component) (h : Heap) (v : vector) (a : List Val) :
    (vector.emplace_back T h v a).2.size_ = to_int (v.size_ + 1) := by
  unfold vector.emplace_back
  split_ifs <;> simp [reserve_size_eq]

theorem emplace_back_capacity_eq (T : List Component) (h : Heap) (v : vector) (a : List Val) :
    (vector.emplace_back T h v a).2.capacity_ =
      if v.size_ = v.capacity_ then
        max v.capacity_ (if v.size_ = 0 then 1 else to_int (v.capacity_ * 2))
      else v.capacity_ := by
  unfold vector.emplace_back vector.new_capacity vector.size vector.capacity
  by_cases hs : v.size_ = v.capacity_
  · simp only [hs, if_true]
    exact reserve_capacity_eq _ _ _ _
  · simp [hs]

/-! ## Growth under repeated `emplace_back` -/

theorem growth_capacity_ge (k : Nat) : (k : Int) ≤ growth_capacity k := by
  unfold growth_capacity
  split
  · rename_i h; simp [h]
  · have := Nat.le_pow_clog (by decide : 1 < 2) k
    exact_mod_cast this

theorem growth_count_succ_of_eq (k : Nat) (h : (k : Int) = growth_capacity k) :
    growth_count (k + 1) = growth_count k + 1 ∧
      growth_capacity (k + 1) = (2 : Int) ^ growth_count k ∧
      (if (k : Int) = 0 then (1 : Int) else growth_capacity k * 2) = (2 : Int) ^ growth_count k := by
  unfold growth_capacity at h ⊢
  unfold growth_count
  by_cases hk : k = 0
  · subst hk
    simp
  · simp only [hk, if_false] at h ⊢
    have hk' : (k : Int) ≠ 0 := by exact_mod_cast hk
    simp only [hk', if_false, Nat.succ_ne_zero, if_false]
    have hkn : k = 2 ^ Nat.clog 2 k := by exact_mod_cast h
    have hlt : Nat.clog 2 (k + 1) = Nat.clog 2 k + 1 := by
      apply le_antisymm
      · apply (Nat.le_pow_iff_clog_le (by decide)).mp
        rw [pow_succ]
        have : 0 < 2 ^ Nat.clog 2 k := by positivity
        omega
      · by_contra hcon
        have hle : Nat.clog 2 (k + 1) ≤ Nat.clog 2 k := by omega
        have := (Nat.le_pow_iff_clog_le (by decide : 1 < 2)).mpr hle
        omega
    refine ⟨by rw [hlt], by rw [hlt], ?_⟩
    rw [pow_succ]

theorem growth_count_succ_of_ne (k : Nat) (h : (k : Int) ≠ growth_capacity k) :
    growth_count (k + 1) = growth_count k ∧ growth_capacity (k + 1) = growth_capacity k := by
  unfold growth_capacity at h ⊢
  unfold growth_count
  by_cases hk : k = 0
  · subst hk
    simp at h
  · simp only [hk, if_false] at h ⊢
    simp only [Nat.succ_ne_zero, if_false]
    have hle := Nat.le_pow_clog (by decide : 1 < 2) k
    have hne : k ≠ 2 ^ Nat.clog 2 k := by
      intro hcon
      apply h
      exact_mod_cast hcon
    have hlt : Nat.clog 2 (k + 1) = Nat.clog 2 k := by
      apply le_antisymm
      · apply (Nat.le_pow_iff_clog_le (by decide)).mp
        omega
      · exact Nat.clog_mono_right 2 (Nat.le_succ k)
    rw [hlt]
    exact ⟨rfl, rfl⟩

theorem growth_capacity_ne_pow (k : Nat) :
    (2 : Int) ^ growth_count k ≠ growth_capacity k := by
  unfold growth_capacity growth_count
  by_cases hk : k = 0
  · simp [hk]
  · simp only [hk, if_false]
    rw [pow_succ]
    have : (0 : Int) < 2 ^ Nat.clog 2 k := by positivity
    omega

/-- One `emplace_back` on a container that has seen `k` calls since its default
construction. -/
theorem emplace_back_growth_step (T : List Component) (h : Heap) (v : vector) (a : List Val)
    (k : Nat) (hk : k < 1073741824) (hs : v.size_ = k) (hc : v.capacity_ = growth_capacity k) :
    (vector.emplace_back T h v a).2.size_ = ((k + 1 : Nat) : Int) ∧
      (vector.emplace_back T h v a).2.capacity_ = growth_capacity (k + 1) := by
  constructor
  · rw [emplace_back_size_eq, hs, to_int_of_range _ (by omega) (by omega)]
    push_cast
    rfl
  rw [emplace_back_capacity_eq, hs, hc]
  by_cases he : (k : Int) = growth_capacity k
  · obtain ⟨_, h2, h3⟩ := growth_count_succ_of_eq k he
    rw [to_int_of_range (growth_capacity k * 2) (by omega) (by omega)]
    rw [if_pos he, h3, h2]
    apply max_eq_right
    rw [← h3]
    have := growth_capacity_ge k
    split <;> omega
  · rw [if_neg he, (growth_count_succ_of_ne k he).2]

theorem capacity_changes_growth (T : List Component) (calls : List (List Val)) :
    ∀ (s : Heap × vector) (k : Nat), k + calls.length ≤ 1073741824 → s.2.size_ = k →
      s.2.capacity_ = growth_capacity k →
      capacity_changes (growth_capacity k)
          ((emplace_back_states T s calls).map fun s => s.2.capacity) =
        (List.range' (growth_count k) (growth_count (k + calls.length) - growth_count k)).map
          fun j => (2 : Int) ^ j := by
  induction calls with
  | nil => intro s k _ _ _; simp [emplace_back_states, capacity_changes]
  | cons a calls ih =>
    intro s k hk hs hc
    have hlen : k + (a :: calls).length = k + 1 + calls.length := by simp; omega
    obtain ⟨hs1, hc1⟩ := emplace_back_growth_step T s.1 s.2 a k (by omega) hs hc
    have ih1 := ih (vector.emplace_back T s.1 s.2 a) (k + 1) (by omega) hs1 hc1
    simp only [emplace_back_states, List.map_cons, capacity_changes, vector.capacity, hc1, hlen]
    simp only [vector.capacity] at ih1
    by_cases he : (k : Int) = growth_capacity k
    · obtain ⟨h1, h2, _⟩ := growth_count_succ_of_eq k he
      have hne : growth_capacity (k + 1) ≠ growth_capacity k := by
        rw [h2]; exact growth_capacity_ne_pow k
      rw [if_neg hne, ih1, h1, h2]
      have hmono : growth_count k + 1 ≤ growth_count (k + 1 + calls.length) := by
        rw [← h1]
        unfold growth_count
        simp only [Nat.succ_ne_zero, if_false]
        have : k + 1 + calls.length ≠ 0 := by omega
        simp only [this, if_false]
        have := Nat.clog_mono_right 2 (show k + 1 ≤ k + 1 + calls.length by omega)
        omega
      have hsplit : growth_count (k + 1 + calls.length) - growth_count k =
          (growth_count (k + 1 + calls.length) - (growth_count k + 1)) + 1 := by omega
      rw [hsplit, List.range'_succ]
      simp
    · obtain ⟨h1, h2⟩ := growth_count_succ_of_ne k he
      rw [if_pos h2, ih1, h1]

theorem reserve_trace_length (T : List Component) (h : Heap) (v : vector) (c : Int) :
    (vector.reserve T h v c).1.trace.length =
      h.trace.length + (if c ≤ v.capacity_ then 0 else 1) := by
  unfold vector.reserve vector.capacity
  split
  · rfl
  · simp [vector.allocate, Heap.allocate]

theorem emplace_back_trace_length (T : List Component) (h : Heap) (v : vector) (a : List Val)
    (k : Nat) (hk : k < 1073741824) (hs : v.size_ = k) (hc : v.capacity_ = growth_capacity k) :
    (vector.emplace_back T h v a).1.trace.length =
      h.trace.length + (growth_count (k + 1) - growth_count k) := by
  unfold vector.emplace_back vector.new_capacity vector.size vector.capacity
  rw [hs, hc]
  by_cases he : (k : Int) = growth_capacity k
  · obtain ⟨h1, _, h3⟩ := growth_count_succ_of_eq k he
    rw [to_int_of_range (growth_capacity k * 2) (by omega) (by omega)]
    simp only [if_pos he]
    show (vector.reserve T h v _).1.trace.length = _
    rw [reserve_trace_length, hc, h3, h1]
    have hlt : ¬ (2 : Int) ^ growth_count k ≤ growth_capacity k := by
      rw [← h3]
      have := growth_capacity_ge k
      split <;> omega
    rw [if_neg hlt]
    omega
  · obtain ⟨h1, _⟩ := growth_count_succ_of_ne k he
    simp only [if_neg he, h1]
    simp

theorem growth_count_mono (k m : Nat) : growth_count k ≤ growth_count (k + m) := by
  unfold growth_count
  by_cases hk : k = 0
  · simp [hk]
  · rw [if_neg hk, if_neg (by omega)]
    have := Nat.clog_mono_right 2 (show k ≤ k + m by omega)
    omega

theorem trace_length_growth (T : List Component) (calls : List (List Val)) :
    ∀ (s : Heap × vector) (k : Nat), k + calls.length ≤ 1073741824 → s.2.size_ = k →
      s.2.capacity_ = growth_capacity k →
      (((emplace_back_states T s calls).getLast?).getD s).1.trace.length =
        s.1.trace.length + (growth_count (k + calls.length) - growth_count k) := by
  induction calls with
  | nil => intro s k _ _ _; simp [emplace_back_states]
  | cons a calls ih =>
    intro s k hk hs hc
    have hlen : k + (a :: calls).length = k + 1 + calls.length := by simp; omega
    obtain ⟨hs1, hc1⟩ := emplace_back_growth_step T s.1 s.2 a k (by omega) hs hc
    have ih1 := ih (vector.emplace_back T s.1 s.2 a) (k + 1) (by omega) hs1 hc1
    have ht := emplace_back_trace_length T s.1 s.2 a k (by omega) hs hc
    have h1 := growth_count_mono k 1
    have h2 := growth_count_mono (k + 1) calls.length
    simp only [emplace_back_states, List.getLast?_cons, Option.getD_some, hlen]
    rw [ih1, ht]
    omega

/-! ## Memory -/

theorem load_congr (m m1 : Mem) (p : Ptr) (sz : Nat) (hsz : 0 < sz)
    (h : ∀ o, p.off ≤ o → o < p.off + (sz : Int) → m1.cell p.block o = m.cell p.block o) :
    m1.load p sz = m.load p sz := by
  have h0 : m1.cell p.block p.off = m.cell p.block p.off := h _ (le_refl _) (by omega)
  have hk : ∀ k < sz, m1.cell p.block (p.off + (k : Int)) = m.cell p.block (p.off + (k : Int)) :=
    fun k hk => h _ (by omega) (by omega)
  unfold Mem.load
  rw [h0]
  cases m.cell p.block p.off with
  | none => rfl
  | some av =>
    obtain ⟨a, v⟩ := av
    simp only
    have hiff : (∀ k < sz, m1.cell p.block (p.off + (k : Int)) = some (p.off, v)) ↔
        (∀ k < sz, m.cell p.block (p.off + (k : Int)) = some (p.off, v)) := by
      constructor
      · intro hh k hlt; rw [← hk k hlt]; exact hh k hlt
      · intro hh k hlt; rw [hk k hlt]; exact hh k hlt
    by_cases ha : a = p.off
    · by_cases hall : ∀ k < sz, m.cell p.block (p.off + (k : Int)) = some (p.off, v)
      · rw [if_pos ⟨ha, hiff.mpr hall⟩, if_pos ⟨ha, hall⟩]
      · rw [if_neg (fun hc => hall (hiff.mp hc.2)), if_neg (fun hc => hall hc.2)]
    · rw [if_neg (fun hc => ha hc.1), if_neg (fun hc => ha hc.1)]

theorem store_cell_of_outside (m : Mem) (p : Ptr) (sz : Nat) (v : Val) (b : Nat) (o : Int)
    (h : b ≠ p.block ∨ o < p.off ∨ p.off + (sz : Int) ≤ o) :
    (m.store p sz v).cell b o = m.cell b o := by
  unfold Mem.store
  simp only
  rw [if_neg]
  rintro ⟨h1, h2, h3⟩
  rcases h with h | h | h
  · exact h h1
  · omega
  · omega

theorem load_store_same (m : Mem) (p : Ptr) (sz : Nat) (v : Val) (hsz : 0 < sz) :
    (m.store p sz v).load p sz = some v := by
  have hcell : ∀ k < sz, (m.store p sz v).cell p.block (p.off + (k : Int)) = some (p.off, v) := by
    intro k hk
    unfold Mem.store
    simp only
    rw [if_pos ⟨trivial, by omega, by omega⟩]
  have h0 : (m.store p sz v).cell p.block p.off = some (p.off, v) := by
    have := hcell 0 hsz
    simpa using this
  unfold Mem.load
  rw [h0]
  simp only
  rw [if_pos ⟨trivial, hcell⟩]

theorem load_store_other (m : Mem) (p q : Ptr) (sz sz1 : Nat) (v : Val) (hsz1 : 0 < sz1)
    (h : q.block ≠ p.block ∨ q.off + (sz1 : Int) ≤ p.off ∨ p.off + (sz : Int) ≤ q.off) :
    (m.store p sz v).load q sz1 = m.load q sz1 := by
  apply load_congr _ _ _ _ hsz1
  intro o h1 h2
  apply store_cell_of_outside
  rcases h with h | h | h
  · exact Or.inl h
  · exact Or.inr (Or.inl (by omega))
  · exact Or.inr (Or.inr (by omega))

theorem construct_from_cell_of_outside (m : Mem) (dst src : Ptr) (sz : Nat) (b : Nat) (o : Int)
    (h : b ≠ dst.block ∨ o < dst.off ∨ dst.off + (sz : Int) ≤ o) :
    (m.construct_from dst src sz).cell b o = m.cell b o := by
  unfold Mem.construct_from
  cases m.load src sz with
  | none => rfl
  | some v => exact store_cell_of_outside m dst sz v b o h

theorem load_construct_from (m : Mem) (dst src : Ptr) (sz : Nat) (val : Val) (hsz : 0 < sz)
    (h : m.load src sz = some val) : (m.construct_from dst src sz).load dst sz = some val := by
  unfold Mem.construct_from
  rw [h]
  exact load_store_same m dst sz val hsz

/-! ## The element loops -/

theorem add_add_one (p : Ptr) (k : Nat) (sz : Nat) :
    (p.add 1 sz).add (k : Int) sz = p.add ((k + 1 : Nat) : Int) sz := by
  unfold Ptr.add
  simp only [Ptr.mk.injEq, true_and]
  push_cast
  ring

theorem add_zero_eq (p : Ptr) (sz : Nat) : p.add ((0 : Nat) : Int) sz = p := by
  unfold Ptr.add
  simp

theorem copy_loop_cell_of_outside (sz n : Nat) (s d : Ptr) (m : Mem) (b : Nat) (o : Int)
    (h : b ≠ d.block ∨ o < d.off ∨ d.off + (n : Int) * (sz : Int) ≤ o) :
    (copy_loop sz n s d m).cell b o = m.cell b o := by
  induction n generalizing s d m with
  | zero => rfl
  | succ n ih =>
    simp only [copy_loop]
    rw [ih]
    · apply construct_from_cell_of_outside
      rcases h with h | h | h
      · exact Or.inl h
      · exact Or.inr (Or.inl h)
      · refine Or.inr (Or.inr ?_)
        push_cast at h
        nlinarith [Int.ofNat_nonneg n, Int.ofNat_nonneg sz]
    · simp only [Ptr.add]
      rcases h with h | h | h
      · exact Or.inl h
      · refine Or.inr (Or.inl ?_)
        have : (0 : Int) ≤ (sz : Int) := Int.ofNat_nonneg sz
        omega
      · refine Or.inr (Or.inr ?_)
        push_cast at h
        linarith

theorem load_copy_loop (sz n : Nat) (hsz : 0 < sz) (s d : Ptr) (m : Mem) (hsd : s.block ≠ d.block)
    (k : Nat) (hk : k < n) (val : Val) (h : m.load (s.add k sz) sz = some val) :
    (copy_loop sz n s d m).load (d.add k sz) sz = some val := by
  induction n generalizing s d m k with
  | zero => omega
  | succ n ih =>
    simp only [copy_loop]
    cases k with
    | zero =>
      rw [add_zero_eq] at h ⊢
      rw [load_congr (m.construct_from d s sz) _ d sz hsz]
      · exact load_construct_from m d s sz val hsz h
      · intro o h1 h2
        apply copy_loop_cell_of_outside
        simp only [Ptr.add]
        exact Or.inr (Or.inl (by omega))
    | succ k =>
      rw [← add_add_one] at h ⊢
      apply ih _ _ _ (by simpa [Ptr.add] using hsd) k (by omega)
      rw [load_congr m _ _ sz hsz]
      · exact h
      · intro o _ _
        apply construct_from_cell_of_outside
        simp only [Ptr.add]
        exact Or.inl hsd

theorem move_from_cell_of_outside (m : Mem) (dst src : Ptr) (sz : Nat) (moved : Val → Val)
    (b : Nat) (o : Int) (hd : b ≠ dst.block ∨ o < dst.off ∨ dst.off + (sz : Int) ≤ o)
    (hs : b ≠ src.block ∨ o < src.off ∨ src.off + (sz : Int) ≤ o) :
    (m.move_from dst src sz moved).cell b o = m.cell b o := by
  unfold Mem.move_from
  cases m.load src sz with
  | none => rfl
  | some v =>
    simp only
    rw [store_cell_of_outside _ src sz _ b o hs, store_cell_of_outside m dst sz v b o hd]

/-- A move construction: the new object holds the value, the source its moved-from
state. -/
theorem load_move_from (m : Mem) (dst src : Ptr) (sz : Nat) (moved : Val → Val) (val : Val)
    (hsz : 0 < sz) (hne : src.block ≠ dst.block) (h : m.load src sz = some val) :
    (m.move_from dst src sz moved).load dst sz = some val ∧
      (m.move_from dst src sz moved).load src sz = some (moved val) := by
  unfold Mem.move_from
  rw [h]
  simp only
  constructor
  · rw [load_store_other _ src dst sz sz _ hsz (Or.inl (Ne.symm hne))]
    exact load_store_same m dst sz val hsz
  · exact load_store_same _ src sz _ hsz

theorem move_loop_cell_of_outside (sz : Nat) (moved : Val → Val) (n : Nat) (s d : Ptr) (m : Mem)
    (b : Nat) (o : Int) (h : b ≠ d.block ∨ o < d.off ∨ d.off + (n : Int) * (sz : Int) ≤ o)
    (hs : b ≠ s.block ∨ o < s.off ∨ s.off + (n : Int) * (sz : Int) ≤ o) :
    (move_loop sz moved n s d m).cell b o = m.cell b o := by
  induction n generalizing s d m with
  | zero => rfl
  | succ n ih =>
    have hsz0 : (0 : Int) ≤ (sz : Int) := Int.ofNat_nonneg sz
    have hn0 : (0 : Int) ≤ (n : Int) * (sz : Int) :=
      Int.mul_nonneg (Int.ofNat_nonneg n) hsz0
    simp only [move_loop]
    rw [ih]
    · apply move_from_cell_of_outside
      · rcases h with h | h | h
        · exact Or.inl h
        · exact Or.inr (Or.inl h)
        · refine Or.inr (Or.inr ?_)
          push_cast at h
          linarith
      · rcases hs with h | h | h
        · exact Or.inl h
        · exact Or.inr (Or.inl h)
        · refine Or.inr (Or.inr ?_)
          push_cast at h
          linarith
    · simp only [Ptr.add]
      rcases h with h | h | h
      · exact Or.inl h
      · exact Or.inr (Or.inl (by omega))
      · refine Or.inr (Or.inr ?_)
        push_cast at h
        linarith
    · simp only [Ptr.add]
      rcases hs with h | h | h
      · exact Or.inl h
      · exact Or.inr (Or.inl (by omega))
      · refine Or.inr (Or.inr ?_)
        push_cast at h
        linarith

/-- The loop of `move_array` for one member: element `k` of the source arrives in the
destination, and the source element is left in its moved-from state. -/
theorem load_move_loop (sz : Nat) (moved : Val → Val) (n : Nat) (hsz : 0 < sz) (s d : Ptr)
    (m : Mem) (hsd : s.block ≠ d.block)
    (k : Nat) (hk : k < n) (val : Val) (h : m.load (s.add k sz) sz = some val) :
    (move_loop sz moved n s d m).load (d.add k sz) sz = some val ∧
      (move_loop sz moved n s d m).load (s.add k sz) sz = some (moved val) := by
  induction n generalizing s d m k with
  | zero => omega
  | succ n ih =>
    simp only [move_loop]
    cases k with
    | zero =>
      rw [add_zero_eq] at h ⊢
      rw [add_zero_eq]
      obtain ⟨h1, h2⟩ := load_move_from m d s sz moved val hsz hsd h
      constructor
      · rw [load_congr (m.move_from d s sz moved) _ d sz hsz]
        · exact h1
        · intro o h3 h4
          apply move_loop_cell_of_outside
          · simp only [Ptr.add]
            exact Or.inr (Or.inl (by omega))
          · simp only [Ptr.add]
            exact Or.inl (Ne.symm hsd)
      · rw [load_congr (m.move_from d s sz moved) _ s sz hsz]
        · exact h2
        · intro o h3 h4
          apply move_loop_cell_of_outside
          · simp only [Ptr.add]
            exact Or.inl hsd
          · simp only [Ptr.add]
            exact Or.inr (Or.inl (by omega))
    | succ k =>
      rw [← add_add_one] at h ⊢
      rw [← add_add_one]
      apply ih _ _ _ (by simpa [Ptr.add] using hsd) k (by omega)
      rw [load_congr m _ _ sz hsz]
      · exact h
      · intro o h3 h4
        have hk0 : (0 : Int) ≤ (k : Int) * (sz : Int) :=
          Int.mul_nonneg (Int.ofNat_nonneg k) (Int.ofNat_nonneg sz)
        apply move_from_cell_of_outside
        · simp only [Ptr.add]
          exact Or.inl hsd
        · simp only [Ptr.add] at h3 ⊢
          exact Or.inr (Or.inr (by omega))

theorem construct_loop_cell_of_outside (sz : Nat) (val : Val) (n : Nat) (it : Ptr) (m : Mem)
    (b : Nat) (o : Int) (h : b ≠ it.block ∨ o < it.off ∨ it.off + (n : Int) * (sz : Int) ≤ o) :
    (construct_loop sz val n it m).cell b o = m.cell b o := by
  induction n generalizing it m with
  | zero => rfl
  | succ n ih =>
    simp only [construct_loop]
    rw [ih]
    · apply store_cell_of_outside
      rcases h with h | h | h
      · exact Or.inl h
      · exact Or.inr (Or.inl h)
      · refine Or.inr (Or.inr ?_)
        push_cast at h
        nlinarith [Int.ofNat_nonneg n, Int.ofNat_nonneg sz]
    · simp only [Ptr.add]
      rcases h with h | h | h
      · exact Or.inl h
      · refine Or.inr (Or.inl ?_)
        have : (0 : Int) ≤ (sz : Int) := Int.ofNat_nonneg sz
        omega
      · refine Or.inr (Or.inr ?_)
        push_cast at h
        linarith

theorem load_construct_loop (sz : Nat) (hsz : 0 < sz) (val : Val) (n : Nat) (it : Ptr) (m : Mem)
    (k : Nat) (hk : k < n) :
    (construct_loop sz val n it m).load (it.add k sz) sz = some val := by
  induction n generalizing it m k with
  | zero => omega
  | succ n ih =>
    simp only [construct_loop]
    cases k with
    | zero =>
      rw [add_zero_eq]
      rw [load_congr (m.store it sz val) _ it sz hsz]
      · exact load_store_same m it sz val hsz
      · intro o h1 h2
        apply construct_loop_cell_of_outside
        simp only [Ptr.add]
        exact Or.inr (Or.inl (by omega))
    | succ k =>
      rw [← add_add_one]
      exact ih _ _ k (by omega)

/-! ## Separation of the segments -/

theorem separated_length (nb : Int) (blk : Nat) (T : List Component) (ps : List vector_span)
    (h : Separated nb blk T ps) : ps.length = T.length := by
  induction T generalizing ps with
  | nil => cases ps with
    | nil => rfl
    | cons p ps => simp [Separated] at h
  | cons c cs ih => cases ps with
    | nil => simp [Separated] at h
    | cons p ps =>
      simp only [Separated] at h
      simp [ih ps h.2.2]

theorem separated_block (nb : Int) (blk : Nat) (T : List Component) (ps : List vector_span)
    (h : Separated nb blk T ps) : ∀ p ∈ ps, p.ptr_.block = blk := by
  induction T generalizing ps with
  | nil => cases ps with
    | nil => simp
    | cons p ps => simp [Separated] at h
  | cons c cs ih => cases ps with
    | nil => simp
    | cons p ps =>
      simp only [Separated] at h
      intro q hq
      rcases List.mem_cons.mp hq with rfl | hq
      · exact h.1
      · exact ih ps h.2.2 q hq

theorem separated_update_shift (nb : Int) (hnb : 0 ≤ nb) (blk : Nat) (shift : Int)
    (hs : 0 ≤ shift) (prev : Component) (rest : List Component)
    (hb : shift + layout_bound_from nb prev rest < 2147483648) :
    Separated nb blk (prev :: rest)
      ((shift :: (update_shift nb shift prev rest).take rest.length).map
        fun s => ⟨(⟨blk, 0⟩ : Ptr).add_bytes s⟩) := by
  induction rest generalizing shift prev with
  | nil => simp [Separated, Ptr.add_bytes]
  | cons type rest ih =>
    have hge := update_shift_ge nb hnb shift hs prev (type :: rest) hb
    simp only [layout_bound_from] at hb
    have hpad := pad_bounds nb hnb prev type
    have h1 : 0 ≤ nb * (prev.size : Int) := by positivity
    have h2 := layout_bound_from_nonneg nb hnb type rest
    have h3 : 0 ≤ nb * (type.size : Int) := by positivity
    rw [update_shift_cons nb hnb shift hs prev type rest (by omega)] at hge ⊢
    simp only [List.length_cons, List.take_succ_cons, List.map_cons] at hge ⊢
    have ih1 := ih (shift + Int.land (nb * (prev.size : Int) + ((type.align : Int) - 1))
      (Int.not ((type.align : Int) - 1))) (by omega) type (by omega)
    simp only [List.map_cons] at ih1
    refine ⟨rfl, ?_, ih1⟩
    intro q hq
    simp only [List.mem_cons, List.mem_map] at hq
    rcases hq with rfl | ⟨x, hx, rfl⟩
    · simp only [Ptr.add_bytes]
      have := (hge _ (List.mem_cons_self _ _)).1
      omega
    · simp only [Ptr.add_bytes]
      have := (hge x (List.mem_cons_of_mem _ (List.mem_of_mem_take hx))).1
      omega

/-- The spans created by `allocate(nb)` in a block are separated for `nb` elements, when
the layout is computed without truncation. -/
theorem separated_create_members (T : List Component) (nb : Int) (hnb : 0 ≤ nb)
    (hfit : layout_bound T nb < 2147483648) (blk : Nat) :
    Separated nb blk T (create_members ⟨blk, 0⟩ (shifts T nb) T.length) := by
  cases T with
  | nil => simp [create_members, Separated]
  | cons c cs =>
    have := separated_update_shift nb hnb blk 0 (le_refl _) c cs (by simpa [layout_bound] using hfit)
    simpa [create_members, shifts] using this

/-- The bound of a layout grows with the number of elements. -/
theorem layout_bound_from_mono (nb nb1 : Int) (h : nb ≤ nb1) (prev : Component)
    (rest : List Component) : layout_bound_from nb prev rest ≤ layout_bound_from nb1 prev rest := by
  induction rest generalizing prev with
  | nil =>
    simp only [layout_bound_from]
    exact Int.mul_le_mul_of_nonneg_right h (Int.ofNat_nonneg _)
  | cons type rest ih =>
    simp only [layout_bound_from]
    have h1 := ih type
    have h2 : nb * (prev.size : Int) ≤ nb1 * (prev.size : Int) :=
      Int.mul_le_mul_of_nonneg_right h (Int.ofNat_nonneg _)
    omega

theorem layout_bound_mono (T : List Component) (nb nb1 : Int) (h : nb ≤ nb1) :
    layout_bound T nb ≤ layout_bound T nb1 := by
  cases T with
  | nil => exact h
  | cons c cs => exact layout_bound_from_mono nb nb1 h c cs

/-- The number of elements is below the bound of the layout. -/
theorem le_layout_bound (T : List Component) (nb : Int) (h0 : 0 ≤ nb) :
    nb ≤ layout_bound T nb := by
  cases T with
  | nil => exact le_refl _
  | cons c cs =>
    have h1 := layout_bound_from_nonneg nb h0 c cs
    have h2 := c.size_pos
    have h3 : nb * 1 ≤ nb * (c.size : Int) :=
      Int.mul_le_mul_of_nonneg_left (by omega) h0
    simp only [layout_bound]
    omega

/-! ## `move_array` -/

theorem copy_array_cell_of_outside (size : Int) (blk : Nat) (T : List Component)
    (src dst : List vector_span) (m : Mem) (hblk : ∀ d ∈ dst, d.ptr_.block = blk)
    (b : Nat) (o : Int) (h : b ≠ blk ∨ ∀ d ∈ dst, o < d.ptr_.off) :
    (copy_array size T src dst m).cell b o = m.cell b o := by
  induction T generalizing src dst m with
  | nil => simp [copy_array]
  | cons c T ih =>
    cases src with
    | nil => simp [copy_array]
    | cons s src =>
      cases dst with
      | nil => simp [copy_array]
      | cons d dst =>
        simp only [copy_array]
        rw [ih src dst _ (fun q hq => hblk q (List.mem_cons_of_mem _ hq))
          (h.imp id fun hh q hq => hh q (List.mem_cons_of_mem _ hq))]
        apply copy_loop_cell_of_outside
        rcases h with h | h
        · exact Or.inl (by rw [hblk d (List.mem_cons_self _ _)]; exact h)
        · exact Or.inr (Or.inl (h d (List.mem_cons_self _ _)))

theorem move_array_cell_of_outside (size : Int) (blk : Nat) (T : List Component)
    (src dst : List vector_span) (m : Mem) (hblk : ∀ d ∈ dst, d.ptr_.block = blk)
    (b : Nat) (o : Int) (h : b ≠ blk ∨ ∀ d ∈ dst, o < d.ptr_.off)
    (hs : ∀ s ∈ src, s.ptr_.block ≠ b) :
    (move_array size T src dst m).cell b o = m.cell b o := by
  induction T generalizing src dst m with
  | nil => simp [move_array]
  | cons c T ih =>
    cases src with
    | nil => simp [move_array]
    | cons s src =>
      cases dst with
      | nil => simp [move_array]
      | cons d dst =>
        simp only [move_array]
        rw [ih src dst _ (fun q hq => hblk q (List.mem_cons_of_mem _ hq))
          (h.imp id fun hh q hq => hh q (List.mem_cons_of_mem _ hq))
          (fun q hq => hs q (List.mem_cons_of_mem _ hq))]
        apply move_loop_cell_of_outside
        · rcases h with h | h
          · exact Or.inl (by rw [hblk d (List.mem_cons_self _ _)]; exact h)
          · exact Or.inr (Or.inl (h d (List.mem_cons_self _ _)))
        · exact Or.inl (Ne.symm (hs s (List.mem_cons_self _ _)))

theorem cell_end_le (off nb : Int) (k : Int) (sz : Nat) (hk : k < nb) :
    off + k * (sz : Int) + (sz : Int) ≤ off + nb * (sz : Int) := by
  have h1 : (k + 1) * (sz : Int) ≤ nb * (sz : Int) :=
    Int.mul_le_mul_of_nonneg_right (by omega) (Int.ofNat_nonneg sz)
  linarith

theorem cell_start_ge (off : Int) (k : Int) (sz : Nat) (hk : 0 ≤ k) :
    off ≤ off + k * (sz : Int) := by
  have : 0 ≤ k * (sz : Int) := Int.mul_nonneg hk (Int.ofNat_nonneg sz)
  omega

theorem load_copy_array (size nb : Int) (blk : Nat) (hsize : size ≤ nb) (T : List Component)
    (src dst : List vector_span) (m : Mem) (hsep : Separated nb blk T dst)
    (hsrc : ∀ s ∈ src, s.ptr_.block ≠ blk)
    (i : Nat) (c : Component) (s d : vector_span)
    (hc : T[i]? = some c) (hs : src[i]? = some s) (hd : dst[i]? = some d)
    (k : Nat) (hk : (k : Int) < size) (val : Val)
    (hval : m.load (s.ptr_.add k c.size) c.size = some val) :
    (copy_array size T src dst m).load (d.ptr_.add k c.size) c.size = some val := by
  induction T generalizing src dst m i with
  | nil => simp at hc
  | cons c0 T ih =>
    cases src with
    | nil => simp at hs
    | cons s0 src =>
      cases dst with
      | nil => simp at hd
      | cons d0 dst =>
        simp only [Separated] at hsep
        obtain ⟨hb0, hlt, hsep1⟩ := hsep
        have hblk1 := separated_block nb blk T dst hsep1
        simp only [copy_array]
        cases i with
        | zero =>
          simp only [List.getElem?_cons_zero, Option.some.injEq] at hc hs hd
          subst hc hs hd
          rw [load_congr (copy_loop c0.size size.toNat s0.ptr_ d0.ptr_ m) _ _ _ c0.size_pos]
          · apply load_copy_loop _ _ c0.size_pos _ _ _ _ k _ val hval
            · rw [hb0]; exact hsrc s0 (List.mem_cons_self _ _)
            · omega
          · intro o _ h2
            apply copy_array_cell_of_outside size blk T src dst _ hblk1
            refine Or.inr fun q hq => ?_
            have h3 := hlt q hq
            have h4 := cell_end_le d0.ptr_.off nb k c0.size (by omega)
            simp only [Ptr.add] at h2
            omega
        | succ i =>
          simp only [List.getElem?_cons_succ] at hc hs hd
          apply ih src dst _ hsep1 (fun q hq => hsrc q (List.mem_cons_of_mem _ hq)) i hc hs hd
          rw [load_congr m _ _ _ c.size_pos]
          · exact hval
          · intro o _ _
            apply copy_loop_cell_of_outside
            refine Or.inl ?_
            simp only [Ptr.add]
            rw [hb0]
            exact hsrc s (List.mem_cons_of_mem _ (List.getElem?_mem hs))

/-- The elements below `size` arrive in the destination of `move_array`, when the segments
of the destination and the segments of the source are separated and lie in different
blocks. -/
theorem load_move_array (size nb nbs : Int) (blk blks : Nat) (hne : blks ≠ blk)
    (hsize : size ≤ nb) (hsizes : size ≤ nbs) (T : List Component)
    (src dst : List vector_span) (m : Mem) (hsep : Separated nb blk T dst)
    (hseps : Separated nbs blks T src)
    (i : Nat) (c : Component) (s d : vector_span)
    (hc : T[i]? = some c) (hs : src[i]? = some s) (hd : dst[i]? = some d)
    (k : Nat) (hk : (k : Int) < size) (val : Val)
    (hval : m.load (s.ptr_.add k c.size) c.size = some val) :
    (move_array size T src dst m).load (d.ptr_.add k c.size) c.size = some val := by
  induction T generalizing src dst m i with
  | nil => simp at hc
  | cons c0 T ih =>
    cases src with
    | nil => simp at hs
    | cons s0 src =>
      cases dst with
      | nil => simp at hd
      | cons d0 dst =>
        simp only [Separated] at hsep hseps
        obtain ⟨hb0, hlt, hsep1⟩ := hsep
        obtain ⟨hbs0, hlts, hseps1⟩ := hseps
        have hblk1 := separated_block nb blk T dst hsep1
        have hblks1 := separated_block nbs blks T src hseps1
        simp only [move_array]
        cases i with
        | zero =>
          simp only [List.getElem?_cons_zero, Option.some.injEq] at hc hs hd
          subst hc hs hd
          rw [load_congr (move_loop c0.size c0.moved size.toNat s0.ptr_ d0.ptr_ m) _ _ _
            c0.size_pos]
          · apply (load_move_loop _ _ _ c0.size_pos _ _ _ _ k _ val hval).1
            · rw [hb0, hbs0]; exact hne
            · omega
          · intro o _ h2
            apply move_array_cell_of_outside size blk T src dst _ hblk1
            · refine Or.inr fun q hq => ?_
              have h3 := hlt q hq
              have h4 := cell_end_le d0.ptr_.off nb k c0.size (by omega)
              simp only [Ptr.add] at h2
              omega
            · intro q hq
              simp only [Ptr.add]
              rw [hblks1 q hq, hb0]
              exact hne
        | succ i =>
          simp only [List.getElem?_cons_succ] at hc hs hd
          apply ih src dst _ hsep1 hseps1 i hc hs hd
          rw [load_congr m _ _ _ c.size_pos]
          · exact hval
          · intro o h1 _
            have h3 := hlts s (List.getElem?_mem hs)
            have h4 := cell_start_ge s.ptr_.off k c.size (Int.ofNat_nonneg k)
            have h5 : (size.toNat : Int) * (c0.size : Int) ≤ nbs * (c0.size : Int) := by
              apply Int.mul_le_mul_of_nonneg_right _ (Int.ofNat_nonneg _)
              have := Int.toNat_of_nonneg (show 0 ≤ size by omega)
              omega
            apply move_loop_cell_of_outside
            · refine Or.inl ?_
              simp only [Ptr.add]
              rw [hb0, hblks1 s (List.getElem?_mem hs)]
              exact hne
            · refine Or.inr (Or.inr ?_)
              simp only [Ptr.add] at h1
              omega

/-! ## Reading an element, and the invariant -/

theorem get_eq_load (T : List Component) (h : Heap) (v : vector) (i : Nat) (j : Int)
    (c : Component) (p : vector_span) (hc : T[i]? = some c) (hp : v.members[i]? = some p) :
    v.get T h i j = h.mem.load (p.ptr_.add j c.size) c.size := by
  unfold vector.get
  rw [hc, hp]

theorem get_some_elim (T : List Component) (h : Heap) (v : vector) (i : Nat) (j : Int)
    (val : Val) (hget : v.get T h i j = some val) :
    ∃ c p, T[i]? = some c ∧ v.members[i]? = some p ∧
      h.mem.load (p.ptr_.add j c.size) c.size = some val := by
  unfold vector.get at hget
  cases hc : T[i]? with
  | none => simp [hc] at hget
  | some c =>
    cases hp : v.members[i]? with
    | none => simp [hc, hp] at hget
    | some p =>
      simp only [hc, hp] at hget
      exact ⟨c, p, rfl, rfl, hget⟩

theorem create_members_length (ptr : Ptr) (T : List Component) (nb : Int) :
    (create_members ptr (shifts T nb) T.length).length = T.length := by
  simp [create_members, shifts_length]

theorem init_WF (T : List Component) (h : Heap) : (vector.init T).WF T h := by
  refine ⟨le_refl _, le_refl _, ?_⟩
  intro hpos
  exact absurd hpos (lt_irrefl _)

/-- A growing `reserve(c)` keeps the invariant when the layout for `c` elements is
computed without truncation. -/
theorem reserve_WF (T : List Component) (h : Heap) (v : vector) (c : Int) (hwf : v.WF T h)
    (hfit : v.capacity_ < c → layout_bound T c < 2147483648) :
    (vector.reserve T h v c).2.WF T (vector.reserve T h v c).1 := by
  obtain ⟨h0, h1, h2⟩ := hwf
  unfold vector.reserve vector.capacity
  split
  · exact ⟨h0, h1, h2⟩
  · rename_i hc
    refine ⟨h0, ?_, ?_⟩
    · show v.size_ ≤ c
      omega
    · intro _
      exact ⟨hfit (by omega), h.next, Nat.lt_succ_self _, rfl⟩

theorem wf_separated (T : List Component) (h : Heap) (v : vector) (hwf : v.WF T h)
    (hpos : 0 < v.capacity_) :
    ∃ blk, blk < h.next ∧ Separated v.capacity_ blk T v.members := by
  obtain ⟨hfit, blk, hblk, hm⟩ := hwf.2.2 hpos
  exact ⟨blk, hblk, by rw [hm]; exact separated_create_members T _ (le_of_lt hpos) hfit blk⟩

theorem members_block_ne_next (T : List Component) (h : Heap) (v : vector) (hwf : v.WF T h)
    (hpos : 0 < v.capacity_) : ∀ s ∈ v.members, s.ptr_.block ≠ h.next := by
  obtain ⟨blk, hblk, hsep⟩ := wf_separated T h v hwf hpos
  intro s hs
  have := separated_block _ blk T _ hsep s hs
  omega

/-- Elements below `size` survive a call of `reserve`. -/
theorem reserve_get (T : List Component) (h : Heap) (v : vector) (c : Int) (hwf : v.WF T h)
    (hfit : v.capacity_ < c → layout_bound T c < 2147483648)
    (i j : Nat) (val : Val) (hj : (j : Int) < v.size_) (hget : v.get T h i j = some val) :
    (vector.reserve T h v c).2.get T (vector.reserve T h v c).1 i j = some val := by
  unfold vector.reserve vector.capacity
  split
  · exact hget
  · rename_i hc
    have hwf1 := hwf
    obtain ⟨h0, h1, _⟩ := hwf
    have hpos : 0 < v.capacity_ := by omega
    obtain ⟨blks, hblks, hseps⟩ := wf_separated T h v hwf1 hpos
    obtain ⟨ci, s, hci, hs, hload⟩ := get_some_elim T h v i j val hget
    have hi : i < T.length := by
      by_contra hcon
      rw [List.getElem?_eq_none (by omega)] at hci
      exact absurd hci (by simp)
    have hlen := create_members_length ⟨h.next, 0⟩ T c
    have hd : (create_members ⟨h.next, 0⟩ (shifts T c) T.length)[i]? =
        some ((create_members ⟨h.next, 0⟩ (shifts T c) T.length).get ⟨i, by omega⟩) :=
      List.getElem?_eq_getElem (by omega)
    simp only [vector.allocate, Heap.allocate, vector.size]
    rw [get_eq_load T _ _ i j ci _ hci hd]
    exact load_move_array v.size_ c v.capacity_ h.next blks (by omega) (by omega) h1 T
      v.members _ h.mem (separated_create_members T c (by omega) (hfit (by omega)) h.next)
      hseps i ci s _ hci hs hd j hj val hload

/-! ## `emplace_back` -/

theorem emplace_back_impl_cons (size_ : Int) (c : Component) (T : List Component)
    (p : vector_span) (ps : List vector_span) (args : List Val) (m : Mem) :
    emplace_back_impl size_ (c :: T) (p :: ps) args m =
      emplace_back_impl size_ T ps args.tail
        (m.store (p.ptr_.add size_ c.size) c.size
          ((args.head?.map c.convert).getD c.dflt)) := by
  cases args <;> rfl

theorem emplace_back_impl_cell_of_outside (size_ : Int) (hsize : 0 ≤ size_) (blk : Nat)
    (T : List Component) (ps : List vector_span) (args : List Val) (m : Mem)
    (hblk : ∀ p ∈ ps, p.ptr_.block = blk) (b : Nat) (o : Int)
    (h : b ≠ blk ∨ ∀ p ∈ ps, o < p.ptr_.off) :
    (emplace_back_impl size_ T ps args m).cell b o = m.cell b o := by
  induction T generalizing ps args m with
  | nil => cases ps <;> cases args <;> rfl
  | cons c T ih =>
    cases ps with
    | nil => cases args <;> rfl
    | cons p ps =>
      rw [emplace_back_impl_cons,
        ih ps _ _ (fun q hq => hblk q (List.mem_cons_of_mem _ hq))
          (h.imp id fun hh q hq => hh q (List.mem_cons_of_mem _ hq))]
      apply store_cell_of_outside
      rcases h with h | h
      · exact Or.inl (by simp only [Ptr.add]; rw [hblk p (List.mem_cons_self _ _)]; exact h)
      · refine Or.inr (Or.inl ?_)
        have h1 := h p (List.mem_cons_self _ _)
        have h2 := cell_start_ge p.ptr_.off size_ c.size hsize
        simp only [Ptr.add]
        omega

theorem load_emplace_back_impl (size_ nb : Int) (hsize : 0 ≤ size_) (hnb : size_ < nb)
    (blk : Nat) (T : List Component) (ps : List vector_span) (args : List Val) (m : Mem)
    (hsep : Separated nb blk T ps) (i : Nat) (c : Component) (p : vector_span)
    (hc : T[i]? = some c) (hp : ps[i]? = some p) :
    (emplace_back_impl size_ T ps args m).load (p.ptr_.add size_ c.size) c.size =
        some ((args[i]?.map c.convert).getD c.dflt) ∧
      ∀ j : Int, 0 ≤ j → j < size_ →
        (emplace_back_impl size_ T ps args m).load (p.ptr_.add j c.size) c.size =
          m.load (p.ptr_.add j c.size) c.size := by
  induction T generalizing ps args m i with
  | nil => simp at hc
  | cons c0 T ih =>
    cases ps with
    | nil => simp at hp
    | cons p0 ps =>
      simp only [Separated] at hsep
      obtain ⟨_, hlt, hsep1⟩ := hsep
      have hblk1 := separated_block nb blk T ps hsep1
      rw [emplace_back_impl_cons]
      cases i with
      | zero =>
        simp only [List.getElem?_cons_zero, Option.some.injEq] at hc hp
        subst hc hp
        have hframe : ∀ j : Int, 0 ≤ j → j ≤ size_ →
            (emplace_back_impl size_ T ps args.tail
              (m.store (p0.ptr_.add size_ c0.size) c0.size ((args.head?.map c0.convert).getD c0.dflt))).load
                (p0.ptr_.add j c0.size) c0.size =
            (m.store (p0.ptr_.add size_ c0.size) c0.size ((args.head?.map c0.convert).getD c0.dflt)).load
                (p0.ptr_.add j c0.size) c0.size := by
          intro j _ hj
          apply load_congr _ _ _ _ c0.size_pos
          intro o _ h2
          apply emplace_back_impl_cell_of_outside size_ hsize blk T ps _ _ hblk1
          refine Or.inr fun q hq => ?_
          have h3 := hlt q hq
          have h4 := cell_end_le p0.ptr_.off nb j c0.size (by omega)
          simp only [Ptr.add] at h2
          omega
        constructor
        · rw [hframe size_ hsize (le_refl _), load_store_same _ _ _ _ c0.size_pos]
          cases args <;> simp
        · intro j hj0 hj
          rw [hframe j hj0 (le_of_lt hj)]
          apply load_store_other _ _ _ _ _ _ c0.size_pos
          refine Or.inr (Or.inl ?_)
          have := cell_end_le p0.ptr_.off size_ j c0.size hj
          simp only [Ptr.add]
          omega
      | succ i =>
        simp only [List.getElem?_cons_succ] at hc hp
        obtain ⟨ih1, ih2⟩ := ih ps args.tail
          (m.store (p0.ptr_.add size_ c0.size) c0.size ((args.head?.map c0.convert).getD c0.dflt)) hsep1 i hc hp
        constructor
        · rw [ih1]
          cases args <;> simp
        · intro j hj0 hj
          rw [ih2 j hj0 hj]
          apply load_store_other _ _ _ _ _ _ c.size_pos
          refine Or.inr (Or.inr ?_)
          have h3 := hlt p (List.getElem?_mem hp)
          have h4 := cell_end_le p0.ptr_.off nb size_ c0.size hnb
          have h5 := cell_start_ge p.ptr_.off j c.size hj0
          simp only [Ptr.add]
          omega

theorem members_getElem?_of_wf (T : List Component) (h : Heap) (v : vector) (hwf : v.WF T h)
    (hpos : 0 < v.capacity_) (i : Nat) (hi : i < T.length) : ∃ p, v.members[i]? = some p := by
  obtain ⟨blk, _, hsep⟩ := wf_separated T h v hwf hpos
  have hlen := separated_length _ _ _ _ hsep
  exact ⟨v.members.get ⟨i, by omega⟩, List.getElem?_eq_getElem (by omega)⟩

theorem capacity_lt_of_wf (T : List Component) (h : Heap) (v : vector) (hwf : v.WF T h) :
    v.capacity_ < 2147483648 := by
  by_cases hpos : 0 < v.capacity_
  · have := (hwf.2.2 hpos).1
    have := le_layout_bound T v.capacity_ (le_of_lt hpos)
    omega
  · omega

/-- The growth step of `emplace_back`: afterwards there is room for one more element, and
the elements are the same. -/
theorem emplace_back_grow (T : List Component) (h : Heap) (v : vector) (hwf : v.WF T h)
    (hg : v.growth_fits T) (r : Heap × vector)
    (hr : r = if v.size = v.capacity then vector.reserve T h v v.new_capacity else (h, v)) :
    r.2.WF T r.1 ∧ r.2.size_ = v.size_ ∧ v.size_ < r.2.capacity_ ∧
      ∀ (i j : Nat) (val : Val), (j : Int) < v.size_ → v.get T h i j = some val →
        r.2.get T r.1 i j = some val := by
  have hwf' := hwf
  obtain ⟨h0, h1, _⟩ := hwf
  by_cases he : v.size = v.capacity
  · rw [if_pos he] at hr
    subst hr
    obtain ⟨hg1, hg2⟩ := hg he
    unfold vector.capacity at hg1
    unfold vector.size vector.capacity at he
    refine ⟨reserve_WF T h v _ hwf' (fun _ => hg2), reserve_size_eq T h v _, ?_,
      fun i j val hj hget => reserve_get T h v _ hwf' (fun _ => hg2) i j val hj hget⟩
    rw [reserve_capacity_eq, max_eq_right (le_of_lt hg1)]
    omega
  · rw [if_neg he] at hr
    subst hr
    unfold vector.size vector.capacity at he
    exact ⟨hwf', rfl, by show v.size_ < v.capacity_; omega, fun i j val _ hget => hget⟩

theorem emplace_back_eq (T : List Component) (h : Heap) (v : vector) (a : List Val)
    (r : Heap × vector)
    (hr : r = if v.size = v.capacity then vector.reserve T h v v.new_capacity else (h, v)) :
    vector.emplace_back T h v a =
      (⟨emplace_back_impl r.2.size_ T r.2.members a r.1.mem, r.1.next, r.1.trace⟩,
       ⟨r.2.members, to_int (r.2.size_ + 1), r.2.capacity_, r.2.nb_bytes_⟩) := by
  subst hr
  rfl

/-- The size after `emplace_back` on a container whose growth step goes well. -/
theorem emplace_back_size_of_fits (T : List Component) (h : Heap) (v : vector) (a : List Val)
    (hwf : v.WF T h) (hg : v.growth_fits T) :
    (vector.emplace_back T h v a).2.size_ = v.size_ + 1 := by
  obtain ⟨hr1, hr2, hr3, _⟩ := emplace_back_grow T h v hwf hg _ rfl
  have hcap := capacity_lt_of_wf T _ _ hr1
  have h0 := hwf.1
  rw [emplace_back_size_eq, to_int_of_range _ (by omega) (by omega)]

theorem emplace_back_WF (T : List Component) (h : Heap) (v : vector) (a : List Val)
    (hwf : v.WF T h) (hg : v.growth_fits T) :
    (vector.emplace_back T h v a).2.WF T (vector.emplace_back T h v a).1 := by
  obtain ⟨r, hr⟩ : ∃ r, r = if v.size = v.capacity then
      vector.reserve T h v v.new_capacity else (h, v) := ⟨_, rfl⟩
  obtain ⟨hr1, hr2, hr3, _⟩ := emplace_back_grow T h v hwf hg r hr
  have hcap := capacity_lt_of_wf T _ _ hr1
  have h00 := hwf.1
  obtain ⟨h0, h1, h2⟩ := hr1
  rw [emplace_back_eq T h v a r hr]
  refine ⟨?_, ?_, h2⟩
  · show 0 ≤ to_int (r.2.size_ + 1)
    rw [to_int_of_range _ (by omega) (by omega)]
    omega
  · show to_int (r.2.size_ + 1) ≤ r.2.capacity_
    rw [to_int_of_range _ (by omega) (by omega)]
    omega

/-- The element constructed by `emplace_back`, and the elements that were there before. -/
theorem emplace_back_get (T : List Component) (h : Heap) (v : vector) (a : List Val)
    (hwf : v.WF T h) (hg : v.growth_fits T) :
    (∀ (i : Nat) (c : Component), T[i]? = some c →
      (vector.emplace_back T h v a).2.get T (vector.emplace_back T h v a).1 i v.size_ =
        some ((a[i]?.map c.convert).getD c.dflt)) ∧
    ∀ (i j : Nat) (val : Val), (j : Int) < v.size_ → v.get T h i j = some val →
      (vector.emplace_back T h v a).2.get T (vector.emplace_back T h v a).1 i j = some val := by
  obtain ⟨r, hr⟩ : ∃ r, r = if v.size = v.capacity then
      vector.reserve T h v v.new_capacity else (h, v) := ⟨_, rfl⟩
  obtain ⟨hr1, hr2, hr3, hr4⟩ := emplace_back_grow T h v hwf hg r hr
  have h0 : 0 ≤ v.size_ := hwf.1
  have hpos : 0 < r.2.capacity_ := by omega
  obtain ⟨blk, _, hsep⟩ := wf_separated T _ _ hr1 hpos
  rw [emplace_back_eq T h v a r hr]
  constructor
  · intro i c hc
    have hi : i < T.length := by
      by_contra hcon
      rw [List.getElem?_eq_none (by omega)] at hc
      exact absurd hc (by simp)
    obtain ⟨p, hp⟩ := members_getElem?_of_wf T _ _ hr1 hpos i hi
    rw [get_eq_load T _ ⟨r.2.members, to_int (r.2.size_ + 1), r.2.capacity_, r.2.nb_bytes_⟩ i _
      c p hc hp]
    rw [hr2]
    exact (load_emplace_back_impl v.size_ _ h0 hr3 blk T _ a _ hsep i c p hc hp).1
  · intro i j val hj hget
    obtain ⟨c, p, hc, hp, hload⟩ := get_some_elim T _ _ i j val (hr4 i j val hj hget)
    rw [get_eq_load T _ ⟨r.2.members, to_int (r.2.size_ + 1), r.2.capacity_, r.2.nb_bytes_⟩ i _
      c p hc hp]
    rw [hr2]
    show (emplace_back_impl v.size_ T r.2.members a r.1.mem).load _ _ = _
    rw [(load_emplace_back_impl v.size_ _ h0 hr3 blk T _ a _ hsep i c p hc hp).2 j (by omega) hj]
    exact hload

/-! ## `resize` -/

theorem resize_each_eq (size_ size : Int) (T : List Component) (ps : List vector_span)
    (m : Mem) :
    resize_each size_ size T ps m =
      resize_each_value size_ size T ps (T.map Component.dflt) m := by
  induction T generalizing ps m with
  | nil => cases ps <;> rfl
  | cons c T ih =>
    cases ps with
    | nil => rfl
    | cons p ps => simp only [resize_each, resize_each_value, List.map_cons, ih]

theorem add_add (p : Ptr) (a b : Int) (sz : Nat) : (p.add a sz).add b sz = p.add (a + b) sz := by
  unfold Ptr.add
  simp only [Ptr.mk.injEq, true_and]
  ring

theorem resize_each_value_cell_of_outside (size_ size : Int) (hsize : 0 ≤ size_) (blk : Nat)
    (T : List Component) (ps : List vector_span) (vals : List Val) (m : Mem)
    (hblk : ∀ p ∈ ps, p.ptr_.block = blk) (b : Nat) (o : Int)
    (h : b ≠ blk ∨ ∀ p ∈ ps, o < p.ptr_.off) :
    (resize_each_value size_ size T ps vals m).cell b o = m.cell b o := by
  induction T generalizing ps vals m with
  | nil => cases ps <;> cases vals <;> rfl
  | cons c T ih =>
    cases ps with
    | nil => cases vals <;> rfl
    | cons p ps =>
      cases vals with
      | nil => rfl
      | cons val vals =>
        simp only [resize_each_value]
        rw [ih ps _ _ (fun q hq => hblk q (List.mem_cons_of_mem _ hq))
          (h.imp id fun hh q hq => hh q (List.mem_cons_of_mem _ hq))]
        apply construct_loop_cell_of_outside
        rcases h with h | h
        · exact Or.inl (by simp only [Ptr.add]; rw [hblk p (List.mem_cons_self _ _)]; exact h)
        · refine Or.inr (Or.inl ?_)
          have h1 := h p (List.mem_cons_self _ _)
          have h2 := cell_start_ge p.ptr_.off size_ c.size hsize
          simp only [Ptr.add]
          omega

theorem load_resize_each_value (size_ size nb : Int) (h0 : 0 ≤ size_) (h1 : size_ ≤ size)
    (h2 : size ≤ nb) (blk : Nat) (T : List Component) (ps : List vector_span)
    (vals : List Val) (m : Mem) (hsep : Separated nb blk T ps)
    (i : Nat) (c : Component) (p : vector_span) (val : Val)
    (hc : T[i]? = some c) (hp : ps[i]? = some p) (hv : vals[i]? = some val) :
    (∀ j : Int, size_ ≤ j → j < size →
      (resize_each_value size_ size T ps vals m).load (p.ptr_.add j c.size) c.size = some val) ∧
    ∀ j : Int, 0 ≤ j → j < size_ →
      (resize_each_value size_ size T ps vals m).load (p.ptr_.add j c.size) c.size =
        m.load (p.ptr_.add j c.size) c.size := by
  induction T generalizing ps vals m i with
  | nil => simp at hc
  | cons c0 T ih =>
    cases ps with
    | nil => simp at hp
    | cons p0 ps =>
      cases vals with
      | nil => simp at hv
      | cons v0 vals =>
        simp only [Separated] at hsep
        obtain ⟨_, hlt, hsep1⟩ := hsep
        have hblk1 := separated_block nb blk T ps hsep1
        have hn : (((size - size_).toNat : Nat) : Int) = size - size_ :=
          Int.toNat_of_nonneg (by omega)
        simp only [resize_each_value]
        cases i with
        | zero =>
          simp only [List.getElem?_cons_zero, Option.some.injEq] at hc hp hv
          subst hc hp hv
          have hframe : ∀ j : Int, 0 ≤ j → j < size →
              (resize_each_value size_ size T ps vals
                (construct_loop c0.size v0 (size - size_).toNat
                  (p0.ptr_.add size_ c0.size) m)).load (p0.ptr_.add j c0.size) c0.size =
              (construct_loop c0.size v0 (size - size_).toNat
                  (p0.ptr_.add size_ c0.size) m).load (p0.ptr_.add j c0.size) c0.size := by
            intro j _ hj
            apply load_congr _ _ _ _ c0.size_pos
            intro o _ h4
            apply resize_each_value_cell_of_outside size_ size h0 blk T ps _ _ hblk1
            refine Or.inr fun q hq => ?_
            have h5 := hlt q hq
            have h6 := cell_end_le p0.ptr_.off nb j c0.size (by omega)
            simp only [Ptr.add] at h4
            omega
          constructor
          · intro j hj0 hj
            rw [hframe j (by omega) hj]
            have hk : (((j - size_).toNat : Nat) : Int) = j - size_ :=
              Int.toNat_of_nonneg (by omega)
            have hadd : p0.ptr_.add j c0.size =
                (p0.ptr_.add size_ c0.size).add ((j - size_).toNat : Nat) c0.size := by
              rw [add_add, hk]
              congr 1
              omega
            rw [hadd]
            exact load_construct_loop c0.size c0.size_pos v0 _ _ m _ (by omega)
          · intro j hj0 hj
            rw [hframe j hj0 (by omega)]
            apply load_congr _ _ _ _ c0.size_pos
            intro o _ h4
            apply construct_loop_cell_of_outside
            refine Or.inr (Or.inl ?_)
            have := cell_end_le p0.ptr_.off size_ j c0.size hj
            simp only [Ptr.add] at h4 ⊢
            omega
        | succ i =>
          simp only [List.getElem?_cons_succ] at hc hp hv
          obtain ⟨ih1, ih2⟩ := ih ps vals
            (construct_loop c0.size v0 (size - size_).toNat (p0.ptr_.add size_ c0.size) m)
            hsep1 i hc hp hv
          refine ⟨ih1, ?_⟩
          intro j hj0 hj
          rw [ih2 j hj0 hj]
          apply load_congr _ _ _ _ c.size_pos
          intro o h3 _
          apply construct_loop_cell_of_outside
          refine Or.inr (Or.inr ?_)
          have h5 := hlt p (List.getElem?_mem hp)
          have h6 := cell_start_ge p.ptr_.off j c.size hj0
          have h7 : p0.ptr_.off + size_ * (c0.size : Int) +
              (size - size_) * (c0.size : Int) ≤ p0.ptr_.off + nb * (c0.size : Int) := by
            have : size * (c0.size : Int) ≤ nb * (c0.size : Int) :=
              Int.mul_le_mul_of_nonneg_right h2 (Int.ofNat_nonneg _)
            linarith
          simp only [Ptr.add] at h3 ⊢
          rw [hn]
          omega

theorem resize_value_eq (T : List Component) (h : Heap) (v : vector) (n : Int)
    (value : List Val) (hn : v.size_ < n) (r : Heap × vector) (hr : r = vector.reserve T h v n) :
    vector.resize_value T h v n value =
      (⟨resize_each_value r.2.size_ n T r.2.members value r.1.mem, r.1.next, r.1.trace⟩,
       ⟨r.2.members, n, r.2.capacity_, r.2.nb_bytes_⟩) := by
  subst hr
  unfold vector.resize_value vector.size
  rw [if_neg (by omega)]

theorem resize_eq_resize_value (T : List Component) (h : Heap) (v : vector) (n : Int) :
    vector.resize T h v n = vector.resize_value T h v n (T.map Component.dflt) := by
  unfold vector.resize vector.resize_value
  simp only [resize_each_eq]

theorem resize_value_WF (T : List Component) (h : Heap) (v : vector) (n : Int)
    (value : List Val) (hwf : v.WF T h)
    (hfit : v.capacity_ < n → layout_bound T n < 2147483648) :
    (vector.resize_value T h v n value).2.WF T (vector.resize_value T h v n value).1 := by
  by_cases hn : n ≤ v.size_
  · unfold vector.resize_value vector.size
    rw [if_pos hn]
    exact hwf
  · obtain ⟨r, hr⟩ : ∃ r, r = vector.reserve T h v n := ⟨_, rfl⟩
    have hrwf : r.2.WF T r.1 := by rw [hr]; exact reserve_WF T h v n hwf hfit
    have hcap : r.2.capacity_ = max v.capacity_ n := by rw [hr]; exact reserve_capacity_eq T h v n
    have h0 := hwf.1
    rw [resize_value_eq T h v n value (by omega) r hr]
    refine ⟨by show 0 ≤ n; omega, ?_, hrwf.2.2⟩
    show n ≤ r.2.capacity_
    rw [hcap]
    exact le_max_right _ _

theorem resize_WF (T : List Component) (h : Heap) (v : vector) (n : Int) (hwf : v.WF T h)
    (hfit : v.capacity_ < n → layout_bound T n < 2147483648) :
    (vector.resize T h v n).2.WF T (vector.resize T h v n).1 := by
  rw [resize_eq_resize_value]
  exact resize_value_WF T h v n _ hwf hfit

/-- Growing `resize(n, value)`: size, capacity, old elements and new elements. -/
theorem resize_value_get (T : List Component) (h : Heap) (v : vector) (n : Int)
    (value : List Val) (hwf : v.WF T h)
    (hfit : v.capacity_ < n → layout_bound T n < 2147483648) (hn : v.size_ < n)
    (hlen : value.length = T.length) :
    (vector.resize_value T h v n value).2.size_ = n ∧
    (vector.resize_value T h v n value).2.capacity_ = max v.capacity_ n ∧
    (∀ (i j : Nat) (val : Val), (j : Int) < v.size_ → v.get T h i j = some val →
      (vector.resize_value T h v n value).2.get T (vector.resize_value T h v n value).1 i j =
        some val) ∧
    ∀ (i : Nat) (a : Val) (j : Int), value[i]? = some a → v.size_ ≤ j → j < n →
      (vector.resize_value T h v n value).2.get T (vector.resize_value T h v n value).1 i j =
        some a := by
  obtain ⟨r, hr⟩ : ∃ r, r = vector.reserve T h v n := ⟨_, rfl⟩
  have hrwf : r.2.WF T r.1 := by rw [hr]; exact reserve_WF T h v n hwf hfit
  have hcap : r.2.capacity_ = max v.capacity_ n := by rw [hr]; exact reserve_capacity_eq T h v n
  have hsz : r.2.size_ = v.size_ := by rw [hr]; exact reserve_size_eq T h v n
  have h0 := hwf.1
  have hncap : n ≤ r.2.capacity_ := by rw [hcap]; exact le_max_right _ _
  have hpos : 0 < r.2.capacity_ := by omega
  obtain ⟨blk, _, hsep⟩ := wf_separated T _ _ hrwf hpos
  rw [resize_value_eq T h v n value hn r hr]
  refine ⟨rfl, hcap, ?_, ?_⟩
  · intro i j val hj hget
    have hget1 : r.2.get T r.1 i j = some val := by
      rw [hr]; exact reserve_get T h v n hwf hfit i j val hj hget
    obtain ⟨c, p, hc, hp, hload⟩ := get_some_elim T _ _ i j val hget1
    have hi : i < value.length := by
      rw [hlen]
      by_contra hcon
      rw [List.getElem?_eq_none (by omega)] at hc
      exact absurd hc (by simp)
    rw [get_eq_load T _ ⟨r.2.members, n, r.2.capacity_, r.2.nb_bytes_⟩ i _ c p hc hp, hsz]
    show (resize_each_value v.size_ n T r.2.members value r.1.mem).load _ _ = _
    rw [(load_resize_each_value v.size_ n _ h0 (le_of_lt hn) hncap blk T _ value _ hsep i c p
      (value.get ⟨i, hi⟩) hc hp (List.getElem?_eq_getElem hi)).2 j (by omega) hj]
    exact hload
  · intro i a j ha hj0 hj
    have hi : i < T.length := by
      rw [← hlen]
      by_contra hcon
      rw [List.getElem?_eq_none (by omega)] at ha
      exact absurd ha (by simp)
    obtain ⟨p, hp⟩ := members_getElem?_of_wf T _ _ hrwf hpos i hi
    have hc : T[i]? = some (T.get ⟨i, hi⟩) := List.getElem?_eq_getElem hi
    rw [get_eq_load T _ ⟨r.2.members, n, r.2.capacity_, r.2.nb_bytes_⟩ i _ _ p hc hp, hsz]
    exact (load_resize_each_value v.size_ n _ h0 (le_of_lt hn) hncap blk T _ value _ hsep i _ p
      a hc hp ha).1 j hj0 hj

/-- Growing `resize(n)`: size, capacity, old elements and default-constructed elements. -/
theorem resize_get (T : List Component) (h : Heap) (v : vector) (n : Int)
    (hwf : v.WF T h) (hfit : v.capacity_ < n → layout_bound T n < 2147483648)
    (hn : v.size_ < n) :
    (vector.resize T h v n).2.size_ = n ∧
    (vector.resize T h v n).2.capacity_ = max v.capacity_ n ∧
    (∀ (i j : Nat) (val : Val), (j : Int) < v.size_ → v.get T h i j = some val →
      (vector.resize T h v n).2.get T (vector.resize T h v n).1 i j = some val) ∧
    ∀ (i : Nat) (c : Component) (j : Int), T[i]? = some c → v.size_ ≤ j → j < n →
      (vector.resize T h v n).2.get T (vector.resize T h v n).1 i j = some c.dflt := by
  rw [resize_eq_resize_value]
  obtain ⟨h1, h2, h3, h4⟩ :=
    resize_value_get T h v n (T.map Component.dflt) hwf hfit hn (by simp)
  refine ⟨h1, h2, h3, ?_⟩
  intro i c j hc hj0 hj
  exact h4 i c.dflt j (by simp [hc]) hj0 hj

/-! ## The scenario of `tests.cpp` -/

theorem test_reserve_WF : test_reserve.2.WF physics_t test_reserve.1 :=
  reserve_WF physics_t _ _ 4 (init_WF physics_t Heap.empty) (fun _ => by decide)

theorem test_resize_WF : test_resize.2.WF physics_t test_resize.1 :=
  resize_WF physics_t _ _ 1 test_reserve_WF (fun hc => absurd hc (by decide))

theorem test_resize_growth_fits : test_resize.2.growth_fits physics_t :=
  fun he => absurd he (by decide)

theorem test_push_back_WF : test_push_back.2.WF physics_t test_push_back.1 :=
  emplace_back_WF physics_t _ _ _ test_resize_WF test_resize_growth_fits

theorem test_resize_get (i : Nat) (c : Component) (hc : physics_t[i]? = some c) :
    test_resize.2.get physics_t test_resize.1 i 0 = some c.dflt :=
  (resize_get physics_t test_reserve.1 test_reserve.2 1 test_reserve_WF
    (fun hc => absurd hc (by decide)) (by decide)).2.2.2 i c 0 hc (by decide) (by decide)

theorem test_push_back_get (i : Nat) (c : Component) (hc : physics_t[i]? = some c) :
    test_push_back.2.get physics_t test_push_back.1 i 1 =
      some ((([1, 2, 3, 42] : List Val)[i]?.map c.convert).getD c.dflt) :=
  (emplace_back_get physics_t test_resize.1 test_resize.2 [1, 2, 3, 42] test_resize_WF
    test_resize_growth_fits).1 i c hc

/-! ## Destruction and deallocation -/

theorem destroy_at_cell_of_outside (m : Mem) (p : Ptr) (sz : Nat) (b : Nat) (o : Int)
    (h : b ≠ p.block ∨ o < p.off ∨ p.off + (sz : Int) ≤ o) :
    (m.destroy_at p sz).cell b o = m.cell b o := by
  unfold Mem.destroy_at
  simp only
  rw [if_neg]
  rintro ⟨h1, h2, h3⟩
  rcases h with h | h | h
  · exact h h1
  · omega
  · omega

theorem load_destroy_at_other (m : Mem) (p q : Ptr) (sz sz1 : Nat) (hsz1 : 0 < sz1)
    (h : q.block ≠ p.block ∨ q.off + (sz1 : Int) ≤ p.off ∨ p.off + (sz : Int) ≤ q.off) :
    (m.destroy_at p sz).load q sz1 = m.load q sz1 := by
  apply load_congr _ _ _ _ hsz1
  intro o h1 h2
  apply destroy_at_cell_of_outside
  rcases h with h | h | h
  · exact Or.inl h
  · exact Or.inr (Or.inl (by omega))
  · exact Or.inr (Or.inr (by omega))

theorem free_cell_of_ne (m : Mem) (blk b : Nat) (o : Int) (h : b ≠ blk) :
    (m.free blk).cell b o = m.cell b o := by
  unfold Mem.free
  simp only
  rw [if_neg h]

theorem destroy_loop_cell_of_ne (sz n : Nat) (it : Ptr) (m : Mem) (b : Nat) (o : Int)
    (h : b ≠ it.block) : (destroy_loop sz n it m).cell b o = m.cell b o := by
  induction n generalizing it m with
  | zero => rfl
  | succ n ih =>
    simp only [destroy_loop]
    rw [ih _ _ (by simpa [Ptr.add] using h)]
    exact destroy_at_cell_of_outside m it sz b o (Or.inl h)

theorem copy_loop_cell_of_ne (sz n : Nat) (s d : Ptr) (m : Mem) (b : Nat) (o : Int)
    (h : b ≠ d.block) : (copy_loop sz n s d m).cell b o = m.cell b o :=
  copy_loop_cell_of_outside sz n s d m b o (Or.inl h)

theorem for_each_cell_of_foreign (f : Component → vector_span → Mem → Mem) (b : Nat)
    (hf : ∀ (c : Component) (p : vector_span) (m : Mem) (o : Int), p.ptr_.block ≠ b →
      (f c p m).cell b o = m.cell b o)
    (T : List Component) (ps : List vector_span) (m : Mem) (o : Int)
    (h : ∀ p ∈ ps, p.ptr_.block ≠ b) : (for_each f T ps m).cell b o = m.cell b o := by
  induction T generalizing ps m with
  | nil => cases ps <;> rfl
  | cons c T ih =>
    cases ps with
    | nil => rfl
    | cons p ps =>
      simp only [for_each]
      rw [ih ps _ (fun q hq => h q (List.mem_cons_of_mem _ hq))]
      exact hf c p m o (h p (List.mem_cons_self _ _))

theorem copy_array_cell_of_foreign (size : Int) (b : Nat) (T : List Component)
    (src dst : List vector_span) (m : Mem) (o : Int) (h : ∀ d ∈ dst, d.ptr_.block ≠ b) :
    (copy_array size T src dst m).cell b o = m.cell b o := by
  induction T generalizing src dst m with
  | nil => simp [copy_array]
  | cons c T ih =>
    cases src with
    | nil => simp [copy_array]
    | cons s src =>
      cases dst with
      | nil => simp [copy_array]
      | cons d dst =>
        simp only [copy_array]
        rw [ih src dst _ (fun q hq => h q (List.mem_cons_of_mem _ hq))]
        exact copy_loop_cell_of_ne _ _ _ _ _ _ _ (Ne.symm (h d (List.mem_cons_self _ _)))

theorem for_each_cell_of_below (f : Component → vector_span → Mem → Mem) (lo : Int)
    (h0 : 0 ≤ lo)
    (hf : ∀ (c : Component) (p : vector_span) (m : Mem) (b : Nat) (o : Int),
      o < p.ptr_.off + lo * (c.size : Int) → (f c p m).cell b o = m.cell b o)
    (T : List Component) (ps : List vector_span) (m : Mem) (b : Nat) (o : Int)
    (h : ∀ p ∈ ps, o < p.ptr_.off) : (for_each f T ps m).cell b o = m.cell b o := by
  induction T generalizing ps m with
  | nil => cases ps <;> rfl
  | cons c T ih =>
    cases ps with
    | nil => rfl
    | cons p ps =>
      simp only [for_each]
      rw [ih ps _ (fun q hq => h q (List.mem_cons_of_mem _ hq))]
      apply hf
      have h1 := h p (List.mem_cons_self _ _)
      have h2 := cell_start_ge p.ptr_.off lo c.size h0
      omega

/-- A `for_each` whose function touches, in each segment, only the elements from index
`lo` to index `hi`, leaves the elements below `lo` as they are. -/
theorem load_for_each_below (f : Component → vector_span → Mem → Mem) (lo hi nb : Int)
    (h0 : 0 ≤ lo) (h1 : lo ≤ hi) (h2 : hi ≤ nb)
    (hf : ∀ (c : Component) (p : vector_span) (m : Mem) (b : Nat) (o : Int),
      (o < p.ptr_.off + lo * (c.size : Int) ∨ p.ptr_.off + hi * (c.size : Int) ≤ o) →
        (f c p m).cell b o = m.cell b o)
    (blk : Nat) (T : List Component) (ps : List vector_span) (m : Mem)
    (hsep : Separated nb blk T ps) (i : Nat) (c : Component) (p : vector_span)
    (hc : T[i]? = some c) (hp : ps[i]? = some p) (j : Int) (hj0 : 0 ≤ j) (hj : j < lo) :
    (for_each f T ps m).load (p.ptr_.add j c.size) c.size =
      m.load (p.ptr_.add j c.size) c.size := by
  induction T generalizing ps m i with
  | nil => simp at hc
  | cons c0 T ih =>
    cases ps with
    | nil => simp at hp
    | cons p0 ps =>
      simp only [Separated] at hsep
      obtain ⟨_, hlt, hsep1⟩ := hsep
      simp only [for_each]
      cases i with
      | zero =>
        simp only [List.getElem?_cons_zero, Option.some.injEq] at hc hp
        subst hc hp
        have hend := cell_end_le p0.ptr_.off lo j c0.size hj
        have hend2 := cell_end_le p0.ptr_.off nb j c0.size (by omega)
        rw [load_congr (f c0 p0 m) _ _ _ c0.size_pos, load_congr m _ _ _ c0.size_pos]
        · intro o _ h4
          apply hf
          simp only [Ptr.add] at h4
          exact Or.inl (by omega)
        · intro o _ h4
          apply for_each_cell_of_below f lo h0 (fun c p m b o ho => hf c p m b o (Or.inl ho))
          intro q hq
          have h5 := hlt q hq
          simp only [Ptr.add] at h4
          omega
      | succ i =>
        simp only [List.getElem?_cons_succ] at hc hp
        rw [ih ps _ hsep1 i hc hp]
        apply load_congr _ _ _ _ c.size_pos
        intro o h3 _
        apply hf
        refine Or.inr ?_
        have h5 := hlt p (List.getElem?_mem hp)
        have h6 := cell_start_ge p.ptr_.off j c.size hj0
        have h7 : hi * (c0.size : Int) ≤ nb * (c0.size : Int) :=
          Int.mul_le_mul_of_nonneg_right h2 (Int.ofNat_nonneg _)
        simp only [Ptr.add] at h3
        omega

/-! ## `pop_back` and `clear` -/

theorem empty_eq_true_iff (v : vector) : v.empty = true ↔ v.size_ = 0 := by
  simp [vector.empty, vector.size]

theorem pop_back_of_empty (T : List Component) (h : Heap) (v : vector) (he : v.size_ = 0) :
    vector.pop_back T h v = ((h, v), some Exception.logic_error) := by
  unfold vector.pop_back
  rw [if_pos ((empty_eq_true_iff v).mpr he)]

theorem pop_back_of_ne (T : List Component) (h : Heap) (v : vector) (he : v.size_ ≠ 0)
    (h0 : -2147483648 < v.size_) (h1 : v.size_ ≤ 2147483648) :
    vector.pop_back T h v =
      ((⟨for_each (fun type span m =>
            m.destroy_at (span.ptr_.add (v.size_ - 1) type.size) type.size) T v.members h.mem,
          h.next, h.trace⟩,
        ⟨v.members, v.size_ - 1, v.capacity_, v.nb_bytes_⟩), none) := by
  unfold vector.pop_back
  rw [if_neg (fun hc => he ((empty_eq_true_iff v).mp hc)),
    to_int_of_range (v.size_ - 1) (by omega) (by omega)]
  rfl

/-- Elements below the new size survive `pop_back`. -/
theorem pop_back_get (T : List Component) (h : Heap) (v : vector) (hwf : v.WF T h)
    (hpos : 0 < v.size_) (i j : Nat) (val : Val) (hj : (j : Int) < v.size_ - 1)
    (hget : v.get T h i j = some val) :
    (vector.pop_back T h v).1.2.get T (vector.pop_back T h v).1.1 i j = some val := by
  have hcap := capacity_lt_of_wf T h v hwf
  have hle := hwf.2.1
  rw [pop_back_of_ne T h v (by omega) (by omega) (by omega)]
  obtain ⟨c, p, hc, hp, hload⟩ := get_some_elim T h v i j val hget
  obtain ⟨blk, _, hsep⟩ := wf_separated T h v hwf (by have := hwf.2.1; omega)
  rw [get_eq_load T _ ⟨v.members, v.size_ - 1, v.capacity_, v.nb_bytes_⟩ i _ c p hc hp]
  show (for_each _ T v.members h.mem).load _ _ = _
  rw [load_for_each_below _ (v.size_ - 1) v.size_ v.capacity_ (by omega) (by omega) hwf.2.1
    ?_ blk T v.members h.mem hsep i c p hc hp j (by omega) hj]
  · exact hload
  · intro c p m b o ho
    apply destroy_at_cell_of_outside
    refine Or.inr ?_
    simp only [Ptr.add]
    have : v.size_ * (c.size : Int) = (v.size_ - 1) * (c.size : Int) + (c.size : Int) := by ring
    rcases ho with ho | ho
    · exact Or.inl ho
    · exact Or.inr (by omega)

theorem WF_of_next_le (T : List Component) (h h1 : Heap) (v : vector) (hwf : v.WF T h)
    (hn : h.next ≤ h1.next) : v.WF T h1 := by
  obtain ⟨h0, hc, h2⟩ := hwf
  refine ⟨h0, hc, fun hpos => ?_⟩
  obtain ⟨hfit, blk, hblk, hm⟩ := h2 hpos
  exact ⟨hfit, blk, by omega, hm⟩

theorem create_members_block (ptr : Ptr) (shift : List Int) (n : Nat) :
    ∀ p ∈ create_members ptr shift n, p.ptr_.block = ptr.block := by
  intro p hp
  simp only [create_members, List.mem_map] at hp
  obtain ⟨s, _, rfl⟩ := hp
  rfl

theorem wf_block (T : List Component) (h : Heap) (v : vector) (hwf : v.WF T h)
    (hpos : 0 < v.capacity_) : ∃ blk, blk < h.next ∧ ∀ p ∈ v.members, p.ptr_.block = blk := by
  obtain ⟨_, blk, hblk, hm⟩ := hwf.2.2 hpos
  refine ⟨blk, hblk, ?_⟩
  rw [hm]
  exact create_members_block ⟨blk, 0⟩ _ _

theorem for_each_of_id (f : Component → vector_span → Mem → Mem)
    (hf : ∀ (c : Component) (p : vector_span) (m : Mem), f c p m = m)
    (T : List Component) (ps : List vector_span) (m : Mem) : for_each f T ps m = m := by
  induction T generalizing ps m with
  | nil => cases ps <;> rfl
  | cons c T ih =>
    cases ps with
    | nil => rfl
    | cons p ps => simp only [for_each, hf, ih]

theorem destroy_cell (T : List Component) (h : Heap) (v : vector) (hwf : v.WF T h) (b : Nat)
    (o : Int) (hf : v.foreign b) : (vector.destroy T h v).mem.cell b o = h.mem.cell b o := by
  unfold vector.destroy vector.size
  by_cases hpos : 0 < v.capacity_
  · apply for_each_cell_of_foreign _ b _ T v.members h.mem o (hf hpos)
    intro c p m o hp
    exact destroy_loop_cell_of_ne _ _ _ _ _ _ (Ne.symm hp)
  · have hs : v.size_ = 0 := by
      have := hwf.1
      have := hwf.2.1
      omega
    simp only [hs]
    rw [for_each_of_id (fun type span m => destroy_loop type.size (Int.toNat 0) span.ptr_ m)
      (fun c p m => rfl)]

theorem independent_symm (T : List Component) (h : Heap) (a b : vector)
    (hi : Independent T h a b) : Independent T h b a :=
  ⟨hi.2.1, hi.1, fun hb ha q hq p hp => Ne.symm (hi.2.2 ha hb p hp q hq)⟩

theorem independent_foreign (T : List Component) (h : Heap) (a b : vector)
    (hi : Independent T h a b) (hb : 0 < b.capacity_) :
    ∀ q ∈ b.members, q.ptr_.block < h.next ∧ a.foreign q.ptr_.block := by
  obtain ⟨blk, hblk, hall⟩ := wf_block T h b hi.2.1 hb
  intro q hq
  refine ⟨by rw [hall q hq]; exact hblk, fun ha p hp => hi.2.2 ha hb p hp q hq⟩

theorem get_congr_of_cell (T : List Component) (h h1 : Heap) (v : vector) (i : Nat) (j : Int)
    (hcell : ∀ q ∈ v.members, ∀ o, h1.mem.cell q.ptr_.block o = h.mem.cell q.ptr_.block o) :
    v.get T h1 i j = v.get T h i j := by
  unfold vector.get
  cases hc : T[i]? with
  | none => rfl
  | some c =>
    cases hp : v.members[i]? with
    | none => rfl
    | some p =>
      simp only
      apply load_congr _ _ _ _ c.size_pos
      intro o _ _
      exact hcell p (List.getElem?_mem hp) o

theorem size_lt_capacity_pos (T : List Component) (h : Heap) (v : vector) (hwf : v.WF T h)
    (j : Nat) (hj : (j : Int) < v.size_) : 0 < v.capacity_ := by
  have := hwf.2.1
  omega

theorem copy_ctor_of_empty (T : List Component) (h : Heap) (rhs : vector)
    (he : rhs.size_ = 0) :
    vector.copy_ctor T h rhs = (h, ⟨rhs.members, rhs.size_, rhs.size_, rhs.nb_bytes_⟩) := by
  unfold vector.copy_ctor
  rw [if_pos ((empty_eq_true_iff rhs).mpr he)]
  rfl

theorem copy_ctor_of_ne (T : List Component) (h : Heap) (rhs : vector) (he : rhs.size_ ≠ 0) :
    vector.copy_ctor T h rhs =
      (⟨copy_array rhs.size_ T rhs.members
          (create_members ⟨h.next, 0⟩ (shifts T rhs.size_) T.length) h.mem,
        h.next + 1, h.trace ++ [AllocEvent.allocate h.next (total_bytes T rhs.size_)]⟩,
       ⟨create_members ⟨h.next, 0⟩ (shifts T rhs.size_) T.length, rhs.size_, rhs.size_,
        total_bytes T rhs.size_⟩) := by
  unfold vector.copy_ctor
  rw [if_neg (fun hc => he ((empty_eq_true_iff rhs).mp hc))]
  rfl

theorem copy_ctor_next (T : List Component) (h : Heap) (rhs : vector) :
    h.next ≤ (vector.copy_ctor T h rhs).1.next := by
  by_cases he : rhs.size_ = 0
  · rw [copy_ctor_of_empty T h rhs he]
  · rw [copy_ctor_of_ne T h rhs he]
    exact Nat.le_succ _

theorem copy_ctor_WF (T : List Component) (h : Heap) (rhs : vector) (hwf : rhs.WF T h) :
    (vector.copy_ctor T h rhs).2.WF T (vector.copy_ctor T h rhs).1 := by
  by_cases he : rhs.size_ = 0
  · rw [copy_ctor_of_empty T h rhs he]
    refine ⟨by show 0 ≤ rhs.size_; omega, le_refl _, fun hpos => ?_⟩
    have : 0 < rhs.size_ := hpos
    omega
  · rw [copy_ctor_of_ne T h rhs he]
    have h0 := hwf.1
    have h1 := hwf.2.1
    have hfit := (hwf.2.2 (by omega)).1
    have hmono := layout_bound_mono T rhs.size_ rhs.capacity_ h1
    exact ⟨h0, le_refl _, fun _ => ⟨by show layout_bound T rhs.size_ < _; omega, h.next,
      Nat.lt_succ_self _, rfl⟩⟩

theorem copy_ctor_independent (T : List Component) (h : Heap) (rhs : vector)
    (hwf : rhs.WF T h) :
    Independent T (vector.copy_ctor T h rhs).1 rhs (vector.copy_ctor T h rhs).2 := by
  refine ⟨WF_of_next_le T h _ rhs hwf (copy_ctor_next T h rhs), copy_ctor_WF T h rhs hwf, ?_⟩
  by_cases he : rhs.size_ = 0
  · rw [copy_ctor_of_empty T h rhs he]
    intro _ hpos
    have : 0 < rhs.size_ := hpos
    omega
  · rw [copy_ctor_of_ne T h rhs he]
    intro hr _ p hp q hq
    have h1 := members_block_ne_next T h rhs hwf hr p hp
    have h2 := create_members_block _ _ _ q hq
    rw [h2]
    exact h1

theorem copy_ctor_cell (T : List Component) (h : Heap) (rhs : vector) (b : Nat) (o : Int)
    (hb : b < h.next) : (vector.copy_ctor T h rhs).1.mem.cell b o = h.mem.cell b o := by
  by_cases he : rhs.size_ = 0
  · rw [copy_ctor_of_empty T h rhs he]
  · rw [copy_ctor_of_ne T h rhs he]
    apply copy_array_cell_of_foreign
    intro d hd
    have := create_members_block _ _ _ d hd
    have h3 : (⟨h.next, 0⟩ : Ptr).block = h.next := rfl
    omega

/-- The copy holds the elements of the source, and the source still holds them. -/
theorem copy_ctor_get (T : List Component) (h : Heap) (rhs : vector) (hwf : rhs.WF T h)
    (i j : Nat) (val : Val) (hj : (j : Int) < rhs.size_) (hget : rhs.get T h i j = some val) :
    (vector.copy_ctor T h rhs).2.get T (vector.copy_ctor T h rhs).1 i j = some val ∧
      rhs.get T (vector.copy_ctor T h rhs).1 i j = some val := by
  have hpos := size_lt_capacity_pos T h rhs hwf j hj
  constructor
  · rw [copy_ctor_of_ne T h rhs (by omega)]
    obtain ⟨ci, s, hci, hs, hload⟩ := get_some_elim T h rhs i j val hget
    have hi : i < T.length := by
      by_contra hcon
      rw [List.getElem?_eq_none (by omega)] at hci
      exact absurd hci (by simp)
    have hlen := create_members_length ⟨h.next, 0⟩ T rhs.size_
    have hd : (create_members ⟨h.next, 0⟩ (shifts T rhs.size_) T.length)[i]? =
        some ((create_members ⟨h.next, 0⟩ (shifts T rhs.size_) T.length).get ⟨i, by omega⟩) :=
      List.getElem?_eq_getElem (by omega)
    rw [get_eq_load T _ ⟨create_members ⟨h.next, 0⟩ (shifts T rhs.size_) T.length, rhs.size_,
      rhs.size_, total_bytes T rhs.size_⟩ i j ci _ hci hd]
    have hmono := layout_bound_mono T rhs.size_ rhs.capacity_ hwf.2.1
    exact load_copy_array rhs.size_ rhs.size_ h.next (le_refl _) T rhs.members _ h.mem
      (separated_create_members T rhs.size_ hwf.1 (by have := (hwf.2.2 hpos).1; omega) h.next)
      (members_block_ne_next T h rhs hwf hpos) i ci s _ hci hs hd j hj val hload
  · rw [← hget]
    apply get_congr_of_cell
    intro q hq o
    obtain ⟨blk, hblk, hall⟩ := wf_block T h rhs hwf hpos
    exact copy_ctor_cell T h rhs _ o (by rw [hall q hq]; exact hblk)

/-! ## Assignments -/

theorem deallocate_next (h : Heap) (v : vector) : (vector.deallocate h v).next = h.next := by
  unfold vector.deallocate
  split <;> rfl

theorem destroy_deallocate_next (T : List Component) (h : Heap) (v : vector) :
    (vector.deallocate (vector.destroy T h v) v).next = h.next := by
  rw [deallocate_next]
  rfl

theorem copy_assign_fields (T : List Component) (h : Heap) (this rhs : vector) :
    (vector.copy_assign T h this rhs).2.size_ = rhs.size_ ∧
    (vector.copy_assign T h this rhs).2.capacity_ =
      (if this.capacity_ < rhs.size_ then rhs.size_ else this.capacity_) ∧
    (vector.copy_assign T h this rhs).2.members =
      (if this.capacity_ < rhs.size_ then
        create_members ⟨h.next, 0⟩ (shifts T rhs.size_) T.length else this.members) ∧
    (vector.copy_assign T h this rhs).1.next =
      (if this.capacity_ < rhs.size_ then h.next + 1 else h.next) := by
  unfold vector.copy_assign vector.capacity vector.size
  by_cases hc : this.capacity_ < rhs.size_
  · simp only [if_pos hc, vector.allocate, Heap.allocate, destroy_deallocate_next]
    refine ⟨?_, ?_, ?_, ?_⟩ <;> first | rfl | trivial
  · simp only [if_neg hc]
    refine ⟨?_, ?_, ?_, ?_⟩ <;> first | rfl | trivial

theorem to_zero_fields (v : vector) :
    v.to_zero.size_ = 0 ∧ v.to_zero.capacity_ = 0 ∧ v.to_zero.nb_bytes_ = 0 ∧
      v.to_zero.members.length = v.members.length ∧
      ∀ p ∈ v.to_zero.members, p.ptr_ = Ptr.null := by
  refine ⟨rfl, rfl, rfl, by simp [vector.to_zero], ?_⟩
  intro p hp
  simp only [vector.to_zero, List.mem_map] at hp
  obtain ⟨_, _, rfl⟩ := hp
  rfl

theorem members_length_of_wf (T : List Component) (h : Heap) (v : vector) (hwf : v.WF T h)
    (hpos : 0 < v.capacity_) : v.members.length = T.length := by
  obtain ⟨blk, _, hsep⟩ := wf_separated T h v hwf hpos
  exact separated_length _ _ _ _ hsep

theorem move_assign_cell (T : List Component) (h : Heap) (this rhs : vector)
    (hi : Independent T h this rhs) (hpos : 0 < rhs.capacity_) :
    ∀ q ∈ rhs.members, ∀ o,
      (vector.move_assign T h this rhs).1.mem.cell q.ptr_.block o = h.mem.cell q.ptr_.block o := by
  intro q hq o
  obtain ⟨_, hq2⟩ := independent_foreign T h this rhs hi hpos q hq
  have hdes := destroy_cell T h this hi.1 q.ptr_.block o hq2
  show (vector.deallocate (vector.destroy T h this) this).mem.cell _ _ = _
  rw [← hdes]
  unfold vector.deallocate vector.capacity
  by_cases hc : this.capacity_ = 0
  · rw [if_pos hc]
  · rw [if_neg hc]
    have htpos : 0 < this.capacity_ := by
      have := hi.1.1
      have := hi.1.2.1
      omega
    apply free_cell_of_ne
    have hl1 := members_length_of_wf T h this hi.1 htpos
    have hl2 := members_length_of_wf T h rhs hi.2.1 hpos
    cases hm : this.members with
    | nil =>
      rw [hm] at hl1
      have : rhs.members.length = 0 := by rw [hl2, ← hl1]; rfl
      have hnil := List.eq_nil_of_length_eq_zero this
      rw [hnil] at hq
      exact absurd hq (List.not_mem_nil _)
    | cons p0 ps =>
      simp only [List.headD_cons]
      exact Ne.symm (hi.2.2 htpos hpos p0 (by rw [hm]; exact List.mem_cons_self _ _) q hq)

/-- After a move assignment the destination holds the elements of the source. -/
theorem move_assign_get (T : List Component) (h : Heap) (this rhs : vector)
    (hi : Independent T h this rhs) (i j : Nat) (val : Val) (hj : (j : Int) < rhs.size_)
    (hget : rhs.get T h i j = some val) :
    (vector.move_assign T h this rhs).2.1.get T (vector.move_assign T h this rhs).1 i j =
      some val := by
  have hpos := size_lt_capacity_pos T h rhs hi.2.1 j hj
  rw [← hget]
  exact get_congr_of_cell T h _ ⟨rhs.members, rhs.size_, rhs.capacity, rhs.nb_bytes_⟩ i j
    (move_assign_cell T h this rhs hi hpos)

/-! ## The copy and the move of `tests.cpp` -/

theorem test_copy_independent :
    Independent physics_t test_copy.1 test_push_back.2 test_copy.2 :=
  copy_ctor_independent physics_t _ _ test_push_back_WF

theorem test_copy_get (i : Nat) (c : Component) (hc : physics_t[i]? = some c) :
    test_copy.2.get physics_t test_copy.1 i (1 : Nat) =
        some ((([1, 2, 3, 42] : List Val)[i]?.map c.convert).getD c.dflt) ∧
      test_push_back.2.get physics_t test_copy.1 i (1 : Nat) =
        some ((([1, 2, 3, 42] : List Val)[i]?.map c.convert).getD c.dflt) :=
  copy_ctor_get physics_t test_push_back.1 test_push_back.2 test_push_back_WF i 1 _
    (by decide) (test_push_back_get i c hc)

theorem av_pp_map_pos_getElem? (n : Nat) (T : List Component) (k Pos : Nat)
    (h : (av_pp_map_pos n T)[k]? = some Pos) : Pos = n + k := by
  induction T generalizing n k with
  | nil => simp [av_pp_map_pos] at h
  | cons c T ih =>
    cases k with
    | zero =>
      simp only [av_pp_map_pos, List.getElem?_cons_zero, Option.some.injEq] at h
      omega
    | succ k =>
      simp only [av_pp_map_pos, List.getElem?_cons_succ] at h
      have := ih (n + 1) k h
      omega

/-! ## The allocator trace of `reserve` -/

theorem reserve_trace (T : List Component) (h : Heap) (v : vector) (c : Int) :
    (vector.reserve T h v c).1.trace =
      if c ≤ v.capacity_ then h.trace
      else h.trace ++ [AllocEvent.allocate h.next (total_bytes T c)] := by
  unfold vector.reserve vector.capacity
  split <;> rfl

theorem physics_t_shifts_8 : shifts physics_t 8 = [0, 8, 72, 104, 136] := by
  simp [shifts, physics_t, type_bool, type_double, type_float, type_int, update_shift,
    land_not_eq, to_int, to_size_t]
  decide

/-! ## Properties of the specification -/

/-- C3: after `reserve(c)` the capacity is `max(old capacity, c)`, so it never decreases
and is at least `c`; when `c ≤ old capacity` the call changes nothing (heap, capacity,
byte size and spans are the same). -/
theorem reserve_capacity_max (T : List Component) (h : Heap) (v : vector) (c : Int) :
    (vector.reserve T h v c).2.capacity = max v.capacity c ∧
    v.capacity ≤ (vector.reserve T h v c).2.capacity ∧
    c ≤ (vector.reserve T h v c).2.capacity ∧
    (c ≤ v.capacity → vector.reserve T h v c = (h, v)) := by
  have h1 : (vector.reserve T h v c).2.capacity = max v.capacity c := reserve_capacity_eq T h v c
  refine ⟨h1, ?_, ?_, ?_⟩
  · rw [h1]; exact le_max_left _ _
  · rw [h1]; exact le_max_right _ _
  · intro hc
    unfold vector.reserve
    simp [hc]

theorem reserve_capacity_max_witness :
    (3 : Int) ≤ test_reserve.2.capacity ∧
      vector.reserve physics_t test_reserve.1 test_reserve.2 3 = (test_reserve.1, test_reserve.2) :=
  ⟨by decide, (reserve_capacity_max physics_t test_reserve.1 test_reserve.2 3).2.2.2 (by decide)⟩

/-- C4: for `{ char; short; int }` (sizes and alignments 1, 2, 4, each size a multiple of
its power-of-two alignment) and capacity 1 the layout calculation puts the `int` member
at offset 6, which is not a multiple of its alignment 4; these are the span offsets of
the container after the first `emplace_back` on a default-constructed one. -/
theorem offsets_char_short_int_misaligned :
    char_short_int.map (fun c => (c.size, c.align)) = [(1, 1), (2, 2), (4, 4)] ∧
      offsets char_short_int 1 = [0, 2, 6] ∧ (6 : Int) % 4 = 2 ∧
      ¬ segments_aligned char_short_int 0 (offsets char_short_int 1) ∧
      (vector.emplace_back char_short_int Heap.empty (vector.init char_short_int)
        [1, 2, 3]).2.members.map (fun s => s.ptr_.off) = [0, 2, 6] := by
  have h : offsets char_short_int 1 = [0, 2, 6] := by
    rw [offsets, char_short_int_shifts]; rfl
  refine ⟨by decide, h, by decide, ?_, ?_⟩
  · rw [h]
    simp [segments_aligned, char_short_int]
    decide
  · have h1 : (vector.emplace_back char_short_int Heap.empty (vector.init char_short_int)
        [1, 2, 3]).2.members = (vector.allocate char_short_int Heap.empty 1).2.new_members := rfl
    rw [h1, (allocate_layout char_short_int Heap.empty 1).1, h]
    rfl

/-- C6: for `{ char; short; int }` and capacity 1 the specified running-cursor algorithm
gives the offsets 0, 2, 4 and 8 bytes, whereas the layout calculation of the code gives
the offsets 0, 2, 6 and 10 bytes. -/
theorem compute_layout_differs :
    compute_layout char_short_int 1 = ([0, 2, 4], 8) ∧
      (offsets char_short_int 1, total_bytes char_short_int 1) = ([0, 2, 6], 10) := by
  refine ⟨by decide, ?_⟩
  rw [offsets, total_bytes, char_short_int_shifts]; rfl

/-- C7: for `physics_t` (sizes and alignments (1,1), (8,8), (4,4), (4,4)) and each of the
capacities 0, 1, 4 and 17, every offset is a multiple of the alignment of its member,
and so is every segment start in a buffer whose start `8 * q` is aligned to 8; for
capacity 0 all offsets and the total byte size are 0. -/
theorem physics_t_segments_aligned (q : Int) :
    physics_t.map (fun c => (c.size, c.align)) = [(1, 1), (8, 8), (4, 4), (4, 4)] ∧
    (segments_aligned physics_t 0 (offsets physics_t 0) ∧
      segments_aligned physics_t 0 (offsets physics_t 1) ∧
      segments_aligned physics_t 0 (offsets physics_t 4) ∧
      segments_aligned physics_t 0 (offsets physics_t 17)) ∧
    (segments_aligned physics_t (8 * q) (offsets physics_t 0) ∧
      segments_aligned physics_t (8 * q) (offsets physics_t 1) ∧
      segments_aligned physics_t (8 * q) (offsets physics_t 4) ∧
      segments_aligned physics_t (8 * q) (offsets physics_t 17)) ∧
    offsets physics_t 0 = [0, 0, 0, 0] ∧ total_bytes physics_t 0 = 0 := by
  obtain ⟨h0, h1, h4, h17⟩ := physics_t_shifts
  have e0 : offsets physics_t 0 = [0, 0, 0, 0] := by rw [offsets, h0]; rfl
  have e1 : offsets physics_t 1 = [0, 8, 16, 20] := by rw [offsets, h1]; rfl
  have e4 : offsets physics_t 4 = [0, 8, 40, 56] := by rw [offsets, h4]; rfl
  have e17 : offsets physics_t 17 = [0, 24, 160, 228] := by rw [offsets, h17]; rfl
  have t0 : total_bytes physics_t 0 = 0 := by rw [total_bytes, h0]; rfl
  rw [e0, e1, e4, e17]
  refine ⟨by decide, ?_, ?_, rfl, t0⟩
  · simp only [segments_aligned, physics_t, type_bool, type_double, type_float, type_int,
      List.forall₂_cons, List.Forall₂.nil]
    norm_num
  · simp only [segments_aligned, physics_t, type_bool, type_double, type_float, type_int,
      List.forall₂_cons, List.Forall₂.nil]
    refine ⟨⟨?_, ?_, ?_, ?_, trivial⟩, ⟨?_, ?_, ?_, ?_, trivial⟩, ⟨?_, ?_, ?_, ?_, trivial⟩, ⟨?_, ?_, ?_, ?_, trivial⟩⟩ <;> 
      (push_cast; omega)

/-- C11: for `n ≤ size()`, `resize(n)` and `resize(n, fill)` change nothing: the heap and
the container (size, capacity, spans) are the same after the call. -/
theorem resize_no_shrink (T : List Component) (h : Heap) (v : vector) (n : Int)
    (fill : List Val) (hn : n ≤ v.size) :
    vector.resize T h v n = (h, v) ∧ vector.resize_value T h v n fill = (h, v) := by
  unfold vector.resize vector.resize_value
  rw [if_pos hn, if_pos hn]
  exact ⟨rfl, rfl⟩

theorem resize_no_shrink_witness :
    (1 : Int) ≤ test_push_back.2.size ∧
      vector.resize physics_t test_push_back.1 test_push_back.2 1 =
        (test_push_back.1, test_push_back.2) ∧
      vector.resize_value physics_t test_push_back.1 test_push_back.2 1 [5, 6, 7, 8] =
        (test_push_back.1, test_push_back.2) :=
  ⟨by decide, resize_no_shrink physics_t test_push_back.1 test_push_back.2 1 [5, 6, 7, 8]
    (by decide)⟩

/-- C12: `pop_back` throws `std::logic_error` exactly when `size() == 0`, it throws
nothing else, and when it throws the heap and the container are unchanged. -/
theorem pop_back_throws_iff_empty (T : List Component) (h : Heap) (v : vector) :
    ((vector.pop_back T h v).2 = some Exception.logic_error ↔ v.size = 0) ∧
    ((vector.pop_back T h v).2 = none ↔ v.size ≠ 0) ∧
    ((vector.pop_back T h v).2 = some Exception.logic_error →
      (vector.pop_back T h v).1 = (h, v)) := by
  unfold vector.size
  by_cases he : v.size_ = 0
  · rw [pop_back_of_empty T h v he]
    simp [he]
  · unfold vector.pop_back
    rw [if_neg (fun hc => he ((empty_eq_true_iff v).mp hc))]
    simp [he]

theorem pop_back_throws_iff_empty_witness :
    (vector.pop_back physics_t Heap.empty (vector.init physics_t)).2 =
        some Exception.logic_error ∧
      (vector.pop_back physics_t Heap.empty (vector.init physics_t)).1 =
        (Heap.empty, vector.init physics_t) ∧
      (vector.pop_back physics_t test_push_back.1 test_push_back.2).2 = none :=
  ⟨(pop_back_throws_iff_empty physics_t Heap.empty (vector.init physics_t)).1.mpr rfl,
    (pop_back_throws_iff_empty physics_t Heap.empty (vector.init physics_t)).2.2
      ((pop_back_throws_iff_empty physics_t Heap.empty (vector.init physics_t)).1.mpr rfl),
    (pop_back_throws_iff_empty physics_t test_push_back.1 test_push_back.2).2.1.mpr
      (by decide)⟩

/-- C14: after `clear()` the size is 0 and `empty()` is true, while the capacity, the byte
size of the buffer and the spans are the same as before. -/
theorem clear_keeps_buffer (T : List Component) (h : Heap) (v : vector) :
    (vector.clear T h v).2.size = 0 ∧ (vector.clear T h v).2.empty = true ∧
      (vector.clear T h v).2.capacity = v.capacity ∧
      (vector.clear T h v).2.nb_bytes_ = v.nb_bytes_ ∧
      (vector.clear T h v).2.members = v.members ∧
      (vector.clear T h v).1.next = h.next ∧ (vector.clear T h v).1.trace = h.trace :=
  ⟨rfl, rfl, rfl, rfl, rfl, rfl, rfl⟩

/-- C15: after move construction the source has size 0, capacity 0 and null spans, and
the new container has the size, the capacity and, for every member and index, the
elements the source had.  The same holds after move assignment to a distinct container,
one that does not share its buffer with the source, for every index below the size. -/
theorem move_transfers (T : List Component) (h : Heap) (this rhs : vector) :
    ((vector.move_ctor rhs).2.size = 0 ∧ (vector.move_ctor rhs).2.capacity = 0 ∧
      (vector.move_ctor rhs).2.members.length = rhs.members.length ∧
      (∀ p ∈ (vector.move_ctor rhs).2.members, p.data = Ptr.null) ∧
      (vector.move_ctor rhs).1.size = rhs.size ∧
      (vector.move_ctor rhs).1.capacity = rhs.capacity ∧
      ∀ (i : Nat) (j : Int), (vector.move_ctor rhs).1.get T h i j = rhs.get T h i j) ∧
    (Independent T h this rhs →
      (vector.move_assign T h this rhs).2.2.size = 0 ∧
      (vector.move_assign T h this rhs).2.2.capacity = 0 ∧
      (vector.move_assign T h this rhs).2.2.members.length = rhs.members.length ∧
      (∀ p ∈ (vector.move_assign T h this rhs).2.2.members, p.data = Ptr.null) ∧
      (vector.move_assign T h this rhs).2.1.size = rhs.size ∧
      (vector.move_assign T h this rhs).2.1.capacity = rhs.capacity ∧
      ∀ (i j : Nat) (val : Val), (j : Int) < rhs.size → rhs.get T h i j = some val →
        (vector.move_assign T h this rhs).2.1.get T (vector.move_assign T h this rhs).1 i j =
          some val) := by
  obtain ⟨z1, z2, _, z4, z5⟩ := to_zero_fields rhs
  refine ⟨⟨z1, z2, z4, z5, rfl, rfl, fun i j => rfl⟩, fun hi => ?_⟩
  exact ⟨z1, z2, z4, z5, rfl, rfl,
    fun i j val hj hget => move_assign_get T h this rhs hi i j val hj hget⟩

theorem move_transfers_witness :
    Independent physics_t test_copy.1 test_copy.2 test_push_back.2 ∧
      (vector.move_assign physics_t test_copy.1 test_copy.2 test_push_back.2).2.2.capacity =
        0 ∧
      (vector.move_assign physics_t test_copy.1 test_copy.2 test_push_back.2).2.1.get
        physics_t (vector.move_assign physics_t test_copy.1 test_copy.2 test_push_back.2).1
          3 (1 : Nat) = some 42 :=
  ⟨independent_symm physics_t _ _ _ test_copy_independent,
    ((move_transfers physics_t test_copy.1 test_copy.2 test_push_back.2).2
      (independent_symm physics_t _ _ _ test_copy_independent)).2.1,
    ((move_transfers physics_t test_copy.1 test_copy.2 test_push_back.2).2
      (independent_symm physics_t _ _ _ test_copy_independent)).2.2.2.2.2.2 3 1 42
      (by decide) (test_copy_get 3 type_int rfl).2⟩

/-- C16: the copy-constructed container has the size of the source and holds, for every
member and every index below the size, the value the source holds there; the source is
not modified and still reads the same values. -/
theorem copy_ctor_copies (T : List Component) (h : Heap) (rhs : vector) (hwf : rhs.WF T h) :
    (vector.copy_ctor T h rhs).2.size = rhs.size ∧
    ∀ (i j : Nat) (val : Val), (j : Int) < rhs.size → rhs.get T h i j = some val →
      (vector.copy_ctor T h rhs).2.get T (vector.copy_ctor T h rhs).1 i j = some val ∧
        rhs.get T (vector.copy_ctor T h rhs).1 i j = some val := by
  refine ⟨?_, fun i j val hj hget => copy_ctor_get T h rhs hwf i j val hj hget⟩
  unfold vector.size
  by_cases he : rhs.size_ = 0
  · rw [copy_ctor_of_empty T h rhs he]
  · rw [copy_ctor_of_ne T h rhs he]

theorem copy_ctor_copies_witness :
    test_push_back.2.WF physics_t test_push_back.1 ∧
      test_copy.2.size = test_push_back.2.size ∧
      test_copy.2.get physics_t test_copy.1 3 (1 : Nat) = some 42 ∧
      test_push_back.2.get physics_t test_copy.1 3 (1 : Nat) = some 42 :=
  ⟨test_push_back_WF,
    (copy_ctor_copies physics_t test_push_back.1 test_push_back.2 test_push_back_WF).1,
    (copy_ctor_copies physics_t test_push_back.1 test_push_back.2 test_push_back_WF).2 3 1 42
      (by decide) (test_push_back_get 3 type_int rfl)⟩

/-- C18: checked access `at(i)` throws `std::out_of_range` when `i ≥ size()`, and
otherwise returns a reference to the same element as `operator[](i)`. -/
theorem at_checks_upper_bound (s : vector_span) (owner : vector) (sz : Nat) (i : Int) :
    (s.size owner ≤ i → s.at_ owner sz i = Except.error Exception.out_of_range) ∧
    (i < s.size owner → s.at_ owner sz i = Except.ok (s.subscript sz i)) := by
  unfold vector_span.at_ vector_span.at_check vector_span.subscript
  constructor
  · intro hi
    rw [if_pos hi]
  · intro hi
    rw [if_neg (by omega)]

theorem at_checks_upper_bound_witness :
    (⟨⟨1, 8⟩⟩ : vector_span).at_ test_push_back.2 8 2 =
        Except.error Exception.out_of_range ∧
      (⟨⟨1, 8⟩⟩ : vector_span).at_ test_push_back.2 8 1 =
        Except.ok ((⟨⟨1, 8⟩⟩ : vector_span).subscript 8 1) :=
  ⟨(at_checks_upper_bound ⟨⟨1, 8⟩⟩ test_push_back.2 8 2).1 (by decide),
    (at_checks_upper_bound ⟨⟨1, 8⟩⟩ test_push_back.2 8 1).2 (by decide)⟩

/-- C20: the copy of a container that is empty but has a buffer (`reserve(4)` on a
default-constructed container, then copy construction) has capacity 0 and size 0, yet
its first span still points into the buffer of the source, block 1, and its byte count
is the 72 bytes of the source: the pointer is not null although the capacity is 0. -/
theorem copy_of_reserved_keeps_pointer :
    test_copy_empty.2.capacity = 0 ∧ test_copy_empty.2.size = 0 ∧
      test_reserve.2.capacity = 4 ∧
      test_copy_empty.2.members.head?.map vector_span.data = some ⟨1, 0⟩ ∧
      test_reserve.2.members.head?.map vector_span.data = some ⟨1, 0⟩ ∧
      (⟨1, 0⟩ : Ptr) ≠ Ptr.null := by
  refine ⟨rfl, rfl, rfl, ?_, ?_, by decide⟩
  · rfl
  · rfl

/-- C21: `shrink_to_fit()` returns at once when `size() == capacity()`, and otherwise does
nothing but call `reallocate(size())`, a function the header does not declare.  On the
container of `tests.cpp` after `reserve(4)` and `resize(1)` (size 1, capacity 4) the result
is whatever that function returns; with `reserve`, the only function of the header that
sets the capacity, in its place, the capacity stays 4 and does not become the size 1. -/
theorem shrink_to_fit_calls_undeclared :
    (∀ reallocate : Heap → vector → Int → Heap × vector,
      vector.shrink_to_fit reallocate test_resize_value.1 test_resize_value.2 =
        (test_resize_value.1, test_resize_value.2)) ∧
    (∀ reallocate : Heap → vector → Int → Heap × vector,
      vector.shrink_to_fit reallocate test_resize.1 test_resize.2 =
        reallocate test_resize.1 test_resize.2 1) ∧
    test_resize.2.size = 1 ∧
    (vector.shrink_to_fit (vector.reserve physics_t) test_resize.1 test_resize.2).2.capacity =
      4 := by
  have hs : test_resize.2.size = 1 := by decide
  refine ⟨fun r => ?_, fun r => ?_, hs, ?_⟩
  · unfold vector.shrink_to_fit
    rw [if_pos (by decide)]
  · unfold vector.shrink_to_fit
    rw [if_neg (by decide), hs]
  · unfold vector.shrink_to_fit
    rw [if_neg (by decide), hs]
    show (vector.reserve physics_t test_resize.1 test_resize.2 1).2.capacity_ = 4
    rw [reserve_capacity_eq]
    decide

/-- C22: `reserve(8)` on the container of `tests.cpp` after `reserve(4)`, which owns the
buffer of block 1, calls the allocator once, for the new buffer of block 2, and never
gives block 1 back: the trace holds two allocations and no deallocation, and both blocks
are live afterwards. -/
theorem reserve_keeps_old_buffer_allocated :
    test_reserve.2.capacity = 4 ∧
    (vector.reserve physics_t test_reserve.1 test_reserve.2 8).2.capacity = 8 ∧
    (vector.reserve physics_t test_reserve.1 test_reserve.2 8).1.trace =
      [AllocEvent.allocate 1 72, AllocEvent.allocate 2 136] ∧
    live_after (vector.reserve physics_t test_reserve.1 test_reserve.2 8).1.trace = [1, 2] := by
  have h1 : test_reserve.1.trace = [AllocEvent.allocate 1 72] := by
    unfold test_reserve
    rw [reserve_trace, if_neg (by decide)]
    simp only [total_bytes, physics_t_shifts.2.2.1]
    rfl
  have h2 : (vector.reserve physics_t test_reserve.1 test_reserve.2 8).1.trace =
      [AllocEvent.allocate 1 72, AllocEvent.allocate 2 136] := by
    rw [reserve_trace, if_neg (by decide), h1]
    simp only [total_bytes, physics_t_shifts_8]
    rfl
  refine ⟨rfl, ?_, h2, ?_⟩
  · show (vector.reserve physics_t test_reserve.1 test_reserve.2 8).2.capacity_ = 8
    rw [reserve_capacity_eq]
    decide
  · rw [h2]
    rfl

/-- C25, counterexample: the aggregate with one member of alignment 32, more than the 8
bytes the layout computation assumes for the start of the buffer, passes `check_members`. -/
theorem check_members_accepts_over_aligned :
    check_members over_aligned_t = true ∧ ∃ c ∈ over_aligned_t, 8 < c.align := by
  decide

/-- C25, amended: `check_members` accepts a list of members exactly when it is not empty
and has at most `max_arity`, that is 10, members; the alignment of a member plays no part,
so the check gives the same answer whatever the alignments are. -/
theorem check_members_iff (T : List Component) :
    (check_members T = true ↔ T ≠ [] ∧ T.length ≤ 10) ∧
    ∀ T1 : List Component, T1.length = T.length → check_members T1 = check_members T := by
  constructor
  · cases T with
    | nil => simp [check_members]
    | cons c T => simp [check_members, max_arity]
  · intro T1 hlen
    cases T with
    | nil =>
      cases T1 with
      | nil => rfl
      | cons c1 T1 => simp at hlen
    | cons c T =>
      cases T1 with
      | nil => simp at hlen
      | cons c1 T1 => simp [check_members, hlen]

theorem check_members_iff_witness :
    check_members physics_t = true ∧ check_members over_aligned_t = check_members char_t :=
  ⟨(check_members_iff physics_t).1.mpr ⟨List.cons_ne_nil _ _, by decide⟩,
    (check_members_iff char_t).2 over_aligned_t rfl⟩

/-- C27: `at(i)` throws `std::out_of_range` exactly when `i ≥ size()`; the check has no
lower bound, so for a negative index on a container with `size() ≥ 0` it throws nothing
and returns a reference to `ptr_[i]`, an address before the start of the span. -/
theorem at_accepts_negative_index (s : vector_span) (owner : vector) (sz : Nat) (i : Int) :
    (s.at_ owner sz i = Except.error Exception.out_of_range ↔ s.size owner ≤ i) ∧
    (0 ≤ s.size owner → i < 0 →
      s.at_ owner sz i = Except.ok (s.subscript sz i) ∧
        (0 < sz → (s.subscript sz i).off < s.begin.off)) := by
  unfold vector_span.at_ vector_span.at_check vector_span.subscript vector_span.begin
  constructor
  · by_cases hi : i ≥ s.size owner
    · rw [if_pos hi]
      exact ⟨fun _ => hi, fun _ => rfl⟩
    · rw [if_neg hi]
      exact ⟨fun hc => absurd hc (by simp), fun hc => absurd hc hi⟩
  · intro h0 hi
    rw [if_neg (by omega)]
    refine ⟨rfl, fun hsz => ?_⟩
    simp only [Ptr.add]
    have : i * (sz : Int) < 0 := Int.mul_neg_of_neg_of_pos hi (by exact_mod_cast hsz)
    omega

theorem at_accepts_negative_index_witness :
    (0 : Int) ≤ (⟨⟨1, 8⟩⟩ : vector_span).size test_push_back.2 ∧
      (⟨⟨1, 8⟩⟩ : vector_span).at_ test_push_back.2 8 (-1) =
        Except.ok ((⟨⟨1, 8⟩⟩ : vector_span).subscript 8 (-1)) ∧
      ((⟨⟨1, 8⟩⟩ : vector_span).subscript 8 (-1)).off < (⟨⟨1, 8⟩⟩ : vector_span).begin.off :=
  ⟨by decide,
    ((at_accepts_negative_index ⟨⟨1, 8⟩⟩ test_push_back.2 8 (-1)).2 (by decide) (by decide)).1,
    ((at_accepts_negative_index ⟨⟨1, 8⟩⟩ test_push_back.2 8 (-1)).2 (by decide) (by decide)).2
      (by decide)⟩

/-! ## Layouts whose computation leaves the range of `int` -/

theorem double_char_char_shifts :
    shifts double_char_char 1 = [0, 8, 9, 10] ∧
      shifts double_char_char 536870912 = [0, 0, 536870912, 1073741824] := by
  simp [shifts, double_char_char, type_double, type_char, update_shift, land_not_eq, to_int,
    to_size_t]
  decide

theorem physics_t_shifts_wrapped :
    shifts physics_t 268435456 = [0, 268435456, -1879048192, -805306368, 268435456] := by
  simp [shifts, physics_t, type_bool, type_double, type_float, type_int, update_shift,
    land_not_eq, to_int, to_size_t]
  decide

theorem init_new_capacity (T : List Component) : (vector.init T).new_capacity = 1 := rfl

theorem test_wrapped_eq :
    test_wrapped =
      (⟨Heap.empty.mem, 2, [AllocEvent.allocate 1 1073741824]⟩,
        ⟨[⟨⟨1, 0⟩⟩, ⟨⟨1, 0⟩⟩, ⟨⟨1, 536870912⟩⟩], 0, 536870912, 1073741824⟩) := by
  simp only [test_wrapped, vector.reserve, vector.allocate, double_char_char_shifts.2]
  rfl

theorem test_push_back_growth_fits : test_push_back.2.growth_fits physics_t :=
  fun h => absurd h (by decide)

/-! ## Claims on `emplace_back`, `reserve`, the layout, `resize` and `pop_back` -/

/-- C1, counterexample: `reserve(1 << 29)` on a default-constructed container of
`{ double d; char c; char e; }` computes the offset `2^29 * 8 = 2^32` for `c`, which is 0
as an `int`: the segments of `d` and `c` both start at offset 0.  `emplace_back(1.0, 'x',
'y')` then constructs `c` of the new element over the first byte of its `d`, and member 0
of the new element does not read as the argument `1.0` afterwards. -/
theorem emplace_back_overlapping_members :
    test_wrapped.2.members.map (fun s => s.ptr_.off) = [0, 0, 536870912] ∧
    test_wrapped.2.size = 0 ∧
    (vector.emplace_back double_char_char test_wrapped.1 test_wrapped.2 [1, 120, 121]).2.get
      double_char_char
      (vector.emplace_back double_char_char test_wrapped.1 test_wrapped.2 [1, 120, 121]).1
      0 0 = none := by
  rw [test_wrapped_eq]
  decide

/-- C1, amended: on a container whose layout was computed without truncation, and whose
growth step (if the container is full) doubles the capacity without overflow to a layout
computed without truncation, `emplace_back(a_0, ..., a_{k-1})` makes `size()` one larger;
at the old size, member `i` holds the object `type(a_i)` constructed from `a_i` for
`i < k` (which is `a_i` when `a_i` is a value of the type of the member) and its
value-initialised value for `i ≥ k`; every element below the old size reads as before.
`push_back(value)` is the case in which the arguments are the members of `value`. -/
theorem emplace_back_appends_element (T : List Component) (h : Heap) (v : vector)
    (a : List Val) (hwf : v.WF T h) (hg : v.growth_fits T) :
    (vector.emplace_back T h v a).2.size = v.size + 1 ∧
    (∀ (i : Nat) (c : Component) (x : Val), T[i]? = some c → a[i]? = some x →
      (vector.emplace_back T h v a).2.get T (vector.emplace_back T h v a).1 i v.size =
          some (c.convert x) ∧
        (c.convert x = x →
          (vector.emplace_back T h v a).2.get T (vector.emplace_back T h v a).1 i v.size =
            some x)) ∧
    (∀ (i : Nat) (c : Component), T[i]? = some c → a.length ≤ i →
      (vector.emplace_back T h v a).2.get T (vector.emplace_back T h v a).1 i v.size =
        some c.dflt) ∧
    (∀ (i j : Nat) (val : Val), (j : Int) < v.size → v.get T h i j = some val →
      (vector.emplace_back T h v a).2.get T (vector.emplace_back T h v a).1 i j = some val) ∧
    ∀ value : List Val, value.length = T.length →
      (vector.push_back T h v value).2.size = v.size + 1 ∧
      (∀ (i : Nat) (c : Component) (x : Val), T[i]? = some c → value[i]? = some x →
        (vector.push_back T h v value).2.get T (vector.push_back T h v value).1 i v.size =
          some (c.convert x)) ∧
      ∀ (i j : Nat) (val : Val), (j : Int) < v.size → v.get T h i j = some val →
        (vector.push_back T h v value).2.get T (vector.push_back T h v value).1 i j =
          some val := by
  unfold vector.push_back vector.size
  have key : ∀ (b : List Val) (i : Nat) (c : Component) (x : Val), T[i]? = some c →
      b[i]? = some x →
      (vector.emplace_back T h v b).2.get T (vector.emplace_back T h v b).1 i v.size_ =
        some (c.convert x) := by
    intro b i c x hc hx
    rw [(emplace_back_get T h v b hwf hg).1 i c hc, hx]
    rfl
  refine ⟨emplace_back_size_of_fits T h v a hwf hg, ?_, ?_,
    (emplace_back_get T h v a hwf hg).2, ?_⟩
  · intro i c x hc hx
    refine ⟨key a i c x hc hx, fun hconv => ?_⟩
    rw [key a i c x hc hx, hconv]
  · intro i c hc hi
    rw [(emplace_back_get T h v a hwf hg).1 i c hc, List.getElem?_eq_none hi]
    rfl
  · intro value _
    exact ⟨emplace_back_size_of_fits T h v value hwf hg, key value,
      (emplace_back_get T h v value hwf hg).2⟩

theorem emplace_back_appends_element_witness :
    test_resize.2.WF physics_t test_resize.1 ∧ test_resize.2.growth_fits physics_t ∧
      (vector.emplace_back physics_t test_resize.1 test_resize.2 [7, 8]).2.size =
        test_resize.2.size + 1 ∧
      (vector.emplace_back physics_t test_resize.1 test_resize.2 [7, 8]).2.get physics_t
        (vector.emplace_back physics_t test_resize.1 test_resize.2 [7, 8]).1 0
          test_resize.2.size = some 1 ∧
      (vector.emplace_back physics_t test_resize.1 test_resize.2 [7, 8]).2.get physics_t
        (vector.emplace_back physics_t test_resize.1 test_resize.2 [7, 8]).1 1
          test_resize.2.size = some 8 ∧
      (vector.emplace_back physics_t test_resize.1 test_resize.2 [7, 8]).2.get physics_t
        (vector.emplace_back physics_t test_resize.1 test_resize.2 [7, 8]).1 3
          test_resize.2.size = some 0 ∧
      (vector.emplace_back physics_t test_resize.1 test_resize.2 [7, 8]).2.get physics_t
        (vector.emplace_back physics_t test_resize.1 test_resize.2 [7, 8]).1 2 (0 : Nat) =
          some 0 ∧
      (vector.push_back physics_t test_resize.1 test_resize.2 [1, 2, 3, 42]).2.get physics_t
        (vector.push_back physics_t test_resize.1 test_resize.2 [1, 2, 3, 42]).1 3
          test_resize.2.size = some 42 :=
  ⟨test_resize_WF, test_resize_growth_fits,
    (emplace_back_appends_element physics_t _ _ [7, 8] test_resize_WF
      test_resize_growth_fits).1,
    ((emplace_back_appends_element physics_t _ _ [7, 8] test_resize_WF
      test_resize_growth_fits).2.1 0 type_bool 7 rfl rfl).1,
    ((emplace_back_appends_element physics_t _ _ [7, 8] test_resize_WF
      test_resize_growth_fits).2.1 1 type_double 8 rfl rfl).2 rfl,
    (emplace_back_appends_element physics_t _ _ [7, 8] test_resize_WF
      test_resize_growth_fits).2.2.1 3 type_int rfl (by decide),
    (emplace_back_appends_element physics_t _ _ [7, 8] test_resize_WF
      test_resize_growth_fits).2.2.2.1 2 0 0 (by decide) (test_resize_get 2 type_float rfl),
    ((emplace_back_appends_element physics_t _ _ [7, 8] test_resize_WF
      test_resize_growth_fits).2.2.2.2 [1, 2, 3, 42] rfl).2.1 3 type_int 42 rfl rfl⟩

/-- C2, counterexample: a container of `{ double d; char c; char e; }` holds the one
element `(1.0, 'x', 'y')`.  `reserve(1 << 29)` computes offset 0 for `d` and for `c`
(`2^29 * 8 = 2^32` is 0 as an `int`), moves `d` of the element to offset 0 of the new
buffer and then `c` over its first byte: member 0 of element 0 read `1.0` before the call
and does not after it. -/
theorem reserve_overlapping_members :
    test_dcc.2.size = 1 ∧
    test_dcc.2.get double_char_char test_dcc.1 0 0 = some 1 ∧
    (vector.reserve double_char_char test_dcc.1 test_dcc.2 536870912).2.get double_char_char
      (vector.reserve double_char_char test_dcc.1 test_dcc.2 536870912).1 0 0 = none := by
  simp only [test_dcc, vector.emplace_back, init_new_capacity, vector.reserve, vector.allocate,
    double_char_char_shifts.1, double_char_char_shifts.2]
  decide

/-- C2, amended: on a container whose layout was computed without truncation, a call
`reserve(c)` whose layout for `c` elements is computed without truncation too (when it
allocates) leaves `size()` unchanged, and every element below `size()` of every member
reads the same value after the call as before it. -/
theorem reserve_preserves_elements (T : List Component) (h : Heap) (v : vector) (c : Int)
    (hwf : v.WF T h) (hfit : v.capacity < c → layout_bound T c < 2147483648) :
    (vector.reserve T h v c).2.size = v.size ∧
    ∀ (i j : Nat) (val : Val), (j : Int) < v.size → v.get T h i j = some val →
      (vector.reserve T h v c).2.get T (vector.reserve T h v c).1 i j = some val :=
  ⟨reserve_size_eq T h v c,
    fun i j val hj hget => reserve_get T h v c hwf hfit i j val hj hget⟩

theorem reserve_preserves_elements_witness :
    test_push_back.2.WF physics_t test_push_back.1 ∧
      (test_push_back.2.capacity < 17 → layout_bound physics_t 17 < 2147483648) ∧
      (vector.reserve physics_t test_push_back.1 test_push_back.2 17).2.size =
        test_push_back.2.size ∧
      (vector.reserve physics_t test_push_back.1 test_push_back.2 17).2.get physics_t
        (vector.reserve physics_t test_push_back.1 test_push_back.2 17).1 3 (1 : Nat) =
          some 42 :=
  ⟨test_push_back_WF, fun _ => by decide,
    (reserve_preserves_elements physics_t _ _ 17 test_push_back_WF (fun _ => by decide)).1,
    (reserve_preserves_elements physics_t _ _ 17 test_push_back_WF (fun _ => by decide)).2
      3 1 42 (by decide) (test_push_back_get 3 type_int rfl)⟩

/-- C5, counterexample: for `physics_t` (`bool`, `double`, `float`, `int`) and the capacity
`n = 2^28` the segment of the `double` member starts at offset `2^28` and is `2^31` bytes
long, yet the next offset is negative: `2^28 + 2^31` does not fit the `int` the offsets
are accumulated in.  The segments are not in declaration order: the `double` segment
does not end at or before the offset of the `float` member, and the buffer of `2^28`
bytes is shorter than that one segment. -/
theorem layout_wraps_at_large_capacity :
    offsets physics_t 268435456 = [0, 268435456, -1879048192, -805306368] ∧
    total_bytes physics_t 268435456 = 268435456 ∧
    ¬ ((268435456 : Int) + 268435456 * ((type_double.size : Nat) : Int) ≤ -1879048192) ∧
    total_bytes physics_t 268435456 < 268435456 * ((type_double.size : Nat) : Int) := by
  unfold offsets total_bytes
  rw [physics_t_shifts_wrapped]
  decide

/-- C5, amended: when the layout for `n` elements is computed without truncation
(`layout_bound` is below `2^31`), the segments are in declaration order and do not
overlap: there is one offset per member, the first offset is 0, each segment of `n`
elements ends at or before the next offset, and the total byte size is the end of the
last segment. -/
theorem layout_segments_ordered (c : Component) (cs : List Component) (n : Nat)
    (hfit : layout_bound (c :: cs) n < 2147483648) :
    (offsets (c :: cs) n).length = (c :: cs).length ∧
    (offsets (c :: cs) n)[0]? = some 0 ∧
    (∀ i a o o1, (c :: cs)[i]? = some a → (offsets (c :: cs) n)[i]? = some o →
      (offsets (c :: cs) n)[i + 1]? = some o1 → o + (n : Int) * (a.size : Int) ≤ o1) ∧
    (∀ a o, (c :: cs)[cs.length]? = some a → (offsets (c :: cs) n)[cs.length]? = some o →
      total_bytes (c :: cs) n = o + (n : Int) * (a.size : Int)) := by
  have hb : (0 : Int) + layout_bound_from n c cs < 2147483648 := by
    rw [zero_add]
    exact hfit
  refine ⟨offsets_length _ _, by simp [offsets_cons], ?_, ?_⟩
  · intro i a o o1 ha ho ho1
    exact (update_shift_chain n (by positivity) 0 le_rfl c cs hb i a o o1 ha
      (offsets_getElem? _ _ _ _ _ ho) (offsets_getElem? _ _ _ _ _ ho1)).1
  · intro a o ha ho
    have hlen := update_shift_length n 0 c cs
    have hlt : cs.length < (update_shift (n : Int) 0 c cs).length := by omega
    have ho1 : (0 :: update_shift (n : Int) 0 c cs)[cs.length + 1]? =
        some (total_bytes (c :: cs) n) := by
      simp [total_bytes, shifts, List.getD_eq_getElem?_getD, List.getElem?_eq_getElem hlt]
    exact (update_shift_chain n (by positivity) 0 le_rfl c cs hb cs.length a o _ ha
      (offsets_getElem? _ _ _ _ _ ho) ho1).2 rfl

theorem layout_segments_ordered_witness :
    layout_bound physics_t (4 : Nat) < 2147483648 ∧
      (offsets physics_t (4 : Nat))[1]? = some 8 ∧ (offsets physics_t (4 : Nat))[2]? = some 40 ∧
      (8 : Int) + ((4 : Nat) : Int) * ((8 : Nat) : Int) ≤ 40 ∧
      (offsets physics_t (4 : Nat))[3]? = some 56 ∧
      total_bytes physics_t (4 : Nat) = 56 + ((4 : Nat) : Int) * ((4 : Nat) : Int) := by
  have h : offsets physics_t ((4 : Nat) : Int) = [0, 8, 40, 56] := by
    rw [Nat.cast_ofNat, offsets, physics_t_shifts.2.2.1]; rfl
  have h1 : (offsets physics_t (4 : Nat))[1]? = some 8 := by rw [h]; rfl
  have h2 : (offsets physics_t (4 : Nat))[2]? = some 40 := by rw [h]; rfl
  have h3 : (offsets physics_t (4 : Nat))[3]? = some 56 := by rw [h]; rfl
  exact ⟨by decide, h1, h2,
    (layout_segments_ordered type_bool [type_double, type_float, type_int] 4
      (by decide)).2.2.1 1 type_double 8 40 rfl h1 h2, h3,
    (layout_segments_ordered type_bool [type_double, type_float, type_int] 4
      (by decide)).2.2.2 type_int 56 rfl h3⟩

/-- C10, counterexample: a container of `{ double d; char c; char e; }` is empty after
`reserve(1 << 29)`, with the segments of `d` and `c` both at offset 0 (`2^29 * 8 = 2^32`
is 0 as an `int`).  `resize(2, { 1.0, 'x', 'y' })` constructs the two `d` and then the two
`c` over the first two bytes of the first `d`: the size is 2, and member 0 of element 0
does not hold the member `1.0` of the fill value. -/
theorem resize_overlapping_members :
    test_wrapped.2.size < 2 ∧
    (vector.resize_value double_char_char test_wrapped.1 test_wrapped.2 2 [1, 120, 121]).2.size =
      2 ∧
    (vector.resize_value double_char_char test_wrapped.1 test_wrapped.2 2 [1, 120, 121]).2.get
      double_char_char
      (vector.resize_value double_char_char test_wrapped.1 test_wrapped.2 2 [1, 120, 121]).1
      0 0 = none ∧
    (vector.resize_value double_char_char test_wrapped.1 test_wrapped.2 2 [1, 120, 121]).2.get
      double_char_char
      (vector.resize_value double_char_char test_wrapped.1 test_wrapped.2 2 [1, 120, 121]).1
      1 0 = some 120 := by
  rw [test_wrapped_eq]
  decide

/-- C10, amended: on a container whose layout was computed without truncation, for
`n > size()` such that the layout for `n` elements is computed without truncation (when
`n` exceeds the capacity), after `resize(n)` and after `resize(n, fill)` the size is `n`,
the capacity is `max(old capacity, n)`, every element below the old size of every member
reads as before, and every element from the old size up to `n` holds the
value-initialised value of its member, respectively the matching member of `fill`. -/
theorem resize_grows (T : List Component) (h : Heap) (v : vector) (n : Int)
    (fill : List Val) (hwf : v.WF T h)
    (hfit : v.capacity < n → layout_bound T n < 2147483648) (hn : v.size < n)
    (hfill : fill.length = T.length) :
    ((vector.resize T h v n).2.size = n ∧
      (vector.resize T h v n).2.capacity = max v.capacity n ∧
      (∀ (i j : Nat) (val : Val), (j : Int) < v.size → v.get T h i j = some val →
        (vector.resize T h v n).2.get T (vector.resize T h v n).1 i j = some val) ∧
      ∀ (i : Nat) (c : Component) (j : Int), T[i]? = some c → v.size ≤ j → j < n →
        (vector.resize T h v n).2.get T (vector.resize T h v n).1 i j = some c.dflt) ∧
    ((vector.resize_value T h v n fill).2.size = n ∧
      (vector.resize_value T h v n fill).2.capacity = max v.capacity n ∧
      (∀ (i j : Nat) (val : Val), (j : Int) < v.size → v.get T h i j = some val →
        (vector.resize_value T h v n fill).2.get T (vector.resize_value T h v n fill).1 i j =
          some val) ∧
      ∀ (i : Nat) (x : Val) (j : Int), fill[i]? = some x → v.size ≤ j → j < n →
        (vector.resize_value T h v n fill).2.get T (vector.resize_value T h v n fill).1 i j =
          some x) :=
  ⟨resize_get T h v n hwf hfit hn, resize_value_get T h v n fill hwf hfit hn hfill⟩

theorem resize_grows_witness :
    test_push_back.2.WF physics_t test_push_back.1 ∧
      (test_push_back.2.capacity < 9 → layout_bound physics_t 9 < 2147483648) ∧
      test_push_back.2.size < 9 ∧
      (vector.resize physics_t test_push_back.1 test_push_back.2 9).2.capacity =
        max test_push_back.2.capacity 9 ∧
      (vector.resize physics_t test_push_back.1 test_push_back.2 9).2.get physics_t
        (vector.resize physics_t test_push_back.1 test_push_back.2 9).1 3 (1 : Nat) =
          some 42 ∧
      (vector.resize physics_t test_push_back.1 test_push_back.2 9).2.get physics_t
        (vector.resize physics_t test_push_back.1 test_push_back.2 9).1 1 8 = some 0 ∧
      (vector.resize_value physics_t test_push_back.1 test_push_back.2 9 [5, 6, 7, 8]).2.get
        physics_t
        (vector.resize_value physics_t test_push_back.1 test_push_back.2 9 [5, 6, 7, 8]).1 2 8 =
          some 7 :=
  ⟨test_push_back_WF, fun _ => by decide, by decide,
    (resize_grows physics_t _ _ 9 [5, 6, 7, 8] test_push_back_WF (fun _ => by decide)
      (by decide) rfl).1.2.1,
    (resize_grows physics_t _ _ 9 [5, 6, 7, 8] test_push_back_WF (fun _ => by decide)
      (by decide) rfl).1.2.2.1 3 1 42 (by decide) (test_push_back_get 3 type_int rfl),
    (resize_grows physics_t _ _ 9 [5, 6, 7, 8] test_push_back_WF (fun _ => by decide)
      (by decide) rfl).1.2.2.2 1 type_double 8 rfl (by decide) (by decide),
    (resize_grows physics_t _ _ 9 [5, 6, 7, 8] test_push_back_WF (fun _ => by decide)
      (by decide) rfl).2.2.2.2 2 7 8 rfl (by decide) (by decide)⟩

/-- C13, counterexample: a container of `{ double d; char c; char e; }` after
`reserve(1 << 29)` and `resize(8)` has the segments of `d` and `c` both at offset 0
(`2^29 * 8 = 2^32` is 0 as an `int`).  Member 0 of element 1 reads its value-initialised
value.  `emplace_back(1.0, 'x', 'y')` constructs `c` of element 8 at byte 8, inside `d` of
element 1; after the `pop_back` that follows the size is 8 again, but member 0 of element
1 does not read as before. -/
theorem pop_back_after_emplace_back_loses_element :
    test_wrapped_8.2.size = 8 ∧
    test_wrapped_8.2.get double_char_char test_wrapped_8.1 0 1 = some 0 ∧
    (vector.pop_back double_char_char
      (vector.emplace_back double_char_char test_wrapped_8.1 test_wrapped_8.2 [1, 120, 121]).1
      (vector.emplace_back double_char_char test_wrapped_8.1 test_wrapped_8.2
        [1, 120, 121]).2).1.2.size = 8 ∧
    (vector.pop_back double_char_char
      (vector.emplace_back double_char_char test_wrapped_8.1 test_wrapped_8.2 [1, 120, 121]).1
      (vector.emplace_back double_char_char test_wrapped_8.1 test_wrapped_8.2
        [1, 120, 121]).2).1.2.get double_char_char
      (vector.pop_back double_char_char
        (vector.emplace_back double_char_char test_wrapped_8.1 test_wrapped_8.2
          [1, 120, 121]).1
        (vector.emplace_back double_char_char test_wrapped_8.1 test_wrapped_8.2
          [1, 120, 121]).2).1.1 0 1 = none := by
  unfold test_wrapped_8
  rw [test_wrapped_eq]
  decide

/-- C13, amended: on a container whose layout was computed without truncation and with
`size() > 0`, `pop_back` throws nothing, makes `size()` one smaller, keeps the capacity,
and every element below the new size reads as before.  When moreover the growth step of
`emplace_back` (if the container is full) doubles the capacity without overflow to a
layout computed without truncation, `pop_back` after `emplace_back` or `push_back` gives
back the previous size and the previous elements. -/
theorem pop_back_removes_last (T : List Component) (h : Heap) (v : vector) (a : List Val)
    (hwf : v.WF T h) :
    (0 < v.size →
      (vector.pop_back T h v).2 = none ∧
      (vector.pop_back T h v).1.2.size = v.size - 1 ∧
      (vector.pop_back T h v).1.2.capacity = v.capacity ∧
      ∀ (i j : Nat) (val : Val), (j : Int) < v.size - 1 → v.get T h i j = some val →
        (vector.pop_back T h v).1.2.get T (vector.pop_back T h v).1.1 i j = some val) ∧
    (v.growth_fits T →
      (vector.pop_back T (vector.emplace_back T h v a).1 (vector.emplace_back T h v a).2).2 =
        none ∧
      (vector.pop_back T (vector.emplace_back T h v a).1
        (vector.emplace_back T h v a).2).1.2.size = v.size ∧
      ∀ (i j : Nat) (val : Val), (j : Int) < v.size → v.get T h i j = some val →
        (vector.pop_back T (vector.emplace_back T h v a).1
          (vector.emplace_back T h v a).2).1.2.get T
            (vector.pop_back T (vector.emplace_back T h v a).1
              (vector.emplace_back T h v a).2).1.1 i j = some val) ∧
    (v.growth_fits T →
      (vector.pop_back T (vector.push_back T h v a).1 (vector.push_back T h v a).2).2 = none ∧
      (vector.pop_back T (vector.push_back T h v a).1
        (vector.push_back T h v a).2).1.2.size = v.size ∧
      ∀ (i j : Nat) (val : Val), (j : Int) < v.size → v.get T h i j = some val →
        (vector.pop_back T (vector.push_back T h v a).1
          (vector.push_back T h v a).2).1.2.get T
            (vector.pop_back T (vector.push_back T h v a).1
              (vector.push_back T h v a).2).1.1 i j = some val) := by
  have first : ∀ (h1 : Heap) (w : vector), w.WF T h1 → 0 < w.size_ →
      (vector.pop_back T h1 w).2 = none ∧
      (vector.pop_back T h1 w).1.2.size_ = w.size_ - 1 ∧
      (vector.pop_back T h1 w).1.2.capacity_ = w.capacity_ ∧
      ∀ (i j : Nat) (val : Val), (j : Int) < w.size_ - 1 → w.get T h1 i j = some val →
        (vector.pop_back T h1 w).1.2.get T (vector.pop_back T h1 w).1.1 i j = some val := by
    intro h1 w hw hpos
    have hcap := capacity_lt_of_wf T h1 w hw
    have hle := hw.2.1
    refine ⟨?_, ?_, ?_, fun i j val hj hget => pop_back_get T h1 w hw hpos i j val hj hget⟩
    · rw [pop_back_of_ne T h1 w (by omega) (by omega) (by omega)]
    · rw [pop_back_of_ne T h1 w (by omega) (by omega) (by omega)]
    · rw [pop_back_of_ne T h1 w (by omega) (by omega) (by omega)]
  have second : ∀ b : List Val, v.growth_fits T →
      (vector.pop_back T (vector.emplace_back T h v b).1 (vector.emplace_back T h v b).2).2 =
        none ∧
      (vector.pop_back T (vector.emplace_back T h v b).1
        (vector.emplace_back T h v b).2).1.2.size_ = v.size_ ∧
      ∀ (i j : Nat) (val : Val), (j : Int) < v.size_ → v.get T h i j = some val →
        (vector.pop_back T (vector.emplace_back T h v b).1
          (vector.emplace_back T h v b).2).1.2.get T
            (vector.pop_back T (vector.emplace_back T h v b).1
              (vector.emplace_back T h v b).2).1.1 i j = some val := by
    intro b hg
    have hs := emplace_back_size_of_fits T h v b hwf hg
    have h0 := hwf.1
    obtain ⟨f1, f2, _, f4⟩ := first _ _ (emplace_back_WF T h v b hwf hg) (by omega)
    refine ⟨f1, by rw [f2, hs]; omega, fun i j val hj hget => ?_⟩
    exact f4 i j val (by omega) ((emplace_back_get T h v b hwf hg).2 i j val hj hget)
  exact ⟨fun hpos => first h v hwf hpos, second a, second a⟩

theorem pop_back_removes_last_witness :
    test_push_back.2.WF physics_t test_push_back.1 ∧ 0 < test_push_back.2.size ∧
      test_push_back.2.growth_fits physics_t ∧
      (vector.pop_back physics_t test_push_back.1 test_push_back.2).1.2.size =
        test_push_back.2.size - 1 ∧
      (vector.pop_back physics_t test_push_back.1 test_push_back.2).1.2.get physics_t
        (vector.pop_back physics_t test_push_back.1 test_push_back.2).1.1 1 (0 : Nat) =
          some 0 ∧
      (vector.pop_back physics_t
        (vector.emplace_back physics_t test_push_back.1 test_push_back.2 []).1
        (vector.emplace_back physics_t test_push_back.1 test_push_back.2 []).2).1.2.get
          physics_t
          (vector.pop_back physics_t
            (vector.emplace_back physics_t test_push_back.1 test_push_back.2 []).1
            (vector.emplace_back physics_t test_push_back.1 test_push_back.2 []).2).1.1
          3 (1 : Nat) = some 42 :=
  ⟨test_push_back_WF, by decide, test_push_back_growth_fits,
    ((pop_back_removes_last physics_t _ _ [] test_push_back_WF).1 (by decide)).2.1,
    ((pop_back_removes_last physics_t _ _ [] test_push_back_WF).1 (by decide)).2.2.2 1 0 0
      (by decide)
      ((emplace_back_get physics_t test_resize.1 test_resize.2 [1, 2, 3, 42]
        test_resize_WF test_resize_growth_fits).2 1 0 0 (by decide)
        (test_resize_get 1 type_double rfl)),
    ((pop_back_removes_last physics_t _ _ [] test_push_back_WF).2.1
      test_push_back_growth_fits).2.2 3 1 42 (by decide)
      (test_push_back_get 3 type_int rfl)⟩

/-! ## Size and capacity in reachable states -/

theorem apply_bounds (T : List Component) (h : Heap) (v : vector) (mu : Mutation)
    (hb : 0 ≤ v.size_ ∧ v.size_ ≤ v.capacity_ ∧ v.capacity_ < 2147483648)
    (hr : mu.in_range v) :
    0 ≤ (mu.apply T h v).2.size_ ∧
      (mu.apply T h v).2.size_ ≤ (mu.apply T h v).2.capacity_ ∧
      (mu.apply T h v).2.capacity_ < 2147483648 := by
  obtain ⟨h0, h1, h2⟩ := hb
  have hrv : ∀ (n : Int) (value : List Val), n < 2147483648 →
      0 ≤ (vector.resize_value T h v n value).2.size_ ∧
      (vector.resize_value T h v n value).2.size_ ≤
        (vector.resize_value T h v n value).2.capacity_ ∧
      (vector.resize_value T h v n value).2.capacity_ < 2147483648 := by
    intro n value hlt
    by_cases hn : n ≤ v.size_
    · unfold vector.resize_value vector.size
      rw [if_pos hn]
      exact ⟨h0, h1, h2⟩
    · rw [resize_value_eq T h v n value (by omega) _ rfl]
      refine ⟨by show 0 ≤ n; omega, ?_, ?_⟩
      · show n ≤ (vector.reserve T h v n).2.capacity_
        rw [reserve_capacity_eq]
        exact le_max_right _ _
      · show (vector.reserve T h v n).2.capacity_ < 2147483648
        rw [reserve_capacity_eq]
        exact max_lt h2 hlt
  have hem : ∀ a : List Val, (v.size_ = v.capacity_ → v.capacity_ < 1073741824) →
      0 ≤ (vector.emplace_back T h v a).2.size_ ∧
      (vector.emplace_back T h v a).2.size_ ≤ (vector.emplace_back T h v a).2.capacity_ ∧
      (vector.emplace_back T h v a).2.capacity_ < 2147483648 := by
    intro a hfull
    rw [emplace_back_size_eq, emplace_back_capacity_eq]
    by_cases he : v.size_ = v.capacity_
    · have hc := hfull he
      rw [if_pos he, to_int_of_range (v.size_ + 1) (by omega) (by omega)]
      by_cases hz : v.size_ = 0
      · rw [if_pos hz]
        exact ⟨by omega, le_trans (by omega) (le_max_right _ _), max_lt h2 (by omega)⟩
      · rw [if_neg hz, to_int_of_range (v.capacity_ * 2) (by omega) (by omega)]
        exact ⟨by omega, le_trans (by omega) (le_max_right _ _), max_lt h2 (by omega)⟩
    · rw [if_neg he, to_int_of_range (v.size_ + 1) (by omega) (by omega)]
      exact ⟨by omega, by omega, h2⟩
  cases mu with
  | reserve c =>
    show 0 ≤ (vector.reserve T h v c).2.size_ ∧
      (vector.reserve T h v c).2.size_ ≤ (vector.reserve T h v c).2.capacity_ ∧
      (vector.reserve T h v c).2.capacity_ < 2147483648
    rw [reserve_size_eq, reserve_capacity_eq]
    exact ⟨h0, le_trans h1 (le_max_left _ _), max_lt h2 hr⟩
  | resize n =>
    show 0 ≤ (vector.resize T h v n).2.size_ ∧
      (vector.resize T h v n).2.size_ ≤ (vector.resize T h v n).2.capacity_ ∧
      (vector.resize T h v n).2.capacity_ < 2147483648
    rw [resize_eq_resize_value]
    exact hrv n _ hr
  | resize_value n value => exact hrv n value hr
  | emplace_back a => exact hem a hr
  | push_back a => exact hem a hr
  | pop_back =>
    show 0 ≤ (vector.pop_back T h v).1.2.size_ ∧
      (vector.pop_back T h v).1.2.size_ ≤ (vector.pop_back T h v).1.2.capacity_ ∧
      (vector.pop_back T h v).1.2.capacity_ < 2147483648
    by_cases he : v.size_ = 0
    · rw [pop_back_of_empty T h v he]
      exact ⟨h0, h1, h2⟩
    · rw [pop_back_of_ne T h v he (by omega) (by omega)]
      exact ⟨by show 0 ≤ v.size_ - 1; omega, by show v.size_ - 1 ≤ v.capacity_; omega, h2⟩
  | clear => exact ⟨le_refl _, by show (0 : Int) ≤ v.capacity_; omega, h2⟩
  | write i j val => exact ⟨h0, h1, h2⟩

theorem copy_ctor_bounds (T : List Component) (h : Heap) (rhs : vector)
    (hb : 0 ≤ rhs.size_ ∧ rhs.size_ ≤ rhs.capacity_ ∧ rhs.capacity_ < 2147483648) :
    0 ≤ (vector.copy_ctor T h rhs).2.size_ ∧
      (vector.copy_ctor T h rhs).2.size_ ≤ (vector.copy_ctor T h rhs).2.capacity_ ∧
      (vector.copy_ctor T h rhs).2.capacity_ < 2147483648 := by
  obtain ⟨h0, h1, h2⟩ := hb
  by_cases he : rhs.size_ = 0
  · rw [copy_ctor_of_empty T h rhs he]
    exact ⟨h0, le_refl _, by show rhs.size_ < 2147483648; omega⟩
  · rw [copy_ctor_of_ne T h rhs he]
    exact ⟨h0, le_refl _, by show rhs.size_ < 2147483648; omega⟩

theorem copy_assign_bounds (T : List Component) (h : Heap) (this rhs : vector)
    (ht : this.capacity_ < 2147483648)
    (hb : 0 ≤ rhs.size_ ∧ rhs.size_ ≤ rhs.capacity_ ∧ rhs.capacity_ < 2147483648) :
    0 ≤ (vector.copy_assign T h this rhs).2.size_ ∧
      (vector.copy_assign T h this rhs).2.size_ ≤
        (vector.copy_assign T h this rhs).2.capacity_ ∧
      (vector.copy_assign T h this rhs).2.capacity_ < 2147483648 := by
  obtain ⟨hs, hc, _, _⟩ := copy_assign_fields T h this rhs
  obtain ⟨h0, h1, h2⟩ := hb
  rw [hs, hc]
  refine ⟨h0, ?_, ?_⟩
  · split <;> omega
  · split <;> omega

/-- One step of a program whose arguments are in range keeps `0 ≤ size ≤ capacity < 2^31`
in every container. -/
theorem step_bounds (T : List Component) (s : Heap × List vector) (st : Step)
    (hs : ∀ v ∈ s.2, 0 ≤ v.size_ ∧ v.size_ ≤ v.capacity_ ∧ v.capacity_ < 2147483648)
    (hr : st.in_range s) :
    ∀ v ∈ (st.apply T s).2,
      0 ≤ v.size_ ∧ v.size_ ≤ v.capacity_ ∧ v.capacity_ < 2147483648 := by
  have hz : ∀ w : vector, 0 ≤ w.to_zero.size_ ∧ w.to_zero.size_ ≤ w.to_zero.capacity_ ∧
      w.to_zero.capacity_ < 2147483648 :=
    fun w => ⟨le_refl _, le_refl _, by show (0 : Int) < 2147483648; decide⟩
  intro v hv
  cases st with
  | construct =>
    simp only [Step.apply, List.mem_append, List.mem_singleton] at hv
    rcases hv with hv | rfl
    · exact hs v hv
    · exact ⟨le_refl _, le_refl _, by show (0 : Int) < 2147483648; decide⟩
  | copy_construct k =>
    simp only [Step.apply] at hv
    cases hk : s.2[k]? with
    | none =>
      rw [hk] at hv
      exact hs v hv
    | some rhs =>
      rw [hk] at hv
      simp only [List.mem_append, List.mem_singleton] at hv
      rcases hv with hv | rfl
      · exact hs v hv
      · exact copy_ctor_bounds T s.1 rhs (hs rhs (List.getElem?_mem hk))
  | move_construct k =>
    simp only [Step.apply] at hv
    cases hk : s.2[k]? with
    | none =>
      rw [hk] at hv
      exact hs v hv
    | some rhs =>
      rw [hk] at hv
      simp only [List.mem_append, List.mem_singleton] at hv
      rcases hv with hv | rfl
      · rcases List.mem_or_eq_of_mem_set hv with hv | rfl
        · exact hs v hv
        · exact hz rhs
      · exact hs rhs (List.getElem?_mem hk)
  | copy_assign i k =>
    simp only [Step.apply] at hv
    cases hi : s.2[i]? with
    | none =>
      rw [hi] at hv
      exact hs v hv
    | some this =>
      cases hk : s.2[k]? with
      | none =>
        rw [hi, hk] at hv
        exact hs v hv
      | some rhs =>
        rw [hi, hk] at hv
        rcases List.mem_or_eq_of_mem_set hv with hv | rfl
        · exact hs v hv
        · exact copy_assign_bounds T s.1 this rhs (hs this (List.getElem?_mem hi)).2.2
            (hs rhs (List.getElem?_mem hk))
  | move_assign i k =>
    simp only [Step.apply] at hv
    cases hi : s.2[i]? with
    | none =>
      rw [hi] at hv
      exact hs v hv
    | some this =>
      cases hk : s.2[k]? with
      | none =>
        rw [hi, hk] at hv
        exact hs v hv
      | some rhs =>
        rw [hi, hk] at hv
        rcases List.mem_or_eq_of_mem_set hv with hv | rfl
        · rcases List.mem_or_eq_of_mem_set hv with hv | rfl
          · exact hs v hv
          · exact hs rhs (List.getElem?_mem hk)
        · exact hz rhs
  | mutate i mu =>
    simp only [Step.apply] at hv
    cases hi : s.2[i]? with
    | none =>
      rw [hi] at hv
      exact hs v hv
    | some w =>
      rw [hi] at hv
      simp only [Step.in_range, hi] at hr
      rcases List.mem_or_eq_of_mem_set hv with hv | rfl
      · exact hs v hv
      · exact apply_bounds T s.1 w mu (hs w (List.getElem?_mem hi)) hr

theorem foldl_bounds (T : List Component) (steps : List Step) (s : Heap × List vector)
    (hs : ∀ v ∈ s.2, 0 ≤ v.size_ ∧ v.size_ ≤ v.capacity_ ∧ v.capacity_ < 2147483648)
    (hr : steps_in_range T s steps) :
    ∀ v ∈ (steps.foldl (fun s st => st.apply T s) s).2,
      0 ≤ v.size_ ∧ v.size_ ≤ v.capacity_ ∧ v.capacity_ < 2147483648 := by
  induction steps generalizing s with
  | nil => exact hs
  | cons st steps ih => exact ih _ (step_bounds T s st hs hr.1) hr.2

theorem test_steps_in_range : steps_in_range physics_t (Heap.empty, []) test_steps := by
  refine ⟨trivial, ?_, ?_, ?_, trivial, trivial⟩
  · show (4 : Int) < 2147483648
    decide
  · show (1 : Int) < 2147483648
    decide
  · show test_resize.2.size_ = test_resize.2.capacity_ → test_resize.2.capacity_ < 1073741824
    intro h
    exact absurd h (by decide)

/-! ## Claims on the growth of the capacity and on reachable states -/

/-- C8, counterexample: a container of `{ char a; }` after `resize(1 << 30)` has
`size() == capacity() == 2^30`.  `emplace_back` computes `capacity() * 2 = 2^31`, which is
`-2^31` as an `int`; `reserve` of a negative capacity does nothing, and the capacity is
`2^30` after the call, not twice the old capacity. -/
theorem emplace_back_full_capacity_unchanged :
    test_full.2.size = 1073741824 ∧ test_full.2.capacity = 1073741824 ∧
    test_full.2.new_capacity = -2147483648 ∧
    (vector.emplace_back char_t test_full.1 test_full.2 []).2.capacity = 1073741824 ∧
    (vector.emplace_back char_t test_full.1 test_full.2 []).2.capacity ≠
      2 * test_full.2.capacity := by
  decide

/-- C8, amended: `emplace_back` leaves the capacity unchanged when `size() != capacity()`,
makes it 1 when `size() == capacity() == 0`, doubles it when `size() == capacity()` is
positive and below `2^30`, and leaves it unchanged when `size() == capacity()` is `2^30`
or more (the doubled capacity is negative as an `int`). -/
theorem emplace_back_capacity_change (T : List Component) (h : Heap) (v : vector) (a : List Val) :
    (v.size ≠ v.capacity → (vector.emplace_back T h v a).2.capacity = v.capacity) ∧
    (v.size = v.capacity → v.capacity = 0 → (vector.emplace_back T h v a).2.capacity = 1) ∧
    (v.size = v.capacity → 0 < v.capacity → v.capacity < 1073741824 →
      (vector.emplace_back T h v a).2.capacity = 2 * v.capacity) ∧
    (v.size = v.capacity → 1073741824 ≤ v.capacity → v.capacity < 2147483648 →
      (vector.emplace_back T h v a).2.capacity = v.capacity) := by
  have h1 := emplace_back_capacity_eq T h v a
  unfold vector.size vector.capacity
  refine ⟨?_, ?_, ?_, ?_⟩
  · intro hne; rw [h1, if_neg hne]
  · intro he h0; rw [h1, if_pos he, he, h0]; simp
  · intro he hpos hlt
    rw [h1, if_pos he, if_neg (by omega), to_int_of_range _ (by omega) (by omega)]
    omega
  · intro he hge hlt
    rw [h1, if_pos he, if_neg (by omega)]
    have : to_int (v.capacity_ * 2) = v.capacity_ * 2 - 4294967296 := by
      unfold to_int
      omega
    rw [this]
    omega

theorem emplace_back_capacity_change_witness :
    (test_resize.2.size ≠ test_resize.2.capacity ∧
      (vector.emplace_back physics_t test_resize.1 test_resize.2 [7]).2.capacity =
        test_resize.2.capacity) ∧
    (vector.emplace_back physics_t Heap.empty (vector.init physics_t) [7]).2.capacity = 1 ∧
    (test_resize_value.2.size = test_resize_value.2.capacity ∧
      0 < test_resize_value.2.capacity ∧ test_resize_value.2.capacity < 1073741824 ∧
      (vector.emplace_back physics_t test_resize_value.1 test_resize_value.2 [7]).2.capacity =
        2 * test_resize_value.2.capacity) ∧
    (test_full.2.size = test_full.2.capacity ∧ 1073741824 ≤ test_full.2.capacity ∧
      test_full.2.capacity < 2147483648 ∧
      (vector.emplace_back char_t test_full.1 test_full.2 [7]).2.capacity =
        test_full.2.capacity) :=
  ⟨⟨by decide,
      (emplace_back_capacity_change physics_t test_resize.1 test_resize.2 [7]).1 (by decide)⟩,
    (emplace_back_capacity_change physics_t Heap.empty (vector.init physics_t) [7]).2.1 rfl rfl,
    ⟨by decide, by decide, by decide,
      (emplace_back_capacity_change physics_t test_resize_value.1 test_resize_value.2 [7]).2.2.1
        (by decide) (by decide) (by decide)⟩,
    ⟨by decide, by decide, by decide,
      (emplace_back_capacity_change char_t test_full.1 test_full.2 [7]).2.2.2
        (by decide) (by decide) (by decide)⟩⟩

/-- C26, counterexample: on a container of `{ char a; }`, after default construction,
`reserve(1 << 30)`, `resize(1 << 30)` and `emplace_back()` the size is `2^30 + 1` and the
capacity is `2^30`: `emplace_back` on the full container computes the new capacity
`2^30 * 2`, which is negative as an `int`, does not grow, and still constructs an element
and increments the size. -/
theorem reachable_size_above_capacity :
    (run char_t test_full_steps).2.map (fun v => (v.size, v.capacity)) =
      [(1073741825, 1073741824)] ∧
    ∃ v ∈ (run char_t test_full_steps).2, ¬ v.size ≤ v.capacity := by
  have h : (run char_t test_full_steps).2.map (fun v => (v.size, v.capacity)) =
      [(1073741825, 1073741824)] := by decide
  refine ⟨h, ?_⟩
  cases hr : (run char_t test_full_steps).2 with
  | nil => rw [hr] at h; simp at h
  | cons v vs =>
    rw [hr] at h
    simp only [List.map_cons, List.cons.injEq, Prod.mk.injEq] at h
    refine ⟨v, List.mem_cons_self _ _, ?_⟩
    rw [h.1.1, h.1.2]
    decide

/-- C26, amended: in every state reached from no container at all by default construction,
copy and move construction, copy and move assignment, `reserve`, `resize`, `emplace_back`,
`push_back`, `pop_back`, `clear` and writes through a span, every container has
`0 ≤ size() ≤ capacity()`, provided that every argument of `reserve` and `resize` is an
`int` (negative ones included) and that `emplace_back` and `push_back` are not called on a
full container whose capacity is `2^30` or more. -/
theorem reachable_size_le_capacity (T : List Component) (steps : List Step) (v : vector)
    (hr : steps_in_range T (Heap.empty, []) steps) (hv : v ∈ (run T steps).2) :
    0 ≤ v.size ∧ v.size ≤ v.capacity :=
  ⟨(foldl_bounds T steps (Heap.empty, []) (fun _ hw => absurd hw (List.not_mem_nil _)) hr
      v hv).1,
    (foldl_bounds T steps (Heap.empty, []) (fun _ hw => absurd hw (List.not_mem_nil _)) hr
      v hv).2.1⟩

theorem reachable_size_le_capacity_witness :
    steps_in_range physics_t (Heap.empty, []) test_steps ∧
      test_copy.2 ∈ (run physics_t test_steps).2 ∧
      0 ≤ test_copy.2.size ∧ test_copy.2.size ≤ test_copy.2.capacity :=
  ⟨test_steps_in_range,
    List.mem_cons_of_mem _ (List.mem_singleton.mpr rfl),
    reachable_size_le_capacity physics_t test_steps test_copy.2
      test_steps_in_range
      (List.mem_cons_of_mem _ (List.mem_singleton.mpr rfl))⟩

/-! ## Growth beyond `2^30` -/

theorem getLast?_cons_getD {α : Type} (x : α) (l : List α) (d : α) :
    ((x :: l).getLast?).getD d = (l.getLast?).getD x := by
  cases l with
  | nil => rfl
  | cons y ys =>
    rw [List.getLast?_cons_cons, List.getLast?_eq_getLast _ (List.cons_ne_nil y ys)]
    rfl

theorem emplace_back_states_append (T : List Component) (l1 l2 : List (List Val)) :
    ∀ s : Heap × vector, emplace_back_states T s (l1 ++ l2) =
      emplace_back_states T s l1 ++
        emplace_back_states T (((emplace_back_states T s l1).getLast?).getD s) l2 := by
  induction l1 with
  | nil => intro s; rfl
  | cons a l1 ih =>
    intro s
    show vector.emplace_back T s.1 s.2 a ::
        emplace_back_states T (vector.emplace_back T s.1 s.2 a) (l1 ++ l2) =
      (vector.emplace_back T s.1 s.2 a ::
        emplace_back_states T (vector.emplace_back T s.1 s.2 a) l1) ++
        emplace_back_states T (((vector.emplace_back T s.1 s.2 a ::
          emplace_back_states T (vector.emplace_back T s.1 s.2 a) l1).getLast?).getD s) l2
    rw [ih, getLast?_cons_getD]
    rfl

theorem capacity_changes_append (l1 l2 : List Int) :
    ∀ c : Int, capacity_changes c (l1 ++ l2) =
      capacity_changes c l1 ++ capacity_changes (l1.getLast?.getD c) l2 := by
  induction l1 with
  | nil => intro c; rfl
  | cons x l1 ih =>
    intro c
    rw [getLast?_cons_getD]
    show (if x = c then capacity_changes x (l1 ++ l2) else x :: capacity_changes x (l1 ++ l2)) =
      (if x = c then capacity_changes x l1 else x :: capacity_changes x l1) ++
        capacity_changes (l1.getLast?.getD x) l2
    rw [ih]
    split <;> rfl

theorem growth_last (T : List Component) (calls : List (List Val)) :
    ∀ (s : Heap × vector) (k : Nat), k + calls.length ≤ 1073741824 → s.2.size_ = k →
      s.2.capacity_ = growth_capacity k →
      (((emplace_back_states T s calls).getLast?).getD s).2.size_ =
          ((k + calls.length : Nat) : Int) ∧
        (((emplace_back_states T s calls).getLast?).getD s).2.capacity_ =
          growth_capacity (k + calls.length) := by
  induction calls with
  | nil => intro s k _ hs hc; exact ⟨hs, hc⟩
  | cons a calls ih =>
    intro s k hk hs hc
    have hlen : k + (a :: calls).length = k + 1 + calls.length := by simp; omega
    obtain ⟨hs1, hc1⟩ := emplace_back_growth_step T s.1 s.2 a k (by omega) hs hc
    have ih1 := ih (vector.emplace_back T s.1 s.2 a) (k + 1) (by omega) hs1 hc1
    rw [hlen]
    have hlast : ((emplace_back_states T s (a :: calls)).getLast?).getD s =
        ((emplace_back_states T (vector.emplace_back T s.1 s.2 a) calls).getLast?).getD
          (vector.emplace_back T s.1 s.2 a) := getLast?_cons_getD _ _ _
    rw [hlast]
    exact ih1

theorem clog_two_pow_30 : Nat.clog 2 1073741824 = 30 := by
  have h : (1073741824 : Nat) = 2 ^ 30 := by norm_num
  rw [h, Nat.clog_pow 2 30 (by decide)]

theorem clog_two_pow_30_succ : Nat.clog 2 1073741825 = 31 := by
  apply Nat.le_antisymm
  · exact (Nat.le_pow_iff_clog_le (by decide)).mp (by norm_num)
  · have h : 30 < Nat.clog 2 1073741825 := (Nat.pow_lt_iff_lt_clog (by decide)).mp (by norm_num)
    omega

/-- The capacities taken by `2^30 + 1` calls of `emplace_back` on a default-constructed
container are `1, 2, ..., 2^30`; after the calls the size is `2^30 + 1` and the capacity
`2^30`. -/
theorem growth_past_two_pow_30 (T : List Component) :
    capacity_changes 0
        ((emplace_back_states T (Heap.empty, vector.init T)
          (List.replicate 1073741825 [])).map fun s => s.2.capacity) =
      (List.range 31).map (fun j => (2 : Int) ^ j) ∧
    (((emplace_back_states T (Heap.empty, vector.init T)
      (List.replicate 1073741825 [])).getLast?).getD (Heap.empty, vector.init T)).2.capacity =
        1073741824 := by
  have hgc : growth_capacity 1073741824 = 1073741824 := by
    unfold growth_capacity
    rw [if_neg (by decide), clog_two_pow_30]
    norm_num
  have hgn : growth_count 1073741824 = 31 := by
    unfold growth_count
    rw [if_neg (by decide), clog_two_pow_30]
  have hrep : List.replicate 1073741825 ([] : List Val) =
      List.replicate 1073741824 [] ++ [[]] := by
    show List.replicate (1073741824 + 1) ([] : List Val) = _
    rw [List.replicate_succ']
  have hlen : (List.replicate 1073741824 ([] : List Val)).length = 1073741824 :=
    List.length_replicate _ _
  have hmain := capacity_changes_growth T (List.replicate 1073741824 [])
    (Heap.empty, vector.init T) 0 (by rw [hlen]) rfl rfl
  obtain ⟨hls, hlc⟩ := growth_last T (List.replicate 1073741824 [])
    (Heap.empty, vector.init T) 0 (by rw [hlen]) rfl rfl
  rw [hlen, Nat.zero_add] at hmain hls hlc
  rw [hgc] at hlc
  have h0 : growth_capacity 0 = 0 := rfl
  have hg0 : growth_count 0 = 0 := rfl
  rw [h0, hg0, hgn, Nat.sub_zero, ← List.range_eq_range'] at hmain
  obtain ⟨last, hlast⟩ : ∃ last, last = ((emplace_back_states T (Heap.empty, vector.init T)
      (List.replicate 1073741824 [])).getLast?).getD (Heap.empty, vector.init T) := ⟨_, rfl⟩
  rw [← hlast] at hls hlc
  have hcap : (vector.emplace_back T last.1 last.2 []).2.capacity_ = 1073741824 := by
    rw [emplace_back_capacity_eq, hls, hlc, if_pos (by norm_num), if_neg (by norm_num)]
    rfl
  have hmaplast : (((emplace_back_states T (Heap.empty, vector.init T)
      (List.replicate 1073741824 [])).map fun s => s.2.capacity).getLast?).getD 0 =
      1073741824 := by
    rw [List.getLast?_map]
    cases hl : (emplace_back_states T (Heap.empty, vector.init T)
        (List.replicate 1073741824 [])).getLast? with
    | none =>
      rw [hl] at hlast
      rw [hlast] at hlc
      have h0 : (0 : Int) = 1073741824 := hlc
      exact absurd h0 (by decide)
    | some x =>
      rw [hl] at hlast
      simp only [Option.getD_some] at hlast
      rw [← hlast]
      exact hlc
  rw [hrep, emplace_back_states_append, ← hlast]
  constructor
  · rw [List.map_append, capacity_changes_append, hmain, hmaplast]
    simp only [emplace_back_states, List.map_cons, List.map_nil, capacity_changes,
      vector.capacity, hcap, if_true, List.append_nil]
  · rw [List.getLast?_append]
    exact hcap

/-- C9, counterexample: `N = 2^30 + 1` calls of `emplace_back` on a default-constructed
container of `{ char a; }` change the capacity 31 times, to `1, 2, 4, ..., 2^30`, whereas
`⌈log₂ N⌉ + 1 = 32` and the least power of two `≥ N` is `2^31`: the last call finds the
container full, computes `2^30 * 2`, which is negative as an `int`, and does not grow.
The capacity after the calls is `2^30`, below `N`. -/
theorem emplace_back_growth_stops :
    capacity_changes 0
        ((emplace_back_states char_t (Heap.empty, vector.init char_t)
          (List.replicate 1073741825 [])).map fun s => s.2.capacity) =
      (List.range 31).map (fun j => (2 : Int) ^ j) ∧
    Nat.clog 2 (List.replicate 1073741825 ([] : List Val)).length + 1 = 32 ∧
    (((emplace_back_states char_t (Heap.empty, vector.init char_t)
      (List.replicate 1073741825 [])).getLast?).getD
        (Heap.empty, vector.init char_t)).2.capacity = 1073741824 := by
  refine ⟨(growth_past_two_pow_30 char_t).1, ?_, (growth_past_two_pow_30 char_t).2⟩
  rw [List.length_replicate, clog_two_pow_30_succ]

/-- C9, amended: from a default-constructed container, `N` consecutive `emplace_back`
calls with `1 ≤ N ≤ 2^30` change the capacity exactly `⌈log₂ N⌉ + 1` times, and the
capacities taken are `1, 2, 4, ..., 2 ^ ⌈log₂ N⌉`, the last one being the least power of
two `≥ N`; the allocator is called once per capacity change, `⌈log₂ N⌉ + 1` times in
all. -/
theorem emplace_back_reallocations (T : List Component) (calls : List (List Val))
    (hN : 1 ≤ calls.length) (hmax : calls.length ≤ 1073741824) :
    capacity_changes 0
        ((emplace_back_states T (Heap.empty, vector.init T) calls).map fun s => s.2.capacity) =
      (List.range (Nat.clog 2 calls.length + 1)).map (fun j => (2 : Int) ^ j) ∧
    (capacity_changes 0
        ((emplace_back_states T (Heap.empty, vector.init T) calls).map
          fun s => s.2.capacity)).length = Nat.clog 2 calls.length + 1 ∧
    calls.length ≤ 2 ^ Nat.clog 2 calls.length ∧
    (∀ j, calls.length ≤ 2 ^ j → 2 ^ Nat.clog 2 calls.length ≤ 2 ^ j) ∧
    (((emplace_back_states T (Heap.empty, vector.init T) calls).getLast?).getD
      (Heap.empty, vector.init T)).1.trace.length = Nat.clog 2 calls.length + 1 := by
  have hmain := capacity_changes_growth T calls (Heap.empty, vector.init T) 0
    (by omega) rfl rfl
  have htrace := trace_length_growth T calls (Heap.empty, vector.init T) 0 (by omega) rfl rfl
  have h0 : growth_capacity 0 = 0 := rfl
  have hg0 : growth_count 0 = 0 := rfl
  have hgN : growth_count (0 + calls.length) = Nat.clog 2 calls.length + 1 := by
    unfold growth_count
    rw [if_neg (by omega), Nat.zero_add]
  rw [h0, hg0, hgN, Nat.sub_zero, ← List.range_eq_range'] at hmain
  rw [hg0, hgN, Nat.sub_zero] at htrace
  refine ⟨hmain, by rw [hmain]; simp, Nat.le_pow_clog (by decide) _, ?_, ?_⟩
  · intro j hj
    exact Nat.pow_le_pow_right (by decide) ((Nat.le_pow_iff_clog_le (by decide)).mp hj)
  · rw [htrace]
    show 0 + _ = _
    omega

theorem emplace_back_reallocations_witness :
    capacity_changes 0
        ((emplace_back_states physics_t (Heap.empty, vector.init physics_t)
          [[1, 2, 3, 42], [], [7], [0, 0, 0, 0], [5, 6]]).map fun s => s.2.capacity) =
      (List.range (Nat.clog 2 5 + 1)).map (fun j => (2 : Int) ^ j) :=
  (emplace_back_reallocations physics_t [[1, 2, 3, 42], [], [7], [0, 0, 0, 0], [5, 6]]
    (by decide) (by decide)).1

/-! ## The bytes a mutating operation writes -/

theorem test_steps_run : (run physics_t test_steps).2 = [test_push_back.2, test_copy.2] := rfl

theorem test_push_back_members :
    test_push_back.2.members.map (fun s => (s.ptr_.block, s.ptr_.off)) =
      [(1, 0), (1, 8), (1, 40), (1, 56)] := by
  simp only [test_push_back, vector.push_back, vector.emplace_back, test_resize, vector.resize,
    test_reserve, vector.reserve, vector.allocate, physics_t_shifts.2.2.1]
  decide

/-- C19: in every state reached by a program of public operations, the span at position
`k` of a container, registered by `AV_DEFINE_TYPE` with `Pos = k`, finds the container it
is a member of at `this - Pos` and reports the size of that container; hence all spans of
one container report the same size; `end() - begin()` of the span, with `end()` computed
from the same lookup, is that size.  The lookup depends on `Pos`: with any other `Pos` it
would not reach the start of a container. -/
theorem span_size_is_container_size (T : List Component) (steps : List Step) (c : Nat)
    (v : vector) (k Pos : Nat) (s : vector_span) (comp : Component)
    (hv : (run T steps).2[c]? = some v)
    (hpos : (av_pp_map_pos 0 T)[k]? = some Pos)
    (hs : span_addr.deref (run T steps).2 ⟨c, k⟩ = some s) :
    vector_span.size_at (run T steps).2 Pos ⟨c, k⟩ = some v.size ∧
    (∀ k2 Pos2 : Nat, (av_pp_map_pos 0 T)[k2]? = some Pos2 →
      vector_span.size_at (run T steps).2 Pos2 ⟨c, k2⟩ =
        vector_span.size_at (run T steps).2 Pos ⟨c, k⟩) ∧
    (∀ Pos2 : Nat, Pos2 ≠ k → vector_span.size_at (run T steps).2 Pos2 ⟨c, k⟩ = none) ∧
    ∃ e, vector_span.end_at (run T steps).2 Pos ⟨c, k⟩ comp.size = some e ∧
      Ptr.diff e s.begin comp.size = v.size := by
  have key : ∀ k2 Pos2 : Nat, (av_pp_map_pos 0 T)[k2]? = some Pos2 →
      vector_span.size_at (run T steps).2 Pos2 ⟨c, k2⟩ = some v.size_ := by
    intro k2 Pos2 h2
    have hk := av_pp_map_pos_getElem? 0 T k2 Pos2 h2
    unfold vector_span.size_at span_addr.sub
    simp only
    rw [if_pos (by omega), hv]
    rfl
  refine ⟨key k Pos hpos, fun k2 Pos2 h2 => ?_, fun Pos2 hne => ?_, ?_⟩
  · rw [key k2 Pos2 h2, key k Pos hpos]
  · unfold vector_span.size_at span_addr.sub
    simp only
    rw [if_neg (by omega)]
  · refine ⟨s.ptr_.add v.size_ comp.size, ?_, ?_⟩
    · unfold vector_span.end_at
      rw [hs, key k Pos hpos]
    · unfold Ptr.diff vector_span.begin vector.size Ptr.add
      simp only [add_sub_cancel_left]
      have hne : ((comp.size : Nat) : Int) ≠ 0 := by
        have := comp.size_pos
        omega
      exact Int.mul_ediv_cancel _ hne

theorem span_size_is_container_size_witness :
    (run physics_t test_steps).2[1]? = some test_copy.2 ∧
      (av_pp_map_pos 0 physics_t)[1]? = some 1 ∧
      span_addr.deref (run physics_t test_steps).2 ⟨0, 1⟩ = some ⟨⟨1, 8⟩⟩ ∧
      vector_span.size_at (run physics_t test_steps).2 1 ⟨0, 1⟩ = some test_push_back.2.size ∧
      vector_span.size_at (run physics_t test_steps).2 0 ⟨0, 1⟩ = none := by
  have hs : span_addr.deref (run physics_t test_steps).2 ⟨0, 1⟩ = some ⟨⟨1, 8⟩⟩ := by
    have hm := test_push_back_members
    rw [test_steps_run]
    show test_push_back.2.members[1]? = some ⟨⟨1, 8⟩⟩
    cases hl : test_push_back.2.members with
    | nil => rw [hl] at hm; simp at hm
    | cons a l =>
      cases l with
      | nil => rw [hl] at hm; simp at hm
      | cons b l =>
        rw [hl] at hm
        simp only [List.map_cons, List.cons.injEq, Prod.mk.injEq] at hm
        obtain ⟨_, ⟨hb1, hb2⟩, _⟩ := hm
        rcases b with ⟨⟨bb, bo⟩⟩
        simp only at hb1 hb2
        subst hb1 hb2
        simp
  exact ⟨rfl, rfl, hs,
    (span_size_is_container_size physics_t test_steps 0 test_push_back.2 1 1 ⟨⟨1, 8⟩⟩
      type_double rfl rfl hs).1,
    (span_size_is_container_size physics_t test_steps 0 test_push_back.2 1 1 ⟨⟨1, 8⟩⟩
      type_double rfl rfl hs).2.2.1 0 (by decide)⟩

/-! ## Constructors that throw -/

/-- The memory left by a loop of `move_array` that may throw is the one left by its first
`k` iterations, for some `k`. -/
theorem move_loop_throwing_take (throws : Ptr → Bool) (sz : Nat) (moved : Val → Val) (n : Nat)
    (s d : Ptr) (m : Mem) :
    ∃ k, k ≤ n ∧ (move_loop_throwing throws sz moved n s d m).1 = move_loop sz moved k s d m ∧
      ((move_loop_throwing throws sz moved n s d m).2 = Outcome.returned → k = n) := by
  induction n generalizing s d m with
  | zero => exact ⟨0, le_refl _, rfl, fun _ => rfl⟩
  | succ n ih =>
    simp only [move_loop_throwing]
    by_cases ht : throws s = true
    · rw [if_pos ht]
      exact ⟨0, Nat.zero_le _, rfl, fun h => absurd h (by simp)⟩
    · rw [if_neg ht]
      obtain ⟨k, hk, h1, h2⟩ := ih (s.add 1 sz) (d.add 1 sz) (m.move_from d s sz moved)
      exact ⟨k + 1, by omega, h1, fun h => by rw [h2 h]⟩

theorem move_loop_throwing_cell_of_outside (throws : Ptr → Bool) (sz : Nat) (moved : Val → Val)
    (n : Nat) (s d : Ptr) (m : Mem) (b : Nat) (o : Int)
    (h : b ≠ d.block ∨ o < d.off ∨ d.off + (n : Int) * (sz : Int) ≤ o)
    (hs : b ≠ s.block ∨ o < s.off ∨ s.off + (n : Int) * (sz : Int) ≤ o) :
    (move_loop_throwing throws sz moved n s d m).1.cell b o = m.cell b o := by
  obtain ⟨k, hk, h1, _⟩ := move_loop_throwing_take throws sz moved n s d m
  rw [h1]
  have hle : (k : Int) * (sz : Int) ≤ (n : Int) * (sz : Int) :=
    Int.mul_le_mul_of_nonneg_right (by omega) (Int.ofNat_nonneg sz)
  apply move_loop_cell_of_outside
  · rcases h with h | h | h
    · exact Or.inl h
    · exact Or.inr (Or.inl h)
    · exact Or.inr (Or.inr (by omega))
  · rcases hs with h | h | h
    · exact Or.inl h
    · exact Or.inr (Or.inl h)
    · exact Or.inr (Or.inr (by omega))

theorem move_loop_throwing_returned (throws : Ptr → Bool) (sz : Nat) (moved : Val → Val)
    (n : Nat) (s d : Ptr) (m : Mem)
    (h : (move_loop_throwing throws sz moved n s d m).2 = Outcome.returned) :
    (move_loop_throwing throws sz moved n s d m).1 = move_loop sz moved n s d m := by
  obtain ⟨k, _, h1, h2⟩ := move_loop_throwing_take throws sz moved n s d m
  rw [h1, h2 h]

/-- A loop of `move_array` that may throw leaves element `j` of the source as it was, or
has constructed it in the destination and left the source element in its moved-from
state. -/
theorem load_move_loop_throwing (throws : Ptr → Bool) (sz : Nat) (moved : Val → Val) (n : Nat)
    (hsz : 0 < sz) (s d : Ptr) (m : Mem) (hsd : s.block ≠ d.block)
    (j : Nat) (val : Val) (h : m.load (s.add j sz) sz = some val) :
    (move_loop_throwing throws sz moved n s d m).1.load (s.add j sz) sz = some val ∨
      ((move_loop_throwing throws sz moved n s d m).1.load (d.add j sz) sz = some val ∧
        (move_loop_throwing throws sz moved n s d m).1.load (s.add j sz) sz =
          some (moved val)) := by
  obtain ⟨k, hk, h1, _⟩ := move_loop_throwing_take throws sz moved n s d m
  rw [h1]
  by_cases hjk : j < k
  · exact Or.inr (load_move_loop sz moved k hsz s d m hsd j hjk val h)
  · left
    rw [load_congr m _ _ sz hsz]
    · exact h
    · intro o h3 _
      have hle : (k : Int) * (sz : Int) ≤ (j : Int) * (sz : Int) :=
        Int.mul_le_mul_of_nonneg_right (by omega) (Int.ofNat_nonneg sz)
      apply move_loop_cell_of_outside
      · exact Or.inl (by simpa [Ptr.add] using hsd)
      · simp only [Ptr.add] at h3 ⊢
        exact Or.inr (Or.inr (by omega))

theorem move_array_throwing_cell_of_outside (throws : Ptr → Bool) (size : Int)
    (blk blks : Nat) (T : List Component) (src dst : List vector_span) (m : Mem)
    (hblk : ∀ d ∈ dst, d.ptr_.block = blk) (hblks : ∀ s ∈ src, s.ptr_.block = blks)
    (b : Nat) (o : Int) (h : b ≠ blk ∨ ∀ d ∈ dst, o < d.ptr_.off)
    (hs : b ≠ blks ∨ ∀ s ∈ src, o < s.ptr_.off) :
    (move_array_throwing throws size T src dst m).1.cell b o = m.cell b o := by
  induction T generalizing src dst m with
  | nil => simp [move_array_throwing]
  | cons c T ih =>
    cases src with
    | nil => simp [move_array_throwing]
    | cons s src =>
      cases dst with
      | nil => simp [move_array_throwing]
      | cons d dst =>
        have h1 : (move_loop_throwing throws c.size c.moved size.toNat s.ptr_ d.ptr_ m).1.cell
            b o = m.cell b o := by
          apply move_loop_throwing_cell_of_outside
          · rcases h with h | h
            · exact Or.inl (by rw [hblk d (List.mem_cons_self _ _)]; exact h)
            · exact Or.inr (Or.inl (h d (List.mem_cons_self _ _)))
          · rcases hs with hs | hs
            · exact Or.inl (by rw [hblks s (List.mem_cons_self _ _)]; exact hs)
            · exact Or.inr (Or.inl (hs s (List.mem_cons_self _ _)))
        simp only [move_array_throwing]
        split
        · exact h1
        · rw [ih src dst _ (fun q hq => hblk q (List.mem_cons_of_mem _ hq))
            (fun q hq => hblks q (List.mem_cons_of_mem _ hq))
            (h.imp id fun hh q hq => hh q (List.mem_cons_of_mem _ hq))
            (hs.imp id fun hh q hq => hh q (List.mem_cons_of_mem _ hq))]
          exact h1

theorem move_array_throwing_returned (throws : Ptr → Bool) (size : Int) (T : List Component)
    (src dst : List vector_span) (m : Mem)
    (h : (move_array_throwing throws size T src dst m).2 = Outcome.returned) :
    (move_array_throwing throws size T src dst m).1 = move_array size T src dst m := by
  induction T generalizing src dst m with
  | nil => simp [move_array_throwing, move_array]
  | cons c T ih =>
    cases src with
    | nil => simp [move_array_throwing, move_array]
    | cons s src =>
      cases dst with
      | nil => simp [move_array_throwing, move_array]
      | cons d dst =>
        have h1 := move_loop_throwing_returned throws c.size c.moved size.toNat s.ptr_ d.ptr_ m
        simp only [move_array_throwing, move_array] at h ⊢
        rcases hr : move_loop_throwing throws c.size c.moved size.toNat s.ptr_ d.ptr_ m with
          ⟨m1, o1⟩
        rw [hr] at h h1
        cases o1 with
        | threw => exact absurd h (by simp)
        | returned =>
          simp only at h h1 ⊢
          rw [← h1 trivial]
          exact ih src dst m1 h

/-- A `move_array` that may throw leaves element `k` of member `i` of the source as it
was, or has constructed it in the destination and left the source element in its
moved-from state. -/
theorem load_move_array_throwing (throws : Ptr → Bool) (size nb nbs : Int) (blk blks : Nat)
    (hne : blks ≠ blk) (hsize : size ≤ nb) (hsizes : size ≤ nbs) (T : List Component)
    (src dst : List vector_span) (m : Mem) (hsep : Separated nb blk T dst)
    (hseps : Separated nbs blks T src)
    (i : Nat) (c : Component) (s d : vector_span)
    (hc : T[i]? = some c) (hs : src[i]? = some s) (hd : dst[i]? = some d)
    (k : Nat) (hk : (k : Int) < size) (val : Val)
    (hval : m.load (s.ptr_.add k c.size) c.size = some val) :
    (move_array_throwing throws size T src dst m).1.load (s.ptr_.add k c.size) c.size =
        some val ∨
      ((move_array_throwing throws size T src dst m).1.load (d.ptr_.add k c.size) c.size =
          some val ∧
        (move_array_throwing throws size T src dst m).1.load (s.ptr_.add k c.size) c.size =
          some (c.moved val)) := by
  induction T generalizing src dst m i with
  | nil => simp at hc
  | cons c0 T ih =>
    cases src with
    | nil => simp at hs
    | cons s0 src =>
      cases dst with
      | nil => simp at hd
      | cons d0 dst =>
        simp only [Separated] at hsep hseps
        obtain ⟨hb0, hlt, hsep1⟩ := hsep
        obtain ⟨hbs0, hlts, hseps1⟩ := hseps
        have hblk1 := separated_block nb blk T dst hsep1
        have hblks1 := separated_block nbs blks T src hseps1
        have hsd0 : s0.ptr_.block ≠ d0.ptr_.block := by rw [hb0, hbs0]; exact hne
        simp only [move_array_throwing]
        cases i with
        | zero =>
          simp only [List.getElem?_cons_zero, Option.some.injEq] at hc hs hd
          subst hc hs hd
          have hloop := load_move_loop_throwing throws c0.size c0.moved size.toNat c0.size_pos
            s0.ptr_ d0.ptr_ m hsd0 k val hval
          split
          · exact hloop
          · have hfs : ∀ m1 : Mem,
                (move_array_throwing throws size T src dst m1).1.load
                  (s0.ptr_.add k c0.size) c0.size = m1.load (s0.ptr_.add k c0.size) c0.size := by
              intro m1
              apply load_congr _ _ _ _ c0.size_pos
              intro o _ h2
              apply move_array_throwing_cell_of_outside throws size blk blks T src dst _ hblk1
                hblks1
              · exact Or.inl (by simp only [Ptr.add]; rw [hbs0]; exact hne)
              · refine Or.inr fun q hq => ?_
                have h3 := hlts q hq
                have h4 := cell_end_le s0.ptr_.off nbs k c0.size (by omega)
                simp only [Ptr.add] at h2
                omega
            have hfd : ∀ m1 : Mem,
                (move_array_throwing throws size T src dst m1).1.load
                  (d0.ptr_.add k c0.size) c0.size = m1.load (d0.ptr_.add k c0.size) c0.size := by
              intro m1
              apply load_congr _ _ _ _ c0.size_pos
              intro o _ h2
              apply move_array_throwing_cell_of_outside throws size blk blks T src dst _ hblk1
                hblks1
              · refine Or.inr fun q hq => ?_
                have h3 := hlt q hq
                have h4 := cell_end_le d0.ptr_.off nb k c0.size (by omega)
                simp only [Ptr.add] at h2
                omega
              · exact Or.inl (by simp only [Ptr.add]; rw [hb0]; exact Ne.symm hne)
            rw [hfs, hfd]
            exact hloop
        | succ i =>
          simp only [List.getElem?_cons_succ] at hc hs hd
          have hkeep : (move_loop_throwing throws c0.size c0.moved size.toNat s0.ptr_ d0.ptr_
              m).1.load (s.ptr_.add k c.size) c.size = some val := by
            rw [load_congr m _ _ _ c.size_pos]
            · exact hval
            · intro o h1 _
              have h3 := hlts s (List.getElem?_mem hs)
              have h4 := cell_start_ge s.ptr_.off k c.size (Int.ofNat_nonneg k)
              have h5 : (size.toNat : Int) * (c0.size : Int) ≤ nbs * (c0.size : Int) := by
                apply Int.mul_le_mul_of_nonneg_right _ (Int.ofNat_nonneg _)
                have := Int.toNat_of_nonneg (show 0 ≤ size by omega)
                omega
              apply move_loop_throwing_cell_of_outside
              · refine Or.inl ?_
                simp only [Ptr.add]
                rw [hb0, hblks1 s (List.getElem?_mem hs)]
                exact hne
              · refine Or.inr (Or.inr ?_)
                simp only [Ptr.add] at h1
                omega
          split
          · exact Or.inl hkeep
          · exact ih src dst _ hsep1 hseps1 i hc hs hd hkeep

/-- A `move_array` of no element does not throw. -/
theorem move_array_throwing_of_nonpos (throws : Ptr → Bool) (size : Int) (hsize : size ≤ 0)
    (T : List Component) (src dst : List vector_span) (m : Mem) :
    (move_array_throwing throws size T src dst m).2 = Outcome.returned := by
  have h0 : size.toNat = 0 := Int.toNat_eq_zero.mpr hsize
  induction T generalizing src dst m with
  | nil => simp [move_array_throwing]
  | cons c T ih =>
    cases src with
    | nil => simp [move_array_throwing]
    | cons s src =>
      cases dst with
      | nil => simp [move_array_throwing]
      | cons d dst =>
        simp only [move_array_throwing, h0, move_loop_throwing]
        exact ih _ _ _

theorem reserve_throwing_returned (throws : Ptr → Bool) (T : List Component) (h : Heap)
    (v : vector) (c : Int)
    (hr : (vector.reserve_throwing throws T h v c).2 = Outcome.returned) :
    (vector.reserve_throwing throws T h v c).1 = vector.reserve T h v c := by
  unfold vector.reserve_throwing at hr ⊢
  unfold vector.reserve
  by_cases hc : c ≤ v.capacity
  · rw [if_pos hc, if_pos hc]
  · rw [if_neg hc] at hr ⊢
    rw [if_neg hc]
    have h1 := move_array_throwing_returned throws v.size T v.members
      (vector.allocate T h c).2.new_members (vector.allocate T h c).1.mem
    simp only at hr ⊢
    rcases hm : move_array_throwing throws v.size T v.members
      (vector.allocate T h c).2.new_members (vector.allocate T h c).1.mem with ⟨m1, o1⟩
    rw [hm] at hr h1
    cases o1 with
    | threw => exact absurd hr (by simp)
    | returned =>
      simp only at h1 ⊢
      rw [← h1 trivial]

/-- The state after a `reserve` that throws: the container object of before, and the heap
after the allocation of the new buffer and the moves that were made. -/
theorem reserve_throwing_threw (throws : Ptr → Bool) (T : List Component) (h : Heap)
    (v : vector) (c : Int)
    (hr : (vector.reserve_throwing throws T h v c).2 = Outcome.threw) :
    v.capacity_ < c ∧ 0 < v.size_ ∧
      (vector.reserve_throwing throws T h v c).1 =
        (⟨(move_array_throwing throws v.size_ T v.members
            (create_members ⟨h.next, 0⟩ (shifts T c) T.length) h.mem).1,
          h.next + 1, h.trace ++ [AllocEvent.allocate h.next (total_bytes T c)]⟩, v) := by
  unfold vector.reserve_throwing vector.capacity vector.size at hr ⊢
  by_cases hc : c ≤ v.capacity_
  · rw [if_pos hc] at hr
    exact absurd hr (by simp)
  · rw [if_neg hc] at hr ⊢
    simp only at hr ⊢
    have hpos : 0 < v.size_ := by
      by_contra hcon
      rw [move_array_throwing_of_nonpos throws v.size_ (by omega)] at hr
      exact absurd hr (by simp)
    rcases hm : move_array_throwing throws v.size_ T v.members
      (vector.allocate T h c).2.new_members (vector.allocate T h c).1.mem with ⟨m1, o1⟩
    rw [hm] at hr
    cases o1 with
    | returned => exact absurd hr (by simp)
    | threw =>
      refine ⟨by omega, hpos, ?_⟩
      simp only
      have hm1 : m1 = (move_array_throwing throws v.size_ T v.members
          (vector.allocate T h c).2.new_members (vector.allocate T h c).1.mem).1 := by
        rw [hm]
      rw [hm1]
      rfl

theorem emplace_back_impl_throwing_cons (throws : Nat → Bool) (size_ : Int) (I : Nat)
    (c : Component) (T : List Component) (p : vector_span) (ps : List vector_span)
    (args : List Val) (m : Mem) :
    emplace_back_impl_throwing throws size_ I (c :: T) (p :: ps) args m =
      if throws I then (m, Outcome.threw)
      else emplace_back_impl_throwing throws size_ (I + 1) T ps args.tail
        (m.store (p.ptr_.add size_ c.size) c.size
          ((args.head?.map c.convert).getD c.dflt)) := by
  cases args <;> rfl

theorem emplace_back_impl_throwing_nil (throws : Nat → Bool) (size_ : Int) (I : Nat)
    (T : List Component) (args : List Val) (m : Mem) :
    emplace_back_impl_throwing throws size_ I T [] args m = (m, Outcome.returned) := by
  cases T <;> cases args <;> rfl

theorem emplace_back_impl_nil (size_ : Int) (T : List Component) (args : List Val) (m : Mem) :
    emplace_back_impl size_ T [] args m = m := by
  cases T <;> cases args <;> rfl

/-- The memory left by an `emplace_back_impl` that may throw is the one written by the
calls for the first `k` members, for some `k`. -/
theorem emplace_back_impl_throwing_take (throws : Nat → Bool) (size_ : Int) (I : Nat)
    (T : List Component) (ps : List vector_span) (args : List Val) (m : Mem) :
    ∃ k, (emplace_back_impl_throwing throws size_ I T ps args m).1 =
      emplace_back_impl size_ T (ps.take k) args m := by
  induction T generalizing I ps args m with
  | nil => exact ⟨0, by cases ps <;> cases args <;> rfl⟩
  | cons c T ih =>
    cases ps with
    | nil => exact ⟨0, by rw [emplace_back_impl_throwing_nil]; cases args <;> rfl⟩
    | cons p ps =>
      rw [emplace_back_impl_throwing_cons]
      by_cases ht : throws I = true
      · rw [if_pos ht]
        exact ⟨0, by rw [List.take_zero, emplace_back_impl_nil]⟩
      · rw [if_neg ht]
        obtain ⟨k, hk⟩ := ih (I + 1) ps args.tail
          (m.store (p.ptr_.add size_ c.size) c.size ((args.head?.map c.convert).getD c.dflt))
        exact ⟨k + 1, by rw [hk, List.take_succ_cons, emplace_back_impl_cons]⟩

theorem emplace_back_impl_throwing_returned (throws : Nat → Bool) (size_ : Int) (I : Nat)
    (T : List Component) (ps : List vector_span) (args : List Val) (m : Mem)
    (h : (emplace_back_impl_throwing throws size_ I T ps args m).2 = Outcome.returned) :
    (emplace_back_impl_throwing throws size_ I T ps args m).1 =
      emplace_back_impl size_ T ps args m := by
  induction T generalizing I ps args m with
  | nil => cases ps <;> cases args <;> rfl
  | cons c T ih =>
    cases ps with
    | nil => rw [emplace_back_impl_throwing_nil, emplace_back_impl_nil]
    | cons p ps =>
      rw [emplace_back_impl_throwing_cons] at h ⊢
      rw [emplace_back_impl_cons]
      by_cases ht : throws I = true
      · rw [if_pos ht] at h
        exact absurd h (by simp)
      · rw [if_neg ht] at h ⊢
        exact ih _ _ _ _ h

theorem emplace_back_impl_throwing_cell_of_outside (throws : Nat → Bool) (size_ : Int)
    (hsize : 0 ≤ size_) (blk : Nat) (I : Nat) (T : List Component) (ps : List vector_span)
    (args : List Val) (m : Mem) (hblk : ∀ p ∈ ps, p.ptr_.block = blk) (b : Nat) (o : Int)
    (h : b ≠ blk ∨ ∀ p ∈ ps, o < p.ptr_.off) :
    (emplace_back_impl_throwing throws size_ I T ps args m).1.cell b o = m.cell b o := by
  obtain ⟨k, hk⟩ := emplace_back_impl_throwing_take throws size_ I T ps args m
  rw [hk]
  exact emplace_back_impl_cell_of_outside size_ hsize blk T _ args m
    (fun p hp => hblk p (List.mem_of_mem_take hp)) b o
    (h.imp id fun hh p hp => hh p (List.mem_of_mem_take hp))

/-- The elements below `size_` are not touched by an `emplace_back_impl` that may throw. -/
theorem load_emplace_back_impl_throwing (throws : Nat → Bool) (size_ nb : Int)
    (hsize : 0 ≤ size_) (hnb : size_ < nb) (blk : Nat) (I : Nat) (T : List Component)
    (ps : List vector_span) (args : List Val) (m : Mem) (hsep : Separated nb blk T ps)
    (i : Nat) (c : Component) (p : vector_span) (hc : T[i]? = some c) (hp : ps[i]? = some p)
    (j : Int) (hj0 : 0 ≤ j) (hj : j < size_) :
    (emplace_back_impl_throwing throws size_ I T ps args m).1.load (p.ptr_.add j c.size) c.size =
      m.load (p.ptr_.add j c.size) c.size := by
  induction T generalizing I ps args m i with
  | nil => simp at hc
  | cons c0 T ih =>
    cases ps with
    | nil => simp at hp
    | cons p0 ps =>
      simp only [Separated] at hsep
      obtain ⟨_, hlt, hsep1⟩ := hsep
      have hblk1 := separated_block nb blk T ps hsep1
      rw [emplace_back_impl_throwing_cons]
      by_cases ht : throws I = true
      · rw [if_pos ht]
      · rw [if_neg ht]
        cases i with
        | zero =>
          simp only [List.getElem?_cons_zero, Option.some.injEq] at hc hp
          subst hc hp
          rw [load_congr (m.store (p0.ptr_.add size_ c0.size) c0.size
            ((args.head?.map c0.convert).getD c0.dflt)) _ _ _ c0.size_pos]
          · apply load_store_other _ _ _ _ _ _ c0.size_pos
            refine Or.inr (Or.inl ?_)
            have := cell_end_le p0.ptr_.off size_ j c0.size hj
            simp only [Ptr.add]
            omega
          · intro o _ h2
            apply emplace_back_impl_throwing_cell_of_outside throws size_ hsize blk _ T ps _ _
              hblk1
            refine Or.inr fun q hq => ?_
            have h3 := hlt q hq
            have h4 := cell_end_le p0.ptr_.off nb j c0.size (by omega)
            simp only [Ptr.add] at h2
            omega
        | succ i =>
          simp only [List.getElem?_cons_succ] at hc hp
          rw [ih (I + 1) ps args.tail _ hsep1 i hc hp]
          apply load_store_other _ _ _ _ _ _ c.size_pos
          refine Or.inr (Or.inr ?_)
          have h3 := hlt p (List.getElem?_mem hp)
          have h4 := cell_end_le p0.ptr_.off nb size_ c0.size hnb
          have h5 := cell_start_ge p.ptr_.off j c.size hj0
          simp only [Ptr.add]
          omega

theorem emplace_back_throwing_eq (throws : Nat → Bool) (T : List Component) (h : Heap)
    (v : vector) (a : List Val) (r : Heap × vector)
    (hr : r = if v.size = v.capacity then vector.reserve T h v v.new_capacity else (h, v)) :
    vector.emplace_back_throwing throws T h v a =
      match (emplace_back_impl_throwing throws r.2.size_ 0 T r.2.members a r.1.mem).2 with
      | Outcome.threw =>
        ((⟨(emplace_back_impl_throwing throws r.2.size_ 0 T r.2.members a r.1.mem).1,
            r.1.next, r.1.trace⟩, r.2), Outcome.threw)
      | Outcome.returned =>
        ((⟨(emplace_back_impl_throwing throws r.2.size_ 0 T r.2.members a r.1.mem).1,
            r.1.next, r.1.trace⟩,
          ⟨r.2.members, to_int (r.2.size_ + 1), r.2.capacity_, r.2.nb_bytes_⟩),
          Outcome.returned) := by
  subst hr
  rfl

/-- When `emplace_back` throws, the size is the one before the call and the elements
below it are the ones before the call. -/
theorem emplace_back_throwing_threw (throws : Nat → Bool) (T : List Component) (h : Heap)
    (v : vector) (a : List Val) (hwf : v.WF T h) (hg : v.growth_fits T)
    (ht : (vector.emplace_back_throwing throws T h v a).2 = Outcome.threw) :
    (vector.emplace_back_throwing throws T h v a).1.2.size_ = v.size_ ∧
      ∀ (i j : Nat) (val : Val), (j : Int) < v.size_ → v.get T h i j = some val →
        (vector.emplace_back_throwing throws T h v a).1.2.get T
          (vector.emplace_back_throwing throws T h v a).1.1 i j = some val := by
  obtain ⟨r, hr⟩ : ∃ r, r = if v.size = v.capacity then
      vector.reserve T h v v.new_capacity else (h, v) := ⟨_, rfl⟩
  obtain ⟨hr1, hr2, hr3, hr4⟩ := emplace_back_grow T h v hwf hg r hr
  rw [emplace_back_throwing_eq throws T h v a r hr] at ht ⊢
  cases heo : (emplace_back_impl_throwing throws r.2.size_ 0 T r.2.members a r.1.mem).2 with
  | returned =>
    rw [heo] at ht
    exact absurd ht (by simp)
  | threw =>
    simp only
    refine ⟨hr2, fun i j val hj hget => ?_⟩
    have h0 : 0 ≤ v.size_ := hwf.1
    have hpos : 0 < r.2.capacity_ := by omega
    obtain ⟨blk, _, hsep⟩ := wf_separated T _ _ hr1 hpos
    obtain ⟨c, p, hc, hp, hload⟩ := get_some_elim T _ _ i j val (hr4 i j val hj hget)
    rw [get_eq_load T _ r.2 i _ c p hc hp]
    rw [hr2]
    show (emplace_back_impl_throwing throws v.size_ 0 T r.2.members a r.1.mem).1.load _ _ = _
    rw [load_emplace_back_impl_throwing throws v.size_ _ h0 hr3 blk 0 T _ a _ hsep i c p hc hp
      j (by omega) hj]
    exact hload

/-- When `emplace_back` with throwing constructors returns, it is `emplace_back`. -/
theorem emplace_back_throwing_returned (throws : Nat → Bool) (T : List Component) (h : Heap)
    (v : vector) (a : List Val)
    (ht : (vector.emplace_back_throwing throws T h v a).2 = Outcome.returned) :
    (vector.emplace_back_throwing throws T h v a).1 = vector.emplace_back T h v a := by
  obtain ⟨r, hr⟩ : ∃ r, r = if v.size = v.capacity then
      vector.reserve T h v v.new_capacity else (h, v) := ⟨_, rfl⟩
  rw [emplace_back_throwing_eq throws T h v a r hr] at ht ⊢
  have hi := emplace_back_impl_throwing_returned throws r.2.size_ 0 T r.2.members a r.1.mem
  cases heo : (emplace_back_impl_throwing throws r.2.size_ 0 T r.2.members a r.1.mem).2 with
  | threw =>
    rw [heo] at ht
    exact absurd ht (by simp)
  | returned =>
    simp only
    rw [hi heo, emplace_back_eq T h v a r hr]

/-! ## A container of owners -/

theorem test_owner_WF : test_owner.2.WF owner_t test_owner.1 :=
  emplace_back_WF owner_t _ _ _
    (reserve_WF owner_t _ _ 2 (init_WF owner_t Heap.empty) (fun _ => by decide))
    (fun h => absurd h (by decide))

theorem test_owners_WF : test_owners.2.WF owner_t test_owners.1 :=
  emplace_back_WF owner_t _ _ _ test_owner_WF (fun h => absurd h (by decide))

/-! ## Claims on failing constructors -/

/-- C23, counterexample: a container of owners with size 2 and capacity 2 holds 5 and 6 in
block 1; in `reserve(4)` the move of its second element throws.  The exception
propagates, but the new buffer, block 2, is not given back to the allocator (the trace
ends with its allocation and both blocks are live); the first element, already
constructed in the new buffer, is not destroyed (it reads 5 there); and the container is
not as before: its first element was moved from and no longer reads 5. -/
theorem reserve_failure_leaves_new_buffer :
    (vector.reserve_throwing (fun p => decide (p.off = 8)) owner_t test_owners.1 test_owners.2
      4).2 = Outcome.threw ∧
    (vector.reserve_throwing (fun p => decide (p.off = 8)) owner_t test_owners.1 test_owners.2
      4).1.1.trace = [AllocEvent.allocate 1 16, AllocEvent.allocate 2 32] ∧
    live_after (vector.reserve_throwing (fun p => decide (p.off = 8)) owner_t test_owners.1
      test_owners.2 4).1.1.trace = [1, 2] ∧
    (vector.reserve_throwing (fun p => decide (p.off = 8)) owner_t test_owners.1 test_owners.2
      4).1.1.mem.load ⟨2, 0⟩ 8 = some 5 ∧
    test_owners.2.get owner_t test_owners.1 0 0 = some 5 ∧
    (vector.reserve_throwing (fun p => decide (p.off = 8)) owner_t test_owners.1 test_owners.2
      4).1.2.get owner_t (vector.reserve_throwing (fun p => decide (p.off = 8)) owner_t
        test_owners.1 test_owners.2 4).1.1 0 0 = some 0 := by
  refine ⟨by decide, by decide, by decide, ?_, ?_, ?_⟩
  · decide
  · decide
  · decide

/-- C23, amended: when the move of an element throws during a growing `reserve(c)` (on a
container whose layout, and the layout for `c` elements, are computed without
truncation), the exception propagates and the container is the same object as before
(size, capacity, spans and byte count).  The allocator was called exactly once, to
allocate the new buffer, which is not given back.  No byte outside the old and the new
buffer is written.  Every element below `size()` either reads as before, or was moved:
then the element constructed in the new buffer is still there, not unwound, and the
element of the container is in its moved-from state; so the elements of the container
read as before when a moved-from object of their type keeps its value. -/
theorem reserve_failure_propagates (throws : Ptr → Bool) (T : List Component) (h : Heap)
    (v : vector) (c : Int) (hwf : v.WF T h) (hfit : layout_bound T c < 2147483648)
    (ht : (vector.reserve_throwing throws T h v c).2 = Outcome.threw) :
    (vector.reserve_throwing throws T h v c).1.2 = v ∧
    (vector.reserve_throwing throws T h v c).1.1.trace =
      h.trace ++ [AllocEvent.allocate h.next (total_bytes T c)] ∧
    (∀ b o, b ≠ h.next → (∀ p ∈ v.members, p.ptr_.block ≠ b) →
      (vector.reserve_throwing throws T h v c).1.1.mem.cell b o = h.mem.cell b o) ∧
    ∀ (i j : Nat) (comp : Component) (d : vector_span) (val : Val), (j : Int) < v.size →
      T[i]? = some comp → (create_members ⟨h.next, 0⟩ (shifts T c) T.length)[i]? = some d →
      v.get T h i j = some val →
      (v.get T (vector.reserve_throwing throws T h v c).1.1 i j = some val ∨
        ((vector.reserve_throwing throws T h v c).1.1.mem.load (d.ptr_.add j comp.size)
            comp.size = some val ∧
          v.get T (vector.reserve_throwing throws T h v c).1.1 i j =
            some (comp.moved val))) ∧
      (comp.moved val = val →
        v.get T (vector.reserve_throwing throws T h v c).1.1 i j = some val) := by
  obtain ⟨hcap, hpos, heq⟩ := reserve_throwing_threw throws T h v c ht
  rw [heq]
  have h0 := hwf.1
  have h1 := hwf.2.1
  have hcpos : 0 < v.capacity_ := by omega
  obtain ⟨blks, hblks, hseps⟩ := wf_separated T h v hwf hcpos
  have hsep := separated_create_members T c (by omega) hfit h.next
  have hmb := separated_block _ blks T _ hseps
  refine ⟨rfl, rfl, ?_, ?_⟩
  · intro b o hb hp
    show (move_array_throwing throws v.size_ T v.members
      (create_members ⟨h.next, 0⟩ (shifts T c) T.length) h.mem).1.cell b o = h.mem.cell b o
    cases hm : v.members with
    | nil =>
      cases T <;> simp [move_array_throwing]
    | cons p ps =>
      have hpm : p ∈ v.members := by rw [hm]; exact List.mem_cons_self _ _
      rw [← hm]
      apply move_array_throwing_cell_of_outside throws v.size_ h.next blks T v.members _ _
        (create_members_block ⟨h.next, 0⟩ _ _) hmb b o (Or.inl hb)
      refine Or.inl ?_
      rw [← hmb p hpm]
      exact Ne.symm (hp p hpm)
  · intro i j comp d val hj hc hd hget
    obtain ⟨c1, p, hc1, hp, hload⟩ := get_some_elim T h v i j val hget
    rw [hc] at hc1
    cases hc1
    have hmain := load_move_array_throwing throws v.size_ c v.capacity_ h.next blks
      (by omega) (by omega) h1 T v.members _ h.mem hsep hseps i comp p d hc hp hd j hj val hload
    have hg : ∀ m1 : Mem, v.get T (⟨m1, h.next + 1,
        h.trace ++ [AllocEvent.allocate h.next (total_bytes T c)]⟩ : Heap) i j =
        m1.load (p.ptr_.add j comp.size) comp.size :=
      fun m1 => get_eq_load T _ v i j comp p hc hp
    rw [hg]
    refine ⟨hmain, fun hmv => ?_⟩
    rcases hmain with hl | ⟨_, hl⟩
    · exact hl
    · rw [hl, hmv]

theorem reserve_failure_propagates_witness :
    test_owners.2.WF owner_t test_owners.1 ∧ layout_bound owner_t 4 < 2147483648 ∧
      (vector.reserve_throwing (fun p => decide (p.off = 8)) owner_t test_owners.1 test_owners.2
        4).2 = Outcome.threw ∧
      (vector.reserve_throwing (fun p => decide (p.off = 8)) owner_t test_owners.1 test_owners.2
        4).1.2 = test_owners.2 ∧
      (vector.reserve_throwing (fun p => decide (p.off = 8)) owner_t test_owners.1 test_owners.2
        4).1.1.trace =
        test_owners.1.trace ++ [AllocEvent.allocate test_owners.1.next (total_bytes owner_t 4)] ∧
      (test_owners.2.get owner_t (vector.reserve_throwing (fun p => decide (p.off = 8)) owner_t
          test_owners.1 test_owners.2 4).1.1 0 (1 : Nat) = some 6 ∨
        ((vector.reserve_throwing (fun p => decide (p.off = 8)) owner_t test_owners.1
            test_owners.2 4).1.1.mem.load
              ((⟨⟨2, 0⟩⟩ : vector_span).ptr_.add (1 : Nat) type_owner.size)
              type_owner.size = some 6 ∧
          test_owners.2.get owner_t (vector.reserve_throwing (fun p => decide (p.off = 8))
            owner_t test_owners.1 test_owners.2 4).1.1 0 (1 : Nat) =
              some (type_owner.moved 6))) :=
  ⟨test_owners_WF, by decide, by decide,
    (reserve_failure_propagates (fun p => decide (p.off = 8)) owner_t test_owners.1
      test_owners.2 4 test_owners_WF (by decide) (by decide)).1,
    (reserve_failure_propagates (fun p => decide (p.off = 8)) owner_t test_owners.1
      test_owners.2 4 test_owners_WF (by decide) (by decide)).2.1,
    ((reserve_failure_propagates (fun p => decide (p.off = 8)) owner_t test_owners.1
      test_owners.2 4 test_owners_WF (by decide) (by decide)).2.2.2 0 1 type_owner ⟨⟨2, 0⟩⟩ 6
        (by decide) rfl rfl (by decide)).1⟩

/-- C24, counterexample: a container of `{ double d; char c; char e; }` after
`reserve(1 << 29)` and `resize(8)` has the segments of `d` and `c` both at offset 0
(`2^29 * 8 = 2^32` is 0 as an `int`), and member 0 of element 1 reads its
value-initialised value.  In `emplace_back(1.0, 'x', 'y')` the construction of `e` throws:
the size is 8 as before, but `c` of the new element was constructed at byte 8, inside `d`
of element 1, which no longer reads its previous value. -/
theorem emplace_back_failure_loses_element :
    test_wrapped_8.2.size = 8 ∧
    test_wrapped_8.2.get double_char_char test_wrapped_8.1 0 1 = some 0 ∧
    (vector.emplace_back_throwing (fun I => decide (I = 2)) double_char_char test_wrapped_8.1
      test_wrapped_8.2 [1, 120, 121]).2 = Outcome.threw ∧
    (vector.emplace_back_throwing (fun I => decide (I = 2)) double_char_char test_wrapped_8.1
      test_wrapped_8.2 [1, 120, 121]).1.2.size = 8 ∧
    (vector.emplace_back_throwing (fun I => decide (I = 2)) double_char_char test_wrapped_8.1
      test_wrapped_8.2 [1, 120, 121]).1.2.get double_char_char
      (vector.emplace_back_throwing (fun I => decide (I = 2)) double_char_char test_wrapped_8.1
        test_wrapped_8.2 [1, 120, 121]).1.1 0 1 = none := by
  unfold test_wrapped_8
  rw [test_wrapped_eq]
  decide

/-- C24, amended: `emplace_back` increments the size last.  On a container whose layout
was computed without truncation, and whose growth step (if the container is full) doubles
the capacity without overflow to a layout computed without truncation, when the
construction of a member of the new element throws, the call ends with the size it
started with and every element below that size reads as before; when nothing throws the
size is one more and the call is the `emplace_back` of the other theorems. -/
theorem emplace_back_failure_keeps_size (throws : Nat → Bool) (T : List Component) (h : Heap)
    (v : vector) (a : List Val) (hwf : v.WF T h) (hg : v.growth_fits T) :
    ((vector.emplace_back_throwing throws T h v a).2 = Outcome.threw →
      (vector.emplace_back_throwing throws T h v a).1.2.size = v.size ∧
      ∀ (i j : Nat) (val : Val), (j : Int) < v.size → v.get T h i j = some val →
        (vector.emplace_back_throwing throws T h v a).1.2.get T
          (vector.emplace_back_throwing throws T h v a).1.1 i j = some val) ∧
    ((vector.emplace_back_throwing throws T h v a).2 = Outcome.returned →
      (vector.emplace_back_throwing throws T h v a).1 = vector.emplace_back T h v a ∧
      (vector.emplace_back_throwing throws T h v a).1.2.size = v.size + 1) := by
  constructor
  · intro ht
    exact emplace_back_throwing_threw throws T h v a hwf hg ht
  · intro ht
    have he := emplace_back_throwing_returned throws T h v a ht
    refine ⟨he, ?_⟩
    rw [he]
    exact emplace_back_size_of_fits T h v a hwf hg

theorem emplace_back_failure_keeps_size_witness :
    test_push_back.2.WF physics_t test_push_back.1 ∧ test_push_back.2.growth_fits physics_t ∧
      (vector.emplace_back_throwing (fun I => decide (I = 2)) physics_t
        test_push_back.1 test_push_back.2 [0, 5, 6, 7]).2 = Outcome.threw ∧
      (vector.emplace_back_throwing (fun I => decide (I = 2)) physics_t
        test_push_back.1 test_push_back.2 [0, 5, 6, 7]).1.2.size = test_push_back.2.size ∧
      (vector.emplace_back_throwing (fun I => decide (I = 2)) physics_t
        test_push_back.1 test_push_back.2 [0, 5, 6, 7]).1.2.get physics_t
          (vector.emplace_back_throwing (fun I => decide (I = 2)) physics_t
            test_push_back.1 test_push_back.2 [0, 5, 6, 7]).1.1 3 (1 : Nat) = some 42 :=
  ⟨test_push_back_WF, test_push_back_growth_fits, by decide,
    ((emplace_back_failure_keeps_size (fun I => decide (I = 2)) physics_t
      test_push_back.1 test_push_back.2 [0, 5, 6, 7] test_push_back_WF
      test_push_back_growth_fits).1 (by decide)).1,
    ((emplace_back_failure_keeps_size (fun I => decide (I = 2)) physics_t
      test_push_back.1 test_push_back.2 [0, 5, 6, 7] test_push_back_WF
      test_push_back_growth_fits).1 (by decide)).2 3 1 42
        (by decide) (test_push_back_get 3 type_int rfl)⟩

end av
